import Mathlib

/-! EnhanceIO LIFO replacement policy (`Driver/enhanceio/eio_lifo.c`)

A shallow embedding of the three stateful entry points of the LIFO policy,

* `eio_lifo_cache_sets_init`
* `eio_lifo_find_reclaim_dbn`
* `eio_lifo_clean_set`

followed by theorems about them.

What `eio_lifo.c` takes from `eio.h` (which is not part of the sources at hand)
is kept as a parameter of the embedding:

* the integer type `index_t` (`IndexT`: an interval of integers with wrap-around
  arithmetic; the theorems hold for every such type in which the indices they
  mention are representable, and `s64` is the instance that the specification's
  integer index gives);
* the block state flags (`StateFlags`);
* the block state table behind `EIO_CACHE_STATE_GET` / `EIO_CACHE_STATE_ON`
  (a function from index to flag word);
* the answer of `vmalloc` and the type in which `i * dmc->assoc` is evaluated
  (arguments of `eio_lifo_cache_sets_init`).

`EIO_ASSERT` is a fatal stop (`Outcome.bug`), the cast `(int)` is `to_int`.
-/

namespace EnhanceIO

/-! ## Machine integers -/

/-- The C type `index_t`: the integers `lo, lo+1, ..., lo+card-1`, arithmetic
wrapping around at both ends. The typedef itself is in `eio.h`. -/
structure IndexT where
  lo : Int
  card : Nat

/-- Reduce an integer result to the value the type holds. -/
def IndexT.wrap (T : IndexT) (x : Int) : Int :=
  T.lo + (x - T.lo) % (T.card : Int)

/-- The value `x` is representable in the type. -/
def IndexT.holds (T : IndexT) (x : Int) : Prop :=
  T.lo ≤ x ∧ x < T.lo + (T.card : Int)

instance (T : IndexT) (x : Int) : Decidable (T.holds x) := by
  unfold IndexT.holds
  exact inferInstance

/-- An unsigned 64-bit integer type: an instance for worked examples of the theorems
that hold for every index type. -/
def u64 : IndexT := ⟨0, 2 ^ 64⟩

/-- Modelled from the spec: the typedef `index_t` is in `eio.h`. The specification
makes a block index an "integer" and has the backward scan wrap "whenever it would fall
below startIndex", in every set, so an index can go below the first slot of every set,
slot 0 included: a signed integer, here 64 bits wide, two's complement. -/
def s64 : IndexT := ⟨-(2 ^ 63), 2 ^ 64⟩

/-- Unsigned 32-bit (`unsigned int`). -/
def u32 : IndexT := ⟨0, 2 ^ 32⟩

/-- The cast `(int) x`: reduction to a 32-bit two's complement `int`. -/
@[irreducible] def to_int (x : Int) : Int :=
  (x + 2 ^ 31) % 2 ^ 32 - 2 ^ 31

/-! ## Data model -/

/-- The block state flags of `eio.h` that the policy uses. `BLOCK_IO_INPROG` is a
mask of several in-progress bits. -/
structure StateFlags where
  INVALID : Nat
  VALID : Nat
  DIRTY : Nat
  BLOCK_IO_INPROG : Nat
  DISKWRITEINPROG : Nat

/-- A concrete flag assignment, one bit per state, `BLOCK_IO_INPROG` the union of the
four in-progress bits (disk read, disk write, cache read, cache write). -/
def eio_flags : StateFlags :=
  { INVALID := 0x01, VALID := 0x02, DIRTY := 0x40,
    BLOCK_IO_INPROG := 0x3c, DISKWRITEINPROG := 0x08 }

/-- Per cache set data structure (`struct eio_lifo_cache_set`). -/
structure eio_lifo_cache_set where
  set_lifo_top : Int
  set_clean_next : Int
deriving DecidableEq

/-- The fields of `struct cache_c` that the policy touches. `cache_state` is the table
read by `EIO_CACHE_STATE_GET` and written by `EIO_CACHE_STATE_ON`; `sp_cache_set` is
`none` for a NULL pointer and otherwise the array the pointer refers to. -/
structure cache_c where
  size : Nat
  consecutive_shift : Nat
  assoc : Nat
  cache_state : Int → Nat
  sp_cache_set : Option (List eio_lifo_cache_set)

/-- Modelled from the spec: the macro `EIO_ASSERT` is declared in `eio.h`; the
specification makes a violated assertion "a fatal internal-consistency failure, not a
recoverable error", so a failed `EIO_ASSERT` ends the call. A call ends in one of three
ways: it returns (`ok`), it stops in a failed `EIO_ASSERT` after reading the states of
`reads` (`bug`), or it faults (`fault`: NULL or out-of-bounds set array access,
division by zero). -/
inductive Outcome (α : Type) where
  | ok (a : α)
  | bug (reads : List Int)
  | fault
deriving DecidableEq

/-- Apply `f` to what a returning call returns. -/
def Outcome.map {α β : Type} (f : α → β) : Outcome α → Outcome β
  | .ok a => .ok (f a)
  | .bug reads => .bug reads
  | .fault => .fault

/-- Run `f` on what a returning call returns; a call that does not return ends the
run. -/
def Outcome.bind {α β : Type} (o : Outcome α) (f : α → Outcome β) : Outcome β :=
  match o with
  | .ok a => f a
  | .bug reads => .bug reads
  | .fault => .fault

/-- The record `cache_sets[set]`, if `set` indexes the array. -/
def cache_set_at (cache_sets : List eio_lifo_cache_set) (set : Int) :
    Option eio_lifo_cache_set :=
  if 0 ≤ set then cache_sets[set.toNat]? else none

/-- The step `i--; if (i < start_index) i = end_index - 1;` -/
def lifo_prev (T : IndexT) (start_index end_index i : Int) : Int :=
  let j := T.wrap (i - 1)
  if j < start_index then T.wrap (end_index - 1) else j

/-! ## `eio_lifo_cache_sets_init` -/

/-- Linux errno for out of memory. -/
def ENOMEM : Int := 12

/-- The `for` loop of `eio_lifo_cache_sets_init`; the first argument counts the
iterations that remain, `i` is the loop variable. The product `i * dmc->assoc` is
evaluated in the type `A` that C's usual arithmetic conversions give to `int` times
the declared type of `assoc` (declared in `eio.h`), then converted to `index_t`. -/
def sets_init_loop (T A : IndexT) (assoc : Nat) :
    Nat → Int → List eio_lifo_cache_set → List eio_lifo_cache_set
  | 0, _, cache_sets => cache_sets
  | n + 1, i, cache_sets =>
    sets_init_loop T A assoc n (i + 1)
      (cache_sets.set i.toNat
        { set_lifo_top := T.wrap (A.wrap (i * assoc)),
          set_clean_next := T.wrap (A.wrap (i * assoc)) })

/-- The function `eio_lifo_cache_sets_init`. `vmalloc` is the allocator's answer:
`none` when it fails, otherwise the (arbitrary) old contents of the memory handed
out, of which `size >> consecutive_shift` records are taken. Returns the cache and
the return value. -/
def eio_lifo_cache_sets_init (T A : IndexT) (dmc : cache_c)
    (vmalloc : Option (Nat → eio_lifo_cache_set)) : cache_c × Int :=
  match vmalloc with
  | none => ({ dmc with sp_cache_set := none }, -ENOMEM)
  | some mem =>
    let cache_sets := (List.range (dmc.size >>> dmc.consecutive_shift)).map mem
    ({ dmc with
        sp_cache_set := some
          (sets_init_loop T A dmc.assoc
            (to_int ((dmc.size >>> dmc.consecutive_shift : Nat) : Int)).toNat 0 cache_sets) },
      0)

/-! ## `eio_lifo_find_reclaim_dbn` -/

/-- State of the `while` loop of `eio_lifo_find_reclaim_dbn` when it is left. -/
structure FindScan where
  /-- Indices whose state was read, in order. -/
  reads : List Int
  /-- The value stored through `index`, if the store was executed. -/
  victim : Option Int
  /-- The variable `i`. -/
  i : Int
  /-- No `EIO_ASSERT` failed. -/
  asserts_ok : Bool
deriving DecidableEq

/-- The `while` loop of `eio_lifo_find_reclaim_dbn`; the first argument is
`(int)dmc->assoc - slots_searched`, the number of iterations that remain. -/
def find_scan (T : IndexT) (F : StateFlags) (cache_state : Int → Nat)
    (start_index end_index : Int) : Nat → Int → FindScan
  | 0, i => { reads := [], victim := none, i := i, asserts_ok := true }
  | n + 1, i =>
    if start_index ≤ i ∧ i < end_index then
      if cache_state i = F.VALID then
        { reads := [i], victim := some i, i := i, asserts_ok := true }
      else
        let r := find_scan T F cache_state start_index end_index n
          (lifo_prev T start_index end_index i)
        { r with reads := i :: r.reads }
    else
      { reads := [], victim := none, i := i, asserts_ok := false }

/-- What a returning call of `eio_lifo_find_reclaim_dbn` leaves behind. -/
structure FindResult where
  dmc : cache_c
  /-- The value stored through `index`, if any. -/
  victim : Option Int
  /-- Indices whose state was read, in order. -/
  reads : List Int

/-- The function `eio_lifo_find_reclaim_dbn`. -/
def eio_lifo_find_reclaim_dbn (T : IndexT) (F : StateFlags) (dmc : cache_c)
    (start_index : Int) : Outcome FindResult :=
  if dmc.assoc = 0 then .fault
  else
    let set := T.wrap (Int.tdiv start_index dmc.assoc)
    let end_index := T.wrap (start_index + dmc.assoc)
    match dmc.sp_cache_set with
    | none => .fault
    | some cache_sets =>
      match cache_set_at cache_sets set with
      | none => .fault
      | some cs =>
        let r := find_scan T F dmc.cache_state start_index end_index
          (to_int dmc.assoc).toNat cs.set_lifo_top
        if r.asserts_ok then
          let i := lifo_prev T start_index end_index r.i
          .ok { dmc := { dmc with
                  sp_cache_set := some
                    (cache_sets.set set.toNat { cs with set_lifo_top := i }) },
                victim := r.victim,
                reads := r.reads }
        else .bug r.reads

/-- The caller's variable behind the pointer `index` after the call, `index0` being
its value before. -/
def FindResult.index (r : FindResult) (index0 : Int) : Int :=
  r.victim.getD index0

/-! ## `eio_lifo_clean_set` -/

/-- State of the `while` loop of `eio_lifo_clean_set` when it is left. -/
structure CleanScan where
  cache_state : Int → Nat
  i : Int
  nr_writes : Int
  /-- Indices whose state was examined, in order. -/
  visited : List Int
  /-- For every `EIO_CACHE_STATE_ON`, the index and the state it was found in. -/
  marked : List (Int × Nat)

/-- The `while` loop of `eio_lifo_clean_set`; the first argument is
`(int)dmc->assoc - scanned`, the number of iterations the first conjunct allows. -/
def clean_scan (T : IndexT) (F : StateFlags) (start_index end_index to_clean : Int) :
    Nat → (Int → Nat) → Int → Int → CleanScan
  | 0, cache_state, i, nr_writes =>
    { cache_state := cache_state, i := i, nr_writes := nr_writes,
      visited := [], marked := [] }
  | n + 1, cache_state, i, nr_writes =>
    if nr_writes < to_clean then
      if cache_state i &&& (F.DIRTY ||| F.BLOCK_IO_INPROG) = F.DIRTY then
        let r := clean_scan T F start_index end_index to_clean n
          (Function.update cache_state i (cache_state i ||| F.DISKWRITEINPROG))
          (lifo_prev T start_index end_index i) (nr_writes + 1)
        { r with visited := i :: r.visited, marked := (i, cache_state i) :: r.marked }
      else
        let r := clean_scan T F start_index end_index to_clean n cache_state
          (lifo_prev T start_index end_index i) nr_writes
        { r with visited := i :: r.visited }
    else
      { cache_state := cache_state, i := i, nr_writes := nr_writes,
        visited := [], marked := [] }

/-- What a returning call of `eio_lifo_clean_set` leaves behind. -/
structure CleanResult where
  dmc : cache_c
  /-- The return value. -/
  nr_writes : Int
  visited : List Int
  marked : List (Int × Nat)

/-- The function `eio_lifo_clean_set`. -/
def eio_lifo_clean_set (T : IndexT) (F : StateFlags) (dmc : cache_c)
    (set : Int) (to_clean : Int) : Outcome CleanResult :=
  match dmc.sp_cache_set with
  | none => .fault
  | some cache_sets =>
    let start_index := T.wrap (set * dmc.assoc)
    let end_index := T.wrap (start_index + dmc.assoc)
    match cache_set_at cache_sets set with
    | none => .fault
    | some cs =>
      let r := clean_scan T F start_index end_index to_clean
        (to_int dmc.assoc).toNat dmc.cache_state cs.set_clean_next 0
      .ok { dmc := { dmc with
              cache_state := r.cache_state,
              sp_cache_set := some
                (cache_sets.set set.toNat { cs with set_clean_next := r.i }) },
            nr_writes := r.nr_writes,
            visited := r.visited,
            marked := r.marked }

/-! ## Observers -/

/-- The eviction cursor `cache_sets[set].set_lifo_top`. -/
def cache_c.lifo_top (dmc : cache_c) (set : Int) : Option Int :=
  (dmc.sp_cache_set.bind fun cache_sets => cache_set_at cache_sets set).map
    fun cs => cs.set_lifo_top

/-- The clean cursor `cache_sets[set].set_clean_next`. -/
def cache_c.clean_next (dmc : cache_c) (set : Int) : Option Int :=
  (dmc.sp_cache_set.bind fun cache_sets => cache_set_at cache_sets set).map
    fun cs => cs.set_clean_next

/-- What is observed of a returning `eio_lifo_find_reclaim_dbn`: the victim stored, the
eviction cursor of set `set` afterwards, the indices read. -/
def FindResult.view (r : FindResult) (set : Int) : Option Int × Option Int × List Int :=
  (r.victim, r.dmc.lifo_top set, r.reads)

/-- What is observed of a returning `eio_lifo_clean_set`: the return value, the clean
cursor of set `set` afterwards, the indices examined, the indices marked. -/
def CleanResult.view (r : CleanResult) (set : Int) :
    Int × Option Int × List Int × List Int :=
  (r.nr_writes, r.dmc.clean_next set, r.visited, r.marked.map fun p => p.1)

/-- The indices whose state a call of `eio_lifo_find_reclaim_dbn` has read, whether it
returned or stopped in a failed assertion. -/
def find_reads : Outcome FindResult → List Int
  | .ok r => r.reads
  | .bug reads => reads
  | .fault => []

/-- The victim a call of `eio_lifo_find_reclaim_dbn` has stored, if any. -/
def find_victim : Outcome FindResult → Option Int
  | .ok r => r.victim
  | .bug _ => none
  | .fault => none

/-- The set that starts at `s` can be walked backward in the index type: `0`, `s - 1`
and `s + assoc` are representable. In a signed index type (`s64`) this is every set
whose end `s + assoc` is representable. -/
def IndexT.walks (T : IndexT) (s : Int) (assoc : Nat) : Prop :=
  T.holds 0 ∧ T.holds (s - 1) ∧ T.holds (s + assoc)

instance (T : IndexT) (s : Int) (assoc : Nat) : Decidable (T.walks s assoc) := by
  unfold IndexT.walks
  exact inferInstance

/-- The test of `eio_lifo_clean_set` on a state word:
`(state & (DIRTY | BLOCK_IO_INPROG)) == DIRTY`. -/
def StateFlags.cleanable (F : StateFlags) (state : Nat) : Prop :=
  state &&& (F.DIRTY ||| F.BLOCK_IO_INPROG) = F.DIRTY

instance (F : StateFlags) (state : Nat) : Decidable (F.cleanable state) := by
  unfold StateFlags.cleanable
  exact inferInstance

/-- The slot `k` steps behind `c` in the backward cyclic order of the set
`[s, s + a)`: `c, c - 1, ..., s, s + a - 1, ...`. -/
def back_slot (s : Int) (a : Nat) (c : Int) (k : Nat) : Int :=
  if (k : Int) ≤ c - s then c - k else c - k + a

/-- The slot behind `x` in the backward cyclic order of the set `[s, s + a)`. -/
def prev_slot (s : Int) (a : Nat) (x : Int) : Int :=
  if x = s then s + a - 1 else x - 1

/-- The slots `k, k + 1, ..., k + m - 1` steps behind `c`, in this order. -/
def back_list (s : Int) (a : Nat) (c : Int) : Nat → Nat → List Int
  | _, 0 => []
  | k, m + 1 => back_slot s a c k :: back_list s a c (k + 1) m

/-- The blocks among the `n` slots from `k` steps behind `c` on that pass the test of
`eio_lifo_clean_set` in the table `cache_state`, in backward cyclic order. -/
def eligible_list (F : StateFlags) (cache_state : Int → Nat) (s : Int) (a : Nat) (c : Int)
    (k n : Nat) : List Int :=
  (back_list s a c k n).filter fun j => decide (F.cleanable (cache_state j))

/-- Consecutive calls of `eio_lifo_find_reclaim_dbn` with the same `start_index`, the
block states left as they are in between: the cache afterwards and the victims stored,
in order. -/
def find_run (T : IndexT) (F : StateFlags) (start_index : Int) :
    Nat → cache_c → Outcome (cache_c × List (Option Int))
  | 0, dmc => .ok (dmc, [])
  | n + 1, dmc =>
    (eio_lifo_find_reclaim_dbn T F dmc start_index).bind fun r =>
      (find_run T F start_index n r.dmc).map fun p => (p.1, r.victim :: p.2)

/-- Consecutive calls of `eio_lifo_clean_set` on one set, one for each `to_clean` of the
list: the cache afterwards and the slots examined, in order. -/
def clean_run (T : IndexT) (F : StateFlags) (set : Int) :
    List Int → cache_c → Outcome (cache_c × List Int)
  | [], dmc => .ok (dmc, [])
  | to_clean :: rest, dmc =>
    (eio_lifo_clean_set T F dmc set to_clean).bind fun r =>
      (clean_run T F set rest r.dmc).map fun p => (p.1, r.visited ++ p.2)

/-- The cursor-range invariant: the two cursors of every set `g` of the set array lie
in `[g * assoc, g * assoc + assoc)`. -/
def cursors_in_range (dmc : cache_c) : Prop :=
  ∀ cache_sets, dmc.sp_cache_set = some cache_sets →
    ∀ (g : Int) (cs : eio_lifo_cache_set), cache_set_at cache_sets g = some cs →
      (g * dmc.assoc ≤ cs.set_lifo_top ∧ cs.set_lifo_top < g * dmc.assoc + dmc.assoc) ∧
      (g * dmc.assoc ≤ cs.set_clean_next ∧ cs.set_clean_next < g * dmc.assoc + dmc.assoc)

/-- The states of the cache that can be reached from a successful
`eio_lifo_cache_sets_init` by returning calls of `eio_lifo_find_reclaim_dbn` on the
first slot of a set of the array, returning calls of `eio_lifo_clean_set` with any
`to_clean`, and changes of the block states by the engine. -/
inductive reachable (T A : IndexT) (F : StateFlags) (dmc0 : cache_c)
    (mem : Nat → eio_lifo_cache_set) : cache_c → Prop where
  | init : reachable T A F dmc0 mem (eio_lifo_cache_sets_init T A dmc0 (some mem)).1
  | find (dmc : cache_c) (g : Int) (r : FindResult) :
      reachable T A F dmc0 mem dmc →
      eio_lifo_find_reclaim_dbn T F dmc (g * dmc.assoc) = .ok r →
      T.wrap (Int.tdiv (g * dmc.assoc) dmc.assoc) = g →
      reachable T A F dmc0 mem r.dmc
  | clean (dmc : cache_c) (set to_clean : Int) (r : CleanResult) :
      reachable T A F dmc0 mem dmc →
      eio_lifo_clean_set T F dmc set to_clean = .ok r →
      reachable T A F dmc0 mem r.dmc
  | engine (dmc : cache_c) (cache_state : Int → Nat) :
      reachable T A F dmc0 mem dmc →
      reachable T A F dmc0 mem { dmc with cache_state := cache_state }

/-! ## Worked examples -/

/-- A cache of `n_sets` sets of four blocks each. -/
def cache4 (n_sets : Nat) (cache_state : Int → Nat)
    (cache_sets : List eio_lifo_cache_set) : cache_c :=
  { size := 4 * n_sets
    consecutive_shift := 2
    assoc := 4
    cache_state := cache_state
    sp_cache_set := some cache_sets }

/-- Two sets; block 6 is the only VALID block of set 1. -/
def one_valid_state : Int → Nat :=
  fun i => if i = 6 then eio_flags.VALID else eio_flags.INVALID

/-- Scenario A of the specification: blocks 100..103 in states
DIRTY, VALID, DIRTY|BLOCK_IO_INPROG, INVALID. -/
def scenario_a_state (F : StateFlags) : Int → Nat :=
  fun i =>
    if i = 100 then F.DIRTY
    else if i = 101 then F.VALID
    else if i = 102 then F.DIRTY ||| F.BLOCK_IO_INPROG
    else F.INVALID

/-- Set records of 26 sets of four blocks, set 25 with `set_clean_next = 103`. -/
def scenario_a_sets : List eio_lifo_cache_set :=
  ((List.range 26).map fun g => { set_lifo_top := 4 * g, set_clean_next := 4 * g }).set 25
    { set_lifo_top := 100, set_clean_next := 103 }

/-- A cache of `n_sets` sets of four blocks each, before `eio_lifo_cache_sets_init`. -/
def cache4_fresh (n_sets : Nat) (cache_state : Int → Nat) : cache_c :=
  { size := 4 * n_sets
    consecutive_shift := 2
    assoc := 4
    cache_state := cache_state
    sp_cache_set := none }

/-- Old contents of the memory that `vmalloc` hands out. -/
def stale_memory : Nat → eio_lifo_cache_set :=
  fun _ => { set_lifo_top := 77, set_clean_next := 77 }

/-- The cache `cache4_fresh n_sets cache_state` after `eio_lifo_cache_sets_init`. -/
def cache4_init (T : IndexT) (n_sets : Nat) (cache_state : Int → Nat) : cache_c :=
  (eio_lifo_cache_sets_init T u32 (cache4_fresh n_sets cache_state) (some stale_memory)).1

/-- A cache in which `assoc = 2` does not agree with `consecutive_shift = 2`: eight
blocks, of which `8 >> 2 = 2` set records are made, while blocks 4..7 belong to the
sets `b / 2 = 2, 3`. -/
def mismatch_cache : cache_c :=
  { size := 8
    consecutive_shift := 2
    assoc := 2
    cache_state := fun _ => eio_flags.VALID
    sp_cache_set := none }

/-- Set 0 (blocks 0..3) with block 2 the only VALID block. -/
def block_two_valid : Int → Nat :=
  fun i => if i = 2 then eio_flags.VALID else eio_flags.INVALID

/-- Set 0 (blocks 0..3) with blocks 1 and 3 VALID. -/
def blocks_one_three_valid : Int → Nat :=
  fun i => if i = 1 ∨ i = 3 then eio_flags.VALID else eio_flags.INVALID

/-- Every block INVALID. -/
def all_invalid : Int → Nat := fun _ => eio_flags.INVALID

/-- Every block VALID. -/
def all_valid : Int → Nat := fun _ => eio_flags.VALID

/-- Every block DIRTY. -/
def all_dirty : Int → Nat := fun _ => eio_flags.DIRTY

/-- Set records of two sets of four blocks, both cursors of set 0 at `c`. -/
def two_sets (c : Int) : List eio_lifo_cache_set :=
  [{ set_lifo_top := c, set_clean_next := c }, { set_lifo_top := 4, set_clean_next := 4 }]
/-! ## Arithmetic of the index type -/

theorem IndexT.wrap_of_holds (T : IndexT) (x : Int) (h : T.holds x) : T.wrap x = x := by
  obtain ⟨h1, h2⟩ := h
  unfold IndexT.wrap
  rw [Int.emod_eq_of_lt (by omega) (by omega)]
  omega

theorem IndexT.holds_of_between (T : IndexT) (a b x : Int) (ha : T.holds a) (hb : T.holds b)
    (h1 : a ≤ x) (h2 : x ≤ b) : T.holds x := by
  unfold IndexT.holds at *
  omega

theorem to_int_toNat_le (a : Nat) : (to_int a).toNat ≤ a := by
  unfold to_int
  omega

theorem to_int_toNat_eq (a : Nat) (h : a < 2 ^ 31) : (to_int a).toNat = a := by
  unfold to_int
  omega

theorem lifo_prev_eq (T : IndexT) (s i : Int) (n : Nat) (hw : T.walks s n)
    (h1 : s ≤ i) (h2 : i < s + n) :
    lifo_prev T s (s + n) i = if i = s then s + n - 1 else i - 1 := by
  obtain ⟨_, hs, he⟩ := hw
  have hi : T.holds (i - 1) := T.holds_of_between (s - 1) (s + n) _ hs he (by omega) (by omega)
  have hl : T.holds (s + n - 1) :=
    T.holds_of_between (s - 1) (s + n) _ hs he (by omega) (by omega)
  unfold lifo_prev
  simp only [T.wrap_of_holds _ hi, T.wrap_of_holds _ hl]
  split_ifs <;> omega

theorem lifo_prev_mem (T : IndexT) (s i : Int) (n : Nat) (hw : T.walks s n)
    (h1 : s ≤ i) (h2 : i < s + n) :
    s ≤ lifo_prev T s (s + n) i ∧ lifo_prev T s (s + n) i < s + n := by
  rw [lifo_prev_eq T s i n hw h1 h2]
  split_ifs <;> omega

/-! ## The victim is a VALID block of the scanned range -/

theorem find_scan_victim (T : IndexT) (F : StateFlags) (st : Int → Nat) (s e : Int) :
    ∀ (n : Nat) (i v : Int), (find_scan T F st s e n i).victim = some v →
      s ≤ v ∧ v < e ∧ st v = F.VALID := by
  intro n
  induction n with
  | zero => intro i v h; simp [find_scan] at h
  | succ n ih =>
    intro i v h
    unfold find_scan at h
    split_ifs at h with hr hv
    · simp only [Option.some.injEq] at h
      subst h
      exact ⟨hr.1, hr.2, hv⟩
    · exact ih _ _ h

/-- The call unfolded, for a cache with a set array that holds the addressed set;
`n` is the iteration bound `(int)dmc->assoc`. -/
theorem find_reclaim_eq (T : IndexT) (F : StateFlags) (dmc : cache_c) (start_index : Int)
    (cache_sets : List eio_lifo_cache_set) (cs : eio_lifo_cache_set) (n : Nat)
    (h0 : dmc.assoc ≠ 0) (hsets : dmc.sp_cache_set = some cache_sets)
    (hcs : cache_set_at cache_sets (T.wrap (Int.tdiv start_index dmc.assoc)) = some cs)
    (hn : (to_int dmc.assoc).toNat = n) :
    eio_lifo_find_reclaim_dbn T F dmc start_index =
      if (find_scan T F dmc.cache_state start_index (T.wrap (start_index + dmc.assoc))
          n cs.set_lifo_top).asserts_ok then
        .ok { dmc := { dmc with
                sp_cache_set := some
                  (cache_sets.set (T.wrap (Int.tdiv start_index dmc.assoc)).toNat
                    { cs with
                      set_lifo_top :=
                        (lifo_prev T start_index (T.wrap (start_index + dmc.assoc))
                          (find_scan T F dmc.cache_state start_index
                            (T.wrap (start_index + dmc.assoc)) n cs.set_lifo_top).i) }) }
              victim := (find_scan T F dmc.cache_state start_index
                (T.wrap (start_index + dmc.assoc)) n cs.set_lifo_top).victim
              reads := (find_scan T F dmc.cache_state start_index
                (T.wrap (start_index + dmc.assoc)) n cs.set_lifo_top).reads }
      else .bug (find_scan T F dmc.cache_state start_index
        (T.wrap (start_index + dmc.assoc)) n cs.set_lifo_top).reads := by
  simp only [eio_lifo_find_reclaim_dbn, h0, hsets, hcs, hn, if_false]

/-- A call that returns has found its set record and run its loop without a failed
assertion; the result is made of the loop's final state. -/
theorem find_reclaim_ok_inv (T : IndexT) (F : StateFlags) (dmc : cache_c) (start_index : Int)
    (r : FindResult) (hcall : eio_lifo_find_reclaim_dbn T F dmc start_index = .ok r) :
    ∃ cache_sets cs n, dmc.assoc ≠ 0 ∧ dmc.sp_cache_set = some cache_sets ∧
      cache_set_at cache_sets (T.wrap (Int.tdiv start_index dmc.assoc)) = some cs ∧
      (to_int dmc.assoc).toNat = n ∧
      (find_scan T F dmc.cache_state start_index (T.wrap (start_index + dmc.assoc))
          n cs.set_lifo_top).asserts_ok = true ∧
      r.victim = (find_scan T F dmc.cache_state start_index
          (T.wrap (start_index + dmc.assoc)) n cs.set_lifo_top).victim ∧
      r.reads = (find_scan T F dmc.cache_state start_index
          (T.wrap (start_index + dmc.assoc)) n cs.set_lifo_top).reads ∧
      r.dmc = { dmc with
                sp_cache_set := some
                  (cache_sets.set (T.wrap (Int.tdiv start_index dmc.assoc)).toNat
                    { cs with
                      set_lifo_top :=
                        (lifo_prev T start_index (T.wrap (start_index + dmc.assoc))
                          (find_scan T F dmc.cache_state start_index
                            (T.wrap (start_index + dmc.assoc)) n cs.set_lifo_top).i) }) } := by
  obtain ⟨n, hn⟩ : ∃ n, (to_int dmc.assoc).toNat = n := ⟨_, rfl⟩
  by_cases h0 : dmc.assoc = 0
  · simp [eio_lifo_find_reclaim_dbn, h0] at hcall
  · cases hsets : dmc.sp_cache_set with
    | none => simp [eio_lifo_find_reclaim_dbn, h0, hsets] at hcall
    | some cache_sets =>
      cases hcs : cache_set_at cache_sets (T.wrap (Int.tdiv start_index dmc.assoc)) with
      | none =>
        simp only [eio_lifo_find_reclaim_dbn, h0, hsets, hcs, if_false] at hcall
        cases hcall
      | some cs =>
        rw [find_reclaim_eq T F dmc start_index cache_sets cs n h0 hsets hcs hn] at hcall
        split_ifs at hcall with hok
        simp only [Outcome.ok.injEq] at hcall
        cases r with
        | mk rd rv rr =>
          simp only [FindResult.mk.injEq] at hcall
          exact ⟨cache_sets, cs, n, h0, rfl, hcs, hn, hok, hcall.2.1.symm, hcall.2.2.symm,
            hcall.1.symm⟩

/-- C1. Whenever `eio_lifo_find_reclaim_dbn` returns having stored a victim index `v`
through `index`, that index lies in `[start_index, start_index + assoc)` and the
state of block `v` at the time of the call is exactly `VALID`. This holds for every
index type in which `start_index + assoc` is representable, every cursor value and
every state table. -/
theorem find_reclaim_victim_valid (T : IndexT) (F : StateFlags) (dmc : cache_c)
    (start_index : Int) (r : FindResult) (v : Int)
    (hfit : T.holds (start_index + dmc.assoc))
    (hcall : eio_lifo_find_reclaim_dbn T F dmc start_index = .ok r)
    (hv : r.victim = some v) :
    start_index ≤ v ∧ v < start_index + dmc.assoc ∧ dmc.cache_state v = F.VALID := by
  obtain ⟨cache_sets, cs, n, _, _, _, _, _, hvic, _, _⟩ :=
    find_reclaim_ok_inv T F dmc start_index r hcall
  rw [hvic, T.wrap_of_holds _ hfit] at hv
  exact find_scan_victim T F dmc.cache_state _ _ _ _ _ hv

theorem find_reclaim_victim_valid_witness :
    (4 : Int) ≤ 6 ∧ (6 : Int) < 4 + ((cache4 2 one_valid_state [⟨0, 0⟩, ⟨4, 4⟩]).assoc : Int) ∧
      (cache4 2 one_valid_state [⟨0, 0⟩, ⟨4, 4⟩]).cache_state 6 = eio_flags.VALID :=
  find_reclaim_victim_valid u64 eio_flags (cache4 2 one_valid_state [⟨0, 0⟩, ⟨4, 4⟩]) 4
    { dmc := cache4 2 one_valid_state [⟨0, 0⟩, ⟨5, 4⟩]
      victim := some 6
      reads := [4, 7, 6] }
    6 (by decide) (by with_unfolding_all rfl) rfl

/-! ## `eio_lifo_clean_set` marks only cleanable blocks, at most `to_clean` of them -/

theorem cleanable_bits (F : StateFlags) (state : Nat)
    (hD : F.DIRTY &&& F.BLOCK_IO_INPROG = 0) (h : F.cleanable state) :
    state &&& F.DIRTY = F.DIRTY ∧ state &&& F.BLOCK_IO_INPROG = 0 := by
  unfold StateFlags.cleanable at h
  constructor <;> apply Nat.eq_of_testBit_eq <;> intro k
  all_goals
    have h1 := congrArg (fun y => y.testBit k) h
    have h2 := congrArg (fun y => y.testBit k) hD
    simp only [Nat.testBit_and, Nat.testBit_or, Nat.zero_testBit] at *
    revert h1 h2
    cases state.testBit k <;> cases F.DIRTY.testBit k <;>
      cases F.BLOCK_IO_INPROG.testBit k <;> simp

/-- The call unfolded, for a cache with a set array that holds the addressed set;
`n` is the iteration bound `(int)dmc->assoc`. The call always returns. -/
theorem clean_set_eq (T : IndexT) (F : StateFlags) (dmc : cache_c) (set to_clean : Int)
    (cache_sets : List eio_lifo_cache_set) (cs : eio_lifo_cache_set) (n : Nat)
    (hsets : dmc.sp_cache_set = some cache_sets)
    (hcs : cache_set_at cache_sets set = some cs)
    (hn : (to_int dmc.assoc).toNat = n) :
    ∃ r, eio_lifo_clean_set T F dmc set to_clean = .ok r ∧
      r.nr_writes = (clean_scan T F (T.wrap (set * dmc.assoc))
        (T.wrap (T.wrap (set * dmc.assoc) + dmc.assoc)) to_clean n dmc.cache_state
        cs.set_clean_next 0).nr_writes ∧
      r.visited = (clean_scan T F (T.wrap (set * dmc.assoc))
        (T.wrap (T.wrap (set * dmc.assoc) + dmc.assoc)) to_clean n dmc.cache_state
        cs.set_clean_next 0).visited ∧
      r.marked = (clean_scan T F (T.wrap (set * dmc.assoc))
        (T.wrap (T.wrap (set * dmc.assoc) + dmc.assoc)) to_clean n dmc.cache_state
        cs.set_clean_next 0).marked ∧
      r.dmc.cache_state = (clean_scan T F (T.wrap (set * dmc.assoc))
        (T.wrap (T.wrap (set * dmc.assoc) + dmc.assoc)) to_clean n dmc.cache_state
        cs.set_clean_next 0).cache_state ∧
      r.dmc.sp_cache_set = some (cache_sets.set set.toNat
        { cs with
          set_clean_next := (clean_scan T F (T.wrap (set * dmc.assoc))
            (T.wrap (T.wrap (set * dmc.assoc) + dmc.assoc)) to_clean n dmc.cache_state
            cs.set_clean_next 0).i }) ∧
      r.dmc.assoc = dmc.assoc ∧ r.dmc.size = dmc.size ∧
      r.dmc.consecutive_shift = dmc.consecutive_shift := by
  simp only [eio_lifo_clean_set, hsets, hcs, hn]
  exact ⟨_, rfl, rfl, rfl, rfl, rfl, rfl, rfl, rfl, rfl⟩

theorem clean_scan_count (T : IndexT) (F : StateFlags) (s e to_clean : Int) :
    ∀ (n : Nat) (st : Int → Nat) (i nw : Int), nw ≤ to_clean →
      (clean_scan T F s e to_clean n st i nw).nr_writes ≤ to_clean ∧
      (clean_scan T F s e to_clean n st i nw).nr_writes ≤ nw + n ∧
      (clean_scan T F s e to_clean n st i nw).nr_writes =
        nw + (clean_scan T F s e to_clean n st i nw).marked.length := by
  intro n
  induction n with
  | zero => intro st i nw h; simp [clean_scan, h]
  | succ n ih =>
    intro st i nw h
    unfold clean_scan
    split_ifs with h1 h2
    · obtain ⟨a, b, c⟩ := ih (Function.update st i (st i ||| F.DISKWRITEINPROG))
        (lifo_prev T s e i) (nw + 1) (by omega)
      refine ⟨a, ?_, ?_⟩
      · push_cast; omega
      · simp only [List.length_cons]; push_cast; omega
    · obtain ⟨a, b, c⟩ := ih st (lifo_prev T s e i) nw h
      refine ⟨a, ?_, c⟩
      push_cast; omega
    · dsimp only
      exact ⟨h, by omega, by simp⟩

theorem clean_scan_marked (T : IndexT) (F : StateFlags) (s e to_clean : Int) :
    ∀ (n : Nat) (st : Int → Nat) (i nw : Int),
      ∀ p ∈ (clean_scan T F s e to_clean n st i nw).marked, F.cleanable p.2 := by
  intro n
  induction n with
  | zero => intro st i nw p hp; simp [clean_scan] at hp
  | succ n ih =>
    intro st i nw p hp
    unfold clean_scan at hp
    split_ifs at hp with h1 h2
    · simp only [List.mem_cons] at hp
      rcases hp with rfl | hp
      · exact h2
      · exact ih _ _ _ p hp
    · exact ih _ _ _ p hp
    · simp at hp

/-- Every state word the loop changes was cleanable before the loop, and the change
is the `DISKWRITEINPROG` bit. -/
theorem clean_scan_frame (T : IndexT) (F : StateFlags) (s e to_clean : Int) :
    ∀ (n : Nat) (st : Int → Nat) (i nw : Int) (j : Int),
      (clean_scan T F s e to_clean n st i nw).cache_state j = st j ∨
      (F.cleanable (st j) ∧ j ∈ (clean_scan T F s e to_clean n st i nw).visited ∧
        (clean_scan T F s e to_clean n st i nw).cache_state j =
          st j ||| F.DISKWRITEINPROG) := by
  intro n
  induction n with
  | zero => intro st i nw j; simp [clean_scan]
  | succ n ih =>
    intro st i nw j
    unfold clean_scan
    split_ifs with h1 h2
    · simp only [List.mem_cons]
      by_cases hj : j = i
      · subst hj
        right
        refine ⟨h2, Or.inl rfl, ?_⟩
        rcases ih (Function.update st j (st j ||| F.DISKWRITEINPROG))
          (lifo_prev T s e j) (nw + 1) j with h | ⟨_, _, h⟩
        · rw [h]; simp
        · rw [h]; simp [Nat.or_assoc]
      · rcases ih (Function.update st i (st i ||| F.DISKWRITEINPROG))
          (lifo_prev T s e i) (nw + 1) j with h | ⟨hc, hv, h⟩
        · left; rw [h]; simp [Function.update, hj]
        · right
          simp only [Function.update, hj, dite_false] at hc h
          exact ⟨hc, Or.inr hv, h⟩
    · simp only [List.mem_cons]
      rcases ih st (lifo_prev T s e i) nw j with h | ⟨hc, hv, h⟩
      · exact Or.inl h
      · exact Or.inr ⟨hc, Or.inr hv, h⟩
    · simp

/-- C2. For every set of the set array, every state table and every `to_clean ≥ 0`,
`eio_lifo_clean_set` returns; the count it returns is at most `to_clean` and at most
`assoc` and is the number of blocks it marked; every block it marked with
`DISKWRITEINPROG` had, when it was examined, the `DIRTY` bit set and no
`BLOCK_IO_INPROG` bit set; and every block whose state differs after the call had the
`DIRTY` bit set and no `BLOCK_IO_INPROG` bit set before the call. (`DIRTY` is taken
to be no `BLOCK_IO_INPROG` bit.) -/
theorem clean_set_marks_only_cleanable (T : IndexT) (F : StateFlags) (dmc : cache_c)
    (set to_clean : Int) (cache_sets : List eio_lifo_cache_set) (cs : eio_lifo_cache_set)
    (hD : F.DIRTY &&& F.BLOCK_IO_INPROG = 0)
    (hsets : dmc.sp_cache_set = some cache_sets)
    (hcs : cache_set_at cache_sets set = some cs)
    (hto : 0 ≤ to_clean) :
    ∃ r, eio_lifo_clean_set T F dmc set to_clean = .ok r ∧
      r.nr_writes ≤ to_clean ∧ r.nr_writes ≤ dmc.assoc ∧
      r.nr_writes = r.marked.length ∧
      (∀ p ∈ r.marked, p.2 &&& F.DIRTY = F.DIRTY ∧ p.2 &&& F.BLOCK_IO_INPROG = 0) ∧
      (∀ j, r.dmc.cache_state j ≠ dmc.cache_state j →
        dmc.cache_state j &&& F.DIRTY = F.DIRTY ∧
        dmc.cache_state j &&& F.BLOCK_IO_INPROG = 0) := by
  obtain ⟨n, hn⟩ : ∃ n, (to_int dmc.assoc).toNat = n := ⟨_, rfl⟩
  obtain ⟨r, hr, hw, _, hm, hst, _⟩ :=
    clean_set_eq T F dmc set to_clean cache_sets cs n hsets hcs hn
  have hle : n ≤ dmc.assoc := hn ▸ to_int_toNat_le dmc.assoc
  clear hn
  obtain ⟨a, b, c⟩ := clean_scan_count T F (T.wrap (set * dmc.assoc))
    (T.wrap (T.wrap (set * dmc.assoc) + dmc.assoc)) to_clean n
    dmc.cache_state cs.set_clean_next 0 hto
  refine ⟨r, hr, ?_, ?_, ?_, ?_, ?_⟩
  · rw [hw]; exact a
  · rw [hw]; omega
  · rw [hw, hm]; omega
  · intro p hp
    rw [hm] at hp
    exact cleanable_bits F p.2 hD (clean_scan_marked T F _ _ _ _ _ _ _ p hp)
  · intro j hj
    rw [hst] at hj
    rcases clean_scan_frame T F (T.wrap (set * dmc.assoc))
      (T.wrap (T.wrap (set * dmc.assoc) + dmc.assoc)) to_clean n
      dmc.cache_state cs.set_clean_next 0 j with h | ⟨hc, _, _⟩
    · exact absurd h hj
    · exact cleanable_bits F _ hD hc

theorem clean_set_marks_only_cleanable_witness :
    ∃ r, eio_lifo_clean_set u64 eio_flags
        (cache4 26 (scenario_a_state eio_flags) scenario_a_sets) 25 2 = .ok r ∧
      r.nr_writes ≤ 2 ∧
      r.nr_writes ≤ (cache4 26 (scenario_a_state eio_flags) scenario_a_sets).assoc ∧
      r.nr_writes = r.marked.length ∧
      (∀ p ∈ r.marked, p.2 &&& eio_flags.DIRTY = eio_flags.DIRTY ∧
        p.2 &&& eio_flags.BLOCK_IO_INPROG = 0) ∧
      (∀ j, r.dmc.cache_state j ≠
          (cache4 26 (scenario_a_state eio_flags) scenario_a_sets).cache_state j →
        (cache4 26 (scenario_a_state eio_flags) scenario_a_sets).cache_state j &&&
            eio_flags.DIRTY = eio_flags.DIRTY ∧
        (cache4 26 (scenario_a_state eio_flags) scenario_a_sets).cache_state j &&&
            eio_flags.BLOCK_IO_INPROG = 0) :=
  clean_set_marks_only_cleanable u64 eio_flags
    (cache4 26 (scenario_a_state eio_flags) scenario_a_sets) 25 2 scenario_a_sets
    { set_lifo_top := 100, set_clean_next := 103 } (by decide) rfl (by decide) (by decide)

/-! ## `eio_lifo_cache_sets_init` -/

theorem sets_init_loop_spec (T A : IndexT) (assoc : Nat) :
    ∀ (n k : Nat) (cache_sets : List eio_lifo_cache_set), k + n ≤ cache_sets.length →
      (sets_init_loop T A assoc n k cache_sets).length = cache_sets.length ∧
      ∀ g : Nat, (sets_init_loop T A assoc n k cache_sets)[g]? =
        if k ≤ g ∧ g < k + n then
          some { set_lifo_top := T.wrap (A.wrap ((g : Int) * assoc)),
                 set_clean_next := T.wrap (A.wrap ((g : Int) * assoc)) }
        else cache_sets[g]? := by
  intro n
  induction n with
  | zero =>
    intro k cache_sets _
    refine ⟨rfl, fun g => ?_⟩
    have : ¬ (k ≤ g ∧ g < k + 0) := by omega
    simp only [sets_init_loop, this, if_false]
  | succ n ih =>
    intro k cache_sets hk
    unfold sets_init_loop
    have hcast : ((k : Int) + 1) = ((k + 1 : Nat) : Int) := by push_cast; rfl
    rw [hcast, Int.toNat_ofNat]
    obtain ⟨hl, hg⟩ := ih (k + 1)
      (cache_sets.set k { set_lifo_top := T.wrap (A.wrap ((k : Int) * assoc)),
                          set_clean_next := T.wrap (A.wrap ((k : Int) * assoc)) })
      (by rw [List.length_set]; omega)
    refine ⟨by rw [hl, List.length_set], fun g => ?_⟩
    rw [hg g, List.getElem?_set]
    by_cases h1 : k = g
    · subst h1
      have h2 : ¬ (k + 1 ≤ k ∧ k < k + 1 + n) := by omega
      have h3 : k ≤ k ∧ k < k + (n + 1) := by omega
      have h4 : k < cache_sets.length := by omega
      simp only [h2, h3, h4, if_false, if_true, and_self]
    · by_cases h2 : k + 1 ≤ g ∧ g < k + 1 + n
      · have h3 : k ≤ g ∧ g < k + (n + 1) := by omega
        simp only [h2, h3, if_true, and_self]
      · have h3 : ¬ (k ≤ g ∧ g < k + (n + 1)) := by omega
        simp only [h1, h2, h3, if_false]

/-- The call with a successful allocation unfolded; `n` is the loop bound
`(int)(dmc->size >> dmc->consecutive_shift)`. -/
theorem sets_init_eq (T A : IndexT) (dmc : cache_c) (mem : Nat → eio_lifo_cache_set)
    (n : Nat)
    (hn : (to_int ((dmc.size >>> dmc.consecutive_shift : Nat) : Int)).toNat = n) :
    eio_lifo_cache_sets_init T A dmc (some mem) =
      ({ dmc with
          sp_cache_set := some (sets_init_loop T A dmc.assoc n 0
            ((List.range (dmc.size >>> dmc.consecutive_shift)).map mem)) }, 0) := by
  simp only [eio_lifo_cache_sets_init, hn]

/-- What a successful `eio_lifo_cache_sets_init` leaves in the set array. -/
theorem sets_init_array (T A : IndexT) (dmc : cache_c) (mem : Nat → eio_lifo_cache_set)
    (hsets : dmc.size >>> dmc.consecutive_shift < 2 ^ 31)
    (h0 : T.holds 0 ∧ A.holds 0)
    (hmax : T.holds (((dmc.size >>> dmc.consecutive_shift) * dmc.assoc : Nat) : Int) ∧
      A.holds (((dmc.size >>> dmc.consecutive_shift) * dmc.assoc : Nat) : Int)) :
    ∃ cache_sets, eio_lifo_cache_sets_init T A dmc (some mem)
        = ({ dmc with sp_cache_set := some cache_sets }, 0) ∧
      cache_sets.length = dmc.size >>> dmc.consecutive_shift ∧
      ∀ g : Nat, g < dmc.size >>> dmc.consecutive_shift →
        cache_sets[g]? = some { set_lifo_top := (g : Int) * dmc.assoc,
                                set_clean_next := (g : Int) * dmc.assoc } := by
  rw [sets_init_eq T A dmc mem _ (to_int_toNat_eq _ hsets)]
  obtain ⟨hl, hg⟩ := sets_init_loop_spec T A dmc.assoc (dmc.size >>> dmc.consecutive_shift) 0
    ((List.range (dmc.size >>> dmc.consecutive_shift)).map mem) (by simp)
  simp only [Nat.cast_zero] at hg hl
  refine ⟨_, rfl, ?_, ?_⟩
  · rw [hl]; simp
  · intro g hlt
    have hle : (g : Int) * dmc.assoc ≤
        (((dmc.size >>> dmc.consecutive_shift) * dmc.assoc : Nat) : Int) := by
      push_cast
      exact mul_le_mul_of_nonneg_right (by exact_mod_cast hlt.le) (by positivity)
    have hwrap : T.wrap (A.wrap ((g : Int) * dmc.assoc)) = (g : Int) * dmc.assoc := by
      rw [A.wrap_of_holds _
        (A.holds_of_between 0 _ _ h0.2 hmax.2 (by positivity) hle)]
      exact T.wrap_of_holds _ (T.holds_of_between 0 _ _ h0.1 hmax.1 (by positivity) hle)
    have hrec := hg g
    have hin : 0 ≤ g ∧ g < 0 + dmc.size >>> dmc.consecutive_shift := by omega
    rw [if_pos hin, hwrap] at hrec
    exact hrec

/-- C8. After a successful `eio_lifo_cache_sets_init` the set array has exactly
`size >> consecutive_shift` records, and for every set `g` below that number both
cursors equal `g * assoc`; the call returns 0. (The number of sets is taken to fit
an `int`, and `0` and `numSets * assoc` to be representable in `index_t` and in the
type of the product `i * dmc->assoc`.) -/
theorem sets_init_cursors (T A : IndexT) (dmc : cache_c) (mem : Nat → eio_lifo_cache_set)
    (hsets : dmc.size >>> dmc.consecutive_shift < 2 ^ 31)
    (h0 : T.holds 0 ∧ A.holds 0)
    (hmax : T.holds (((dmc.size >>> dmc.consecutive_shift) * dmc.assoc : Nat) : Int) ∧
      A.holds (((dmc.size >>> dmc.consecutive_shift) * dmc.assoc : Nat) : Int)) :
    (eio_lifo_cache_sets_init T A dmc (some mem)).2 = 0 ∧
    ∃ cache_sets, (eio_lifo_cache_sets_init T A dmc (some mem)).1.sp_cache_set
        = some cache_sets ∧
      cache_sets.length = dmc.size >>> dmc.consecutive_shift ∧
      ∀ g : Nat, g < dmc.size >>> dmc.consecutive_shift →
        cache_sets[g]? = some { set_lifo_top := (g : Int) * dmc.assoc,
                                set_clean_next := (g : Int) * dmc.assoc } ∧
        (eio_lifo_cache_sets_init T A dmc (some mem)).1.lifo_top g
          = some ((g : Int) * dmc.assoc) ∧
        (eio_lifo_cache_sets_init T A dmc (some mem)).1.clean_next g
          = some ((g : Int) * dmc.assoc) := by
  obtain ⟨cache_sets, hcall, hlen, hrec⟩ := sets_init_array T A dmc mem hsets h0 hmax
  rw [hcall]
  refine ⟨rfl, cache_sets, rfl, hlen, fun g hlt => ⟨hrec g hlt, ?_, ?_⟩⟩
  · simp only [cache_c.lifo_top, Option.bind, cache_set_at, Int.natCast_nonneg, if_true,
      Int.toNat_ofNat, hrec g hlt, Option.map]
  · simp only [cache_c.clean_next, Option.bind, cache_set_at, Int.natCast_nonneg, if_true,
      Int.toNat_ofNat, hrec g hlt, Option.map]

theorem sets_init_cursors_witness :
    (eio_lifo_cache_sets_init u64 u32 (cache4_fresh 2 one_valid_state)
      (some stale_memory)).2 = 0 ∧
    ∃ cache_sets,
      (eio_lifo_cache_sets_init u64 u32 (cache4_fresh 2 one_valid_state)
        (some stale_memory)).1.sp_cache_set = some cache_sets ∧
      cache_sets.length =
        (cache4_fresh 2 one_valid_state).size >>>
          (cache4_fresh 2 one_valid_state).consecutive_shift ∧
      ∀ g : Nat, g < (cache4_fresh 2 one_valid_state).size >>>
          (cache4_fresh 2 one_valid_state).consecutive_shift →
        cache_sets[g]? =
          some { set_lifo_top := (g : Int) * (cache4_fresh 2 one_valid_state).assoc,
                 set_clean_next := (g : Int) * (cache4_fresh 2 one_valid_state).assoc } ∧
        (eio_lifo_cache_sets_init u64 u32 (cache4_fresh 2 one_valid_state)
          (some stale_memory)).1.lifo_top g
          = some ((g : Int) * (cache4_fresh 2 one_valid_state).assoc) ∧
        (eio_lifo_cache_sets_init u64 u32 (cache4_fresh 2 one_valid_state)
          (some stale_memory)).1.clean_next g
          = some ((g : Int) * (cache4_fresh 2 one_valid_state).assoc) :=
  sets_init_cursors u64 u32 (cache4_fresh 2 one_valid_state) stale_memory
    (by decide) (by decide) (by decide)

/-! ## The set array -/

theorem cache_set_at_nonneg (cache_sets : List eio_lifo_cache_set) (g : Int)
    (cs : eio_lifo_cache_set) (h : cache_set_at cache_sets g = some cs) : 0 ≤ g := by
  unfold cache_set_at at h
  split_ifs at h with h0
  exact h0

theorem cache_set_at_set_self (cache_sets : List eio_lifo_cache_set) (g : Int)
    (cs cs1 : eio_lifo_cache_set) (h : cache_set_at cache_sets g = some cs) :
    cache_set_at (cache_sets.set g.toNat cs1) g = some cs1 := by
  unfold cache_set_at at h ⊢
  split_ifs at h ⊢ with h0
  have hlt : g.toNat < cache_sets.length := (List.getElem?_eq_some.1 h).1
  rw [List.getElem?_set, if_pos rfl, if_pos hlt]

theorem cache_set_at_set_ne (cache_sets : List eio_lifo_cache_set) (g g1 : Int)
    (cs1 : eio_lifo_cache_set) (h0 : 0 ≤ g) (hne : g1 ≠ g) :
    cache_set_at (cache_sets.set g.toNat cs1) g1 = cache_set_at cache_sets g1 := by
  unfold cache_set_at
  split_ifs with h1
  · rw [List.getElem?_set_ne]
    omega
  · rfl

/-- The set computed from the first slot of set `g` is `g`. -/
theorem set_of_first_slot (T : IndexT) (g : Int) (assoc : Nat) (h0 : 0 ≤ g)
    (hpos : 0 < assoc) (hw : T.walks (g * assoc) assoc) :
    T.wrap (Int.tdiv (g * assoc) assoc) = g := by
  have hne : (assoc : Int) ≠ 0 := by omega
  rw [Int.mul_tdiv_cancel g hne]
  apply T.wrap_of_holds
  have : g ≤ g * assoc := by
    have h1 : (1 : Int) ≤ assoc := by omega
    nlinarith
  exact T.holds_of_between 0 (g * assoc + assoc) _ hw.1 hw.2.2 h0 (by omega)

/-- The outcome of a call: a fault, or the loop run on the set record found. -/
theorem find_reclaim_cases (T : IndexT) (F : StateFlags) (dmc : cache_c)
    (start_index : Int) :
    eio_lifo_find_reclaim_dbn T F dmc start_index = .fault ∨
    ∃ cache_sets cs n, dmc.assoc ≠ 0 ∧ dmc.sp_cache_set = some cache_sets ∧
      cache_set_at cache_sets (T.wrap (Int.tdiv start_index dmc.assoc)) = some cs ∧
      (to_int dmc.assoc).toNat = n := by
  by_cases h0 : dmc.assoc = 0
  · left; simp [eio_lifo_find_reclaim_dbn, h0]
  · cases hsets : dmc.sp_cache_set with
    | none => left; simp [eio_lifo_find_reclaim_dbn, h0, hsets]
    | some cache_sets =>
      cases hcs : cache_set_at cache_sets (T.wrap (Int.tdiv start_index dmc.assoc)) with
      | none =>
        left
        simp only [eio_lifo_find_reclaim_dbn, h0, hsets, hcs, if_false]
      | some cs => exact Or.inr ⟨cache_sets, cs, _, h0, rfl, hcs, rfl⟩

/-! ## Scans stay in the window `[start_index, end_index)` -/

theorem find_scan_reads (T : IndexT) (F : StateFlags) (st : Int → Nat) (s e : Int) :
    ∀ (n : Nat) (i j : Int), j ∈ (find_scan T F st s e n i).reads → s ≤ j ∧ j < e := by
  intro n
  induction n with
  | zero => intro i j h; simp [find_scan] at h
  | succ n ih =>
    intro i j h
    unfold find_scan at h
    split_ifs at h with hr hv
    · simp only [List.mem_singleton] at h
      subst h
      exact hr
    · simp only [List.mem_cons] at h
      rcases h with rfl | h
      · exact hr
      · exact ih _ _ h
    · simp at h

/-- C9, as amended. Every block index whose state `eio_lifo_find_reclaim_dbn` reads
(in a call that returns or in one that stops in a failed assertion), and any victim
it stores, lies in the window `[start_index, start_index + assoc)`, for every
`start_index`, every cursor and every state table; this window is the range of the
set exactly when `start_index` is the first slot of the set. -/
theorem find_reclaim_stays_in_window (T : IndexT) (F : StateFlags) (dmc : cache_c)
    (start_index : Int) (hfit : T.holds (start_index + dmc.assoc)) :
    (∀ j ∈ find_reads (eio_lifo_find_reclaim_dbn T F dmc start_index),
      start_index ≤ j ∧ j < start_index + dmc.assoc) ∧
    (∀ v, find_victim (eio_lifo_find_reclaim_dbn T F dmc start_index) = some v →
      start_index ≤ v ∧ v < start_index + dmc.assoc) := by
  rcases find_reclaim_cases T F dmc start_index with h | ⟨cache_sets, cs, n, h0, hsets, hcs, hn⟩
  · rw [h]
    simp [find_reads, find_victim]
  · rw [find_reclaim_eq T F dmc start_index cache_sets cs n h0 hsets hcs hn,
      T.wrap_of_holds _ hfit]
    split_ifs with hok
    · refine ⟨fun j hj => find_scan_reads T F _ _ _ _ _ _ hj, fun v hv => ?_⟩
      have := find_scan_victim T F _ _ _ _ _ _ hv
      exact ⟨this.1, this.2.1⟩
    · refine ⟨fun j hj => find_scan_reads T F _ _ _ _ _ _ hj, fun v hv => ?_⟩
      simp [find_victim] at hv

theorem find_reclaim_stays_in_window_witness :
    (∀ j ∈ find_reads (eio_lifo_find_reclaim_dbn u64 eio_flags
        (cache4 2 one_valid_state [⟨0, 0⟩, ⟨4, 4⟩]) 4),
      (4 : Int) ≤ j ∧ j < 4 + ((cache4 2 one_valid_state [⟨0, 0⟩, ⟨4, 4⟩]).assoc : Int)) ∧
    (∀ v, find_victim (eio_lifo_find_reclaim_dbn u64 eio_flags
        (cache4 2 one_valid_state [⟨0, 0⟩, ⟨4, 4⟩]) 4) = some v →
      (4 : Int) ≤ v ∧ v < 4 + ((cache4 2 one_valid_state [⟨0, 0⟩, ⟨4, 4⟩]).assoc : Int)) :=
  find_reclaim_stays_in_window u64 eio_flags
    (cache4 2 one_valid_state [⟨0, 0⟩, ⟨4, 4⟩]) 4 (by decide)

/-- C9, counterexample. Three sets of four blocks, `start_index = 5` inside set 1
(range `[4, 8)`), the eviction cursor of set 1 at 5, block 8 the only VALID block:
the call reads blocks 5 and 8 and returns the victim 8, which is outside `[4, 8)`. -/
theorem find_reclaim_leaves_set_range :
    (eio_lifo_find_reclaim_dbn u64 eio_flags
      (cache4 3 (fun i => if i = 8 then eio_flags.VALID else eio_flags.INVALID)
        [⟨0, 0⟩, ⟨5, 4⟩, ⟨8, 8⟩]) 5).map (fun r => r.view 1)
      = .ok (some 8, some 7, [5, 8]) ∧
    u64.wrap (Int.tdiv 5 4) = 1 ∧ ¬ ((8 : Int) < 1 * 4 + 4) := by
  decide!

/-! ## A hit at the cursor -/

/-- A call on the first slot of set `g` whose cursor points at a VALID block of the
set: the call returns that block, having read it alone, and leaves the cursor one
slot behind it (wrapped within the set). -/
theorem find_reclaim_hit_at_cursor (T : IndexT) (F : StateFlags) (dmc : cache_c) (g : Int)
    (cache_sets : List eio_lifo_cache_set) (cs : eio_lifo_cache_set)
    (hpos : 0 < dmc.assoc) (hint : dmc.assoc < 2 ^ 31)
    (hsets : dmc.sp_cache_set = some cache_sets)
    (hcs : cache_set_at cache_sets g = some cs)
    (hw : T.walks (g * dmc.assoc) dmc.assoc)
    (h1 : g * dmc.assoc ≤ cs.set_lifo_top)
    (h2 : cs.set_lifo_top < g * dmc.assoc + dmc.assoc)
    (hv : dmc.cache_state cs.set_lifo_top = F.VALID) :
    ∃ r, eio_lifo_find_reclaim_dbn T F dmc (g * dmc.assoc) = .ok r ∧
      r.victim = some cs.set_lifo_top ∧ r.reads = [cs.set_lifo_top] ∧
      r.dmc.lifo_top g = some (if cs.set_lifo_top = g * dmc.assoc
        then g * dmc.assoc + dmc.assoc - 1 else cs.set_lifo_top - 1) ∧
      r.dmc.cache_state = dmc.cache_state := by
  have hg := cache_set_at_nonneg cache_sets g cs hcs
  have hset := set_of_first_slot T g dmc.assoc hg hpos hw
  obtain ⟨m, hm⟩ : ∃ m, dmc.assoc = m + 1 := ⟨dmc.assoc - 1, by omega⟩
  have hn : (to_int dmc.assoc).toNat = m + 1 := (to_int_toNat_eq dmc.assoc hint).trans hm
  have hcs1 : cache_set_at cache_sets (T.wrap (Int.tdiv (g * dmc.assoc) dmc.assoc))
      = some cs := by rw [hset]; exact hcs
  have hcall := find_reclaim_eq T F dmc (g * dmc.assoc) cache_sets cs (m + 1) (by omega)
    hsets hcs1 hn
  have hscan : find_scan T F dmc.cache_state (g * dmc.assoc)
      (T.wrap (g * dmc.assoc + dmc.assoc)) (m + 1) cs.set_lifo_top
      = { reads := [cs.set_lifo_top], victim := some cs.set_lifo_top,
          i := cs.set_lifo_top, asserts_ok := true } := by
    rw [T.wrap_of_holds _ hw.2.2]
    unfold find_scan
    rw [if_pos ⟨h1, h2⟩, if_pos hv]
  rw [hscan] at hcall
  simp only [if_true] at hcall
  refine ⟨_, hcall, rfl, rfl, ?_, rfl⟩
  simp only [cache_c.lifo_top, Option.bind, hset, cache_set_at_set_self cache_sets g cs _ hcs,
    Option.map, T.wrap_of_holds _ hw.2.2, lifo_prev_eq T _ _ _ hw h1 h2]

/-- C6, as amended (Scenario B). With `assoc = 4`, the four blocks of set `g` VALID and
the eviction cursor at the first slot `s = 4 g` of the set, `eio_lifo_find_reclaim_dbn`
returns `s` and leaves the eviction cursor ONE position backward from `s`, wrapped
within the set: the new cursor is `s + 3`. (The break on a match skips the decrement
inside the loop, so only the decrement after the loop is applied. Stated for index
types in which `s - 1` is representable.) -/
theorem scenario_b_cursor (T : IndexT) (F : StateFlags) (dmc : cache_c) (g : Int)
    (cache_sets : List eio_lifo_cache_set) (cs : eio_lifo_cache_set)
    (hassoc : dmc.assoc = 4)
    (hsets : dmc.sp_cache_set = some cache_sets)
    (hcs : cache_set_at cache_sets g = some cs)
    (hw : T.walks (g * 4) 4)
    (hcur : cs.set_lifo_top = g * 4)
    (hvalid : ∀ j : Int, g * 4 ≤ j → j < g * 4 + 4 → dmc.cache_state j = F.VALID) :
    ∃ r, eio_lifo_find_reclaim_dbn T F dmc (g * 4) = .ok r ∧
      r.victim = some (g * 4) ∧ r.dmc.lifo_top g = some (g * 4 + 3) := by
  have h4 : ((dmc.assoc : Nat) : Int) = 4 := by rw [hassoc]; rfl
  obtain ⟨r, hr, hvic, _, htop, _⟩ := find_reclaim_hit_at_cursor T F dmc g cache_sets cs
    (by omega) (by omega) hsets hcs (by rw [h4, hassoc]; exact hw)
    (by rw [h4, hcur]) (by rw [h4, hcur]; omega)
    (by rw [hcur]; exact hvalid _ (le_refl _) (by omega))
  rw [h4] at hr htop
  rw [hcur] at hvic htop
  refine ⟨r, hr, hvic, ?_⟩
  rw [htop, if_pos rfl]
  congr 1
  omega

theorem scenario_b_cursor_witness :
    ∃ r, eio_lifo_find_reclaim_dbn u64 eio_flags
        (cache4 2 (fun _ => eio_flags.VALID) [⟨0, 0⟩, ⟨4, 4⟩]) (1 * 4) = .ok r ∧
      r.victim = some (1 * 4) ∧ r.dmc.lifo_top 1 = some (1 * 4 + 3) :=
  scenario_b_cursor u64 eio_flags (cache4 2 (fun _ => eio_flags.VALID) [⟨0, 0⟩, ⟨4, 4⟩]) 1
    [⟨0, 0⟩, ⟨4, 4⟩] ⟨4, 4⟩ rfl rfl (by decide) (by decide) rfl (fun _ _ _ => rfl)

/-- C6, counterexample (Scenario B on set 1 of a cache with four-block sets, all blocks
VALID, eviction cursor at the first slot 4): the call returns 4 and the new cursor is
7, one position backward (wrapped), not `4 + 2 = 6`. -/
theorem scenario_b_not_two_back :
    (eio_lifo_find_reclaim_dbn u64 eio_flags
      (cache4 2 (fun _ => eio_flags.VALID) [⟨0, 0⟩, ⟨4, 4⟩]) 4).map (fun r => r.view 1)
      = .ok (some 4, some 7, [4]) ∧ (7 : Int) ≠ 4 + 2 := by
  decide!

/-! ## Walking a set backward

From here on the set `[s, s + a)` can be walked in the index type (`T.walks s a`): in
the signed index type `s64` this is every set whose end is representable. -/

theorem back_slot_zero (s : Int) (a : Nat) (c : Int) (hc1 : s ≤ c) :
    back_slot s a c 0 = c := by
  unfold back_slot
  rw [if_pos (by push_cast; omega)]
  push_cast
  omega

theorem back_slot_full (s : Int) (a : Nat) (c : Int) (hc2 : c < s + a) :
    back_slot s a c a = c := by
  unfold back_slot
  rw [if_neg (by omega)]
  omega

theorem back_slot_mem (s : Int) (a : Nat) (c : Int) (k : Nat) (hc1 : s ≤ c)
    (hc2 : c < s + a) (hk : k ≤ a) :
    s ≤ back_slot s a c k ∧ back_slot s a c k < s + a := by
  unfold back_slot
  split_ifs <;> omega

theorem back_slot_inj (s : Int) (a : Nat) (c : Int) (k1 k2 : Nat)
    (h1 : k1 < a) (h2 : k2 < a)
    (h : back_slot s a c k1 = back_slot s a c k2) : k1 = k2 := by
  unfold back_slot at h
  split_ifs at h <;> omega

/-- Every slot of the set is some number `k < a` of steps behind `c`. -/
theorem back_slot_surj (s : Int) (a : Nat) (c x : Int) (hc1 : s ≤ c) (hc2 : c < s + a)
    (hx1 : s ≤ x) (hx2 : x < s + a) : ∃ k : Nat, k < a ∧ back_slot s a c k = x := by
  by_cases h : x ≤ c
  · refine ⟨(c - x).toNat, by omega, ?_⟩
    unfold back_slot
    rw [if_pos (by omega)]
    omega
  · refine ⟨(c - x + a).toNat, by omega, ?_⟩
    unfold back_slot
    rw [if_neg (by omega)]
    omega

theorem lifo_prev_back (T : IndexT) (s : Int) (a : Nat) (c : Int) (k : Nat)
    (hw : T.walks s a) (hc1 : s ≤ c) (hc2 : c < s + a) (hk : k < a) :
    lifo_prev T s (s + a) (back_slot s a c k) = back_slot s a c (k + 1) := by
  have hm := back_slot_mem s a c k hc1 hc2 hk.le
  rw [lifo_prev_eq T s _ a hw hm.1 hm.2]
  unfold back_slot
  push_cast
  split_ifs <;> omega

theorem mem_back_list (s : Int) (a : Nat) (c : Int) :
    ∀ (m k : Nat) (x : Int),
      x ∈ back_list s a c k m ↔ ∃ j : Nat, j < m ∧ x = back_slot s a c (k + j) := by
  intro m
  induction m with
  | zero => intro k x; simp [back_list]
  | succ m ih =>
    intro k x
    simp only [back_list, List.mem_cons, ih]
    constructor
    · rintro (h | ⟨j, hj, h⟩)
      · exact ⟨0, by omega, by simpa using h⟩
      · exact ⟨j + 1, by omega, by rw [h]; congr 1; omega⟩
    · rintro ⟨j, hj, h⟩
      cases j with
      | zero => left; simpa using h
      | succ j => right; exact ⟨j, by omega, by rw [h]; congr 1; omega⟩

theorem length_back_list (s : Int) (a : Nat) (c : Int) :
    ∀ (m k : Nat), (back_list s a c k m).length = m := by
  intro m
  induction m with
  | zero => intro k; rfl
  | succ m ih => intro k; simp [back_list, ih]

theorem getElem?_back_list (s : Int) (a : Nat) (c : Int) :
    ∀ (m k j : Nat), j < m → (back_list s a c k m)[j]? = some (back_slot s a c (k + j)) := by
  intro m
  induction m with
  | zero => intro k j hj; omega
  | succ m ih =>
    intro k j hj
    cases j with
    | zero => simp [back_list]
    | succ j =>
      simp only [back_list, List.getElem?_cons_succ]
      rw [ih (k + 1) j (by omega)]
      congr 2
      omega

theorem back_list_append (s : Int) (a : Nat) (c : Int) :
    ∀ (m1 k m2 : Nat),
      back_list s a c k m1 ++ back_list s a c (k + m1) m2 = back_list s a c k (m1 + m2) := by
  intro m1
  induction m1 with
  | zero => intro k m2; simp [back_list]
  | succ m1 ih =>
    intro k m2
    have h1 : k + (m1 + 1) = k + 1 + m1 := by omega
    have h2 : m1 + 1 + m2 = (m1 + m2) + 1 := by omega
    rw [h1, h2]
    simp only [back_list, List.cons_append, ih]

/-- Within one turn around the set no slot comes twice. -/
theorem nodup_back_list (s : Int) (a : Nat) (c : Int) :
    ∀ (m k : Nat), k + m ≤ a → (back_list s a c k m).Nodup := by
  intro m
  induction m with
  | zero => intro k _; simp [back_list]
  | succ m ih =>
    intro k hk
    simp only [back_list, List.nodup_cons]
    refine ⟨?_, ih (k + 1) (by omega)⟩
    rw [mem_back_list]
    rintro ⟨j, hj, h⟩
    have := back_slot_inj s a c k (k + 1 + j) (by omega) (by omega) h
    omega

/-- The trace of the loop of `eio_lifo_clean_set` started `k` steps behind `c`: it
examines the next `m` slots behind `c`, for some `m` up to the iteration bound, and is
left `k + m` steps behind `c`; it is left before the bound only with `to_clean`
writes made. -/
theorem clean_scan_trace (T : IndexT) (F : StateFlags) (s : Int) (a : Nat) (c to_clean : Int)
    (hw : T.walks s a) (hc1 : s ≤ c) (hc2 : c < s + a) :
    ∀ (n k : Nat) (st : Int → Nat) (nw : Int), k + n ≤ a →
      ∃ m : Nat, m ≤ n ∧
        (clean_scan T F s (s + a) to_clean n st (back_slot s a c k) nw).visited
          = back_list s a c k m ∧
        (clean_scan T F s (s + a) to_clean n st (back_slot s a c k) nw).i
          = back_slot s a c (k + m) ∧
        (m < n →
          to_clean ≤ (clean_scan T F s (s + a) to_clean n st (back_slot s a c k) nw).nr_writes)
        := by
  intro n
  induction n with
  | zero =>
    intro k st nw _
    exact ⟨0, le_refl _, rfl, rfl, fun h => absurd h (by omega)⟩
  | succ n ih =>
    intro k st nw hk
    unfold clean_scan
    rw [lifo_prev_back T s a c k hw hc1 hc2 (by omega)]
    split_ifs with h1 h2
    · obtain ⟨m, hm, hv, hi, hstop⟩ := ih (k + 1)
        (Function.update st (back_slot s a c k)
          (st (back_slot s a c k) ||| F.DISKWRITEINPROG)) (nw + 1) (by omega)
      refine ⟨m + 1, by omega, ?_, ?_, fun h => hstop (by omega)⟩
      · simp only [back_list, hv]
      · rw [hi]; congr 1; omega
    · obtain ⟨m, hm, hv, hi, hstop⟩ := ih (k + 1) st nw (by omega)
      refine ⟨m + 1, by omega, ?_, ?_, fun h => hstop (by omega)⟩
      · simp only [back_list, hv]
      · rw [hi]; congr 1; omega
    · refine ⟨0, by omega, rfl, rfl, fun _ => ?_⟩
      dsimp only
      omega

/-- The first slot of a set that can be walked is representable. -/
theorem IndexT.walks_first (T : IndexT) (s : Int) (a : Nat) (hw : T.walks s a) :
    T.wrap s = s :=
  T.wrap_of_holds _ (T.holds_of_between (s - 1) (s + a) _ hw.2.1 hw.2.2 (by omega) (by omega))

/-- In the signed index type `s64` every set whose end is representable can be walked,
the set whose first slot is index 0 included. -/
theorem s64_walks (s : Int) (a : Nat) (h0 : 0 ≤ s) (h1 : s + a < 2 ^ 63) :
    s64.walks s a := by
  unfold IndexT.walks IndexT.holds s64
  dsimp only
  norm_num
  refine ⟨?_, ?_, ?_⟩ <;> omega

/-- `eio_lifo_clean_set` on a set `g` that can be walked, with the clean cursor `c` in
the range of the set: the call examines the `m` slots behind `c` (for some `m ≤ assoc`,
less than `assoc` only when `to_clean` blocks were marked) and leaves the clean cursor
`m` steps behind `c`. -/
theorem clean_set_walk (T : IndexT) (F : StateFlags) (dmc : cache_c) (g to_clean : Int)
    (cache_sets : List eio_lifo_cache_set) (cs : eio_lifo_cache_set)
    (hint : dmc.assoc < 2 ^ 31)
    (hsets : dmc.sp_cache_set = some cache_sets)
    (hcs : cache_set_at cache_sets g = some cs)
    (hw : T.walks (g * dmc.assoc) dmc.assoc)
    (hc1 : g * dmc.assoc ≤ cs.set_clean_next)
    (hc2 : cs.set_clean_next < g * dmc.assoc + dmc.assoc) :
    ∃ r m, eio_lifo_clean_set T F dmc g to_clean = .ok r ∧ m ≤ dmc.assoc ∧
      r.visited = back_list (g * dmc.assoc) dmc.assoc cs.set_clean_next 0 m ∧
      r.dmc.sp_cache_set = some (cache_sets.set g.toNat
        { cs with
          set_clean_next := back_slot (g * dmc.assoc) dmc.assoc cs.set_clean_next m }) ∧
      (m < dmc.assoc → to_clean ≤ r.nr_writes) ∧
      (∀ j, r.dmc.cache_state j = dmc.cache_state j ∨
        (F.cleanable (dmc.cache_state j) ∧ j ∈ r.visited ∧
          r.dmc.cache_state j = dmc.cache_state j ||| F.DISKWRITEINPROG)) := by
  have hn := to_int_toNat_eq dmc.assoc hint
  obtain ⟨r, hr, hnw, hvis, _, hst, hcsets, _⟩ :=
    clean_set_eq T F dmc g to_clean cache_sets cs dmc.assoc hsets hcs hn
  rw [T.walks_first _ _ hw, T.wrap_of_holds _ hw.2.2] at hnw hvis hst hcsets
  obtain ⟨m, hm, hv, hi, hstop⟩ := clean_scan_trace T F (g * dmc.assoc) dmc.assoc
    cs.set_clean_next to_clean hw hc1 hc2 dmc.assoc 0 dmc.cache_state 0 (by omega)
  rw [back_slot_zero _ _ _ hc1] at hv hi hstop
  have hfr := clean_scan_frame T F (g * dmc.assoc) (g * dmc.assoc + dmc.assoc) to_clean
    dmc.assoc dmc.cache_state cs.set_clean_next 0
  refine ⟨r, m, hr, hm, by rw [hvis, hv], ?_, ?_, ?_⟩
  · rw [hcsets, hi, Nat.zero_add]
  · intro h
    rw [hnw]
    exact hstop h
  · intro j
    rw [hst, hvis]
    exact hfr j

/-- The cursors that `eio_lifo_clean_set` leaves alone: the eviction cursor of every
set and the clean cursor of every other set (for every index type). -/
theorem clean_set_cursor_frame (T : IndexT) (F : StateFlags) (dmc : cache_c)
    (set to_clean : Int) (r : CleanResult)
    (hcall : eio_lifo_clean_set T F dmc set to_clean = .ok r) :
    (∀ g, r.dmc.lifo_top g = dmc.lifo_top g) ∧
    (∀ g, g ≠ set → r.dmc.clean_next g = dmc.clean_next g) := by
  cases hsets : dmc.sp_cache_set with
  | none => simp [eio_lifo_clean_set, hsets] at hcall
  | some cache_sets =>
    cases hcs : cache_set_at cache_sets set with
    | none =>
      simp only [eio_lifo_clean_set, hsets, hcs] at hcall
      cases hcall
    | some cs =>
      obtain ⟨n, hn⟩ : ∃ n, (to_int dmc.assoc).toNat = n := ⟨_, rfl⟩
      obtain ⟨r1, hr1, _, _, _, _, hcsets, _⟩ :=
        clean_set_eq T F dmc set to_clean cache_sets cs n hsets hcs hn
      have hrr : r = r1 := Outcome.ok.inj (hcall.symm.trans hr1)
      rw [← hrr] at hcsets
      have h0 := cache_set_at_nonneg cache_sets set cs hcs
      constructor
      · intro g
        simp only [cache_c.lifo_top, hcsets, hsets, Option.bind]
        by_cases hg : g = set
        · subst hg
          rw [cache_set_at_set_self cache_sets g cs _ hcs, hcs]
          rfl
        · rw [cache_set_at_set_ne cache_sets set g _ h0 hg]
      · intro g hg
        simp only [cache_c.clean_next, hcsets, hsets, Option.bind]
        rw [cache_set_at_set_ne cache_sets set g _ h0 hg]

/-- The frame of `eio_lifo_clean_set` on a set that can be walked: the state of every
block outside the set is unchanged, and inside the set a state is unchanged or is the
old state with `DISKWRITEINPROG` set, the latter only where the old state had `DIRTY`
set and no `BLOCK_IO_INPROG` bit set; the cursor left is in the range of the set. -/
theorem clean_set_block_frame (T : IndexT) (F : StateFlags) (dmc : cache_c)
    (g to_clean : Int) (cache_sets : List eio_lifo_cache_set) (cs : eio_lifo_cache_set)
    (hD : F.DIRTY &&& F.BLOCK_IO_INPROG = 0)
    (hint : dmc.assoc < 2 ^ 31)
    (hsets : dmc.sp_cache_set = some cache_sets)
    (hcs : cache_set_at cache_sets g = some cs)
    (hw : T.walks (g * dmc.assoc) dmc.assoc)
    (hc1 : g * dmc.assoc ≤ cs.set_clean_next)
    (hc2 : cs.set_clean_next < g * dmc.assoc + dmc.assoc) :
    ∃ r c1, eio_lifo_clean_set T F dmc g to_clean = .ok r ∧
      r.dmc.clean_next g = some c1 ∧ g * dmc.assoc ≤ c1 ∧ c1 < g * dmc.assoc + dmc.assoc ∧
      (∀ j ∈ r.visited, g * dmc.assoc ≤ j ∧ j < g * dmc.assoc + dmc.assoc) ∧
      r.visited.Nodup ∧
      (∀ j, ¬ (g * dmc.assoc ≤ j ∧ j < g * dmc.assoc + dmc.assoc) →
        r.dmc.cache_state j = dmc.cache_state j) ∧
      (∀ j, r.dmc.cache_state j = dmc.cache_state j ∨
        (r.dmc.cache_state j = dmc.cache_state j ||| F.DISKWRITEINPROG ∧
          dmc.cache_state j &&& F.DIRTY = F.DIRTY ∧
          dmc.cache_state j &&& F.BLOCK_IO_INPROG = 0)) := by
  obtain ⟨r, m, hr, hm, hvis, hcsets, _, hfr⟩ :=
    clean_set_walk T F dmc g to_clean cache_sets cs hint hsets hcs hw hc1 hc2
  have hin : ∀ j ∈ r.visited, g * dmc.assoc ≤ j ∧ j < g * dmc.assoc + dmc.assoc := by
    intro j hj
    rw [hvis, mem_back_list] at hj
    obtain ⟨k, hk, rfl⟩ := hj
    exact back_slot_mem _ _ _ _ hc1 hc2 (by omega)
  have hb := back_slot_mem (g * dmc.assoc) dmc.assoc cs.set_clean_next m hc1 hc2 hm
  refine ⟨r, _, hr, ?_, hb.1, hb.2, hin, ?_, ?_, ?_⟩
  · simp only [cache_c.clean_next, hcsets, Option.bind,
      cache_set_at_set_self cache_sets g cs _ hcs, Option.map]
  · rw [hvis]
    exact nodup_back_list _ _ _ m 0 (by omega)
  · intro j hj
    rcases hfr j with h | ⟨_, hv, _⟩
    · exact h
    · exact absurd (hin j hv) hj
  · intro j
    rcases hfr j with h | ⟨hc, _, h⟩
    · exact Or.inl h
    · exact Or.inr ⟨h, cleanable_bits F _ hD hc⟩

theorem back_slot_add (s : Int) (a : Nat) (c : Int) (k j : Nat) (hc1 : s ≤ c)
    (hk : k + j ≤ a) :
    back_slot s a (back_slot s a c k) j = back_slot s a c (k + j) := by
  unfold back_slot
  push_cast
  split_ifs <;> omega

theorem back_list_shift (s : Int) (a : Nat) (c : Int) (hc1 : s ≤ c) :
    ∀ (m k j : Nat), k + j + m ≤ a →
      back_list s a (back_slot s a c k) j m = back_list s a c (k + j) m := by
  intro m
  induction m with
  | zero => intro k j _; rfl
  | succ m ih =>
    intro k j h
    simp only [back_list, back_slot_add s a c k j hc1 (by omega), ih k (j + 1) (by omega)]
    rfl

/-- The trace of the loop of `eio_lifo_find_reclaim_dbn` started `k` steps behind `c`:
no assertion fails; the loop reads the next `m` slots behind `c`; either it finds no
VALID block in `n` slots and is left `k + n` steps behind `c`, or the last slot read is
VALID, is the victim and is where the loop is left, and no slot read before is
VALID. -/
theorem find_scan_trace (T : IndexT) (F : StateFlags) (st : Int → Nat) (s : Int) (a : Nat)
    (c : Int) (hw : T.walks s a) (hc1 : s ≤ c) (hc2 : c < s + a) :
    ∀ (n k : Nat), k + n ≤ a →
      (find_scan T F st s (s + a) n (back_slot s a c k)).asserts_ok = true ∧
      ((find_scan T F st s (s + a) n (back_slot s a c k)).victim = none ∧
        (find_scan T F st s (s + a) n (back_slot s a c k)).reads = back_list s a c k n ∧
        (find_scan T F st s (s + a) n (back_slot s a c k)).i = back_slot s a c (k + n) ∧
        (∀ j ∈ back_list s a c k n, st j ≠ F.VALID) ∨
       ∃ m : Nat, m < n ∧
        (find_scan T F st s (s + a) n (back_slot s a c k)).victim
          = some (back_slot s a c (k + m)) ∧
        (find_scan T F st s (s + a) n (back_slot s a c k)).reads
          = back_list s a c k (m + 1) ∧
        (find_scan T F st s (s + a) n (back_slot s a c k)).i = back_slot s a c (k + m) ∧
        st (back_slot s a c (k + m)) = F.VALID ∧
        (∀ j ∈ back_list s a c k m, st j ≠ F.VALID)) := by
  intro n
  induction n with
  | zero =>
    intro k _
    exact ⟨rfl, Or.inl ⟨rfl, rfl, rfl, fun j hj => by simp [back_list] at hj⟩⟩
  | succ n ih =>
    intro k hk
    have hm := back_slot_mem s a c k hc1 hc2 (by omega)
    unfold find_scan
    rw [if_pos hm, lifo_prev_back T s a c k hw hc1 hc2 (by omega)]
    by_cases hv : st (back_slot s a c k) = F.VALID
    · rw [if_pos hv]
      refine ⟨rfl, Or.inr ⟨0, by omega, rfl, rfl, rfl, hv, fun j hj => ?_⟩⟩
      simp [back_list] at hj
    · rw [if_neg hv]
      obtain ⟨hok, h⟩ := ih (k + 1) (by omega)
      refine ⟨hok, ?_⟩
      rcases h with ⟨h1, h2, h3, h4⟩ | ⟨m, hmn, h1, h2, h3, h4, h5⟩
      · left
        refine ⟨h1, ?_, ?_, ?_⟩
        · simp only [h2, back_list]
        · rw [h3]; congr 1; omega
        · intro j hj
          simp only [back_list, List.mem_cons] at hj
          rcases hj with rfl | hj
          · exact hv
          · exact h4 j hj
      · right
        have e : k + 1 + m = k + (m + 1) := by omega
        rw [e] at h1 h3 h4
        refine ⟨m + 1, by omega, h1, ?_, h3, h4, ?_⟩
        · simp only [h2, back_list]
        · intro j hj
          simp only [back_list, List.mem_cons] at hj
          rcases hj with rfl | hj
          · exact hv
          · exact h5 j hj

/-- `eio_lifo_find_reclaim_dbn` on the first slot of a set `g` that can be walked, with
the eviction cursor `c` in the range of the set: the call returns (no assertion
fails), and with `p` the loop's final position the new cursor is the slot behind `p`.
Either no block of the set is VALID, no victim is stored, all `assoc` slots were read
and `p = c`; or the victim is the first VALID block behind `c`, `m` steps behind it,
it is `p`, and the slots read are those up to it. -/
theorem find_reclaim_walk (T : IndexT) (F : StateFlags) (dmc : cache_c) (g : Int)
    (cache_sets : List eio_lifo_cache_set) (cs : eio_lifo_cache_set)
    (hint : dmc.assoc < 2 ^ 31)
    (hsets : dmc.sp_cache_set = some cache_sets)
    (hcs : cache_set_at cache_sets g = some cs)
    (hw : T.walks (g * dmc.assoc) dmc.assoc)
    (hc1 : g * dmc.assoc ≤ cs.set_lifo_top)
    (hc2 : cs.set_lifo_top < g * dmc.assoc + dmc.assoc) :
    ∃ r p, eio_lifo_find_reclaim_dbn T F dmc (g * dmc.assoc) = .ok r ∧
      r.dmc = { dmc with
        sp_cache_set := some (cache_sets.set g.toNat
          { cs with
            set_lifo_top := (lifo_prev T (g * dmc.assoc) (g * dmc.assoc + dmc.assoc) p) }) } ∧
      g * dmc.assoc ≤ p ∧ p < g * dmc.assoc + dmc.assoc ∧
      (r.victim = none ∧ p = cs.set_lifo_top ∧
        r.reads = back_list (g * dmc.assoc) dmc.assoc cs.set_lifo_top 0 dmc.assoc ∧
        (∀ j, g * dmc.assoc ≤ j → j < g * dmc.assoc + dmc.assoc →
          dmc.cache_state j ≠ F.VALID) ∨
       ∃ m : Nat, m < dmc.assoc ∧
        p = back_slot (g * dmc.assoc) dmc.assoc cs.set_lifo_top m ∧
        r.victim = some p ∧
        r.reads = back_list (g * dmc.assoc) dmc.assoc cs.set_lifo_top 0 (m + 1) ∧
        dmc.cache_state p = F.VALID ∧
        (∀ j ∈ back_list (g * dmc.assoc) dmc.assoc cs.set_lifo_top 0 m,
          dmc.cache_state j ≠ F.VALID)) := by
  have hg := cache_set_at_nonneg cache_sets g cs hcs
  have hpos : 0 < dmc.assoc := by omega
  have hset := set_of_first_slot T g dmc.assoc hg hpos hw
  have hn := to_int_toNat_eq dmc.assoc hint
  have hcs1 : cache_set_at cache_sets (T.wrap (Int.tdiv (g * dmc.assoc) dmc.assoc))
      = some cs := by rw [hset]; exact hcs
  have hcall := find_reclaim_eq T F dmc (g * dmc.assoc) cache_sets cs dmc.assoc (by omega)
    hsets hcs1 hn
  rw [T.wrap_of_holds _ hw.2.2, hset] at hcall
  obtain ⟨hok, htr⟩ := find_scan_trace T F dmc.cache_state (g * dmc.assoc) dmc.assoc
    cs.set_lifo_top hw hc1 hc2 dmc.assoc 0 (by omega)
  rw [back_slot_zero _ _ _ hc1] at hok htr
  rw [if_pos hok] at hcall
  refine ⟨_, _, hcall, rfl, ?_, ?_, ?_⟩
  · rcases htr with ⟨_, _, h3, _⟩ | ⟨m, hm, _, _, h3, _⟩
    · rw [h3]; exact (back_slot_mem _ _ _ _ hc1 hc2 (by omega)).1
    · rw [h3]; exact (back_slot_mem _ _ _ _ hc1 hc2 (by omega)).1
  · rcases htr with ⟨_, _, h3, _⟩ | ⟨m, hm, _, _, h3, _⟩
    · rw [h3]; exact (back_slot_mem _ _ _ _ hc1 hc2 (by omega)).2
    · rw [h3]; exact (back_slot_mem _ _ _ _ hc1 hc2 (by omega)).2
  · rcases htr with ⟨h1, h2, h3, h4⟩ | ⟨m, hm, h1, h2, h3, h4, h5⟩
    · left
      refine ⟨h1, ?_, h2, fun j hj1 hj2 => ?_⟩
      · rw [h3, Nat.zero_add, back_slot_full _ _ _ hc2]
      · obtain ⟨k, hk, rfl⟩ := back_slot_surj _ dmc.assoc cs.set_lifo_top j hc1 hc2 hj1 hj2
        exact h4 _ ((mem_back_list _ _ _ _ _ _).2 ⟨k, hk, by rw [Nat.zero_add]⟩)
    · right
      rw [Nat.zero_add] at h1 h3 h4
      refine ⟨m, hm, h3, ?_, h2, ?_, h5⟩
      · rw [h1, h3]
      · rw [h3]; exact h4

/-- On a set that can be walked, `eio_lifo_find_reclaim_dbn` returns and leaves the
eviction cursor in the range of the set; block states, `assoc` and the length of the
set array are as before. -/
theorem find_reclaim_cursor_in_range (T : IndexT) (F : StateFlags) (dmc : cache_c) (g : Int)
    (cache_sets : List eio_lifo_cache_set) (cs : eio_lifo_cache_set)
    (hint : dmc.assoc < 2 ^ 31)
    (hsets : dmc.sp_cache_set = some cache_sets)
    (hcs : cache_set_at cache_sets g = some cs)
    (hw : T.walks (g * dmc.assoc) dmc.assoc)
    (hc1 : g * dmc.assoc ≤ cs.set_lifo_top)
    (hc2 : cs.set_lifo_top < g * dmc.assoc + dmc.assoc) :
    ∃ r c1, eio_lifo_find_reclaim_dbn T F dmc (g * dmc.assoc) = .ok r ∧
      r.dmc = { dmc with
        sp_cache_set := some (cache_sets.set g.toNat { cs with set_lifo_top := c1 }) } ∧
      g * dmc.assoc ≤ c1 ∧ c1 < g * dmc.assoc + dmc.assoc := by
  obtain ⟨r, p, hr, hd, hp1, hp2, _⟩ :=
    find_reclaim_walk T F dmc g cache_sets cs hint hsets hcs hw hc1 hc2
  have hm := lifo_prev_mem T (g * dmc.assoc) p dmc.assoc hw hp1 hp2
  exact ⟨r, _, hr, hd, hm.1, hm.2⟩

/-- On a set that can be walked and has exactly one VALID block `b`, a call of
`eio_lifo_find_reclaim_dbn` returns `b`, wherever in the set the eviction cursor is. -/
theorem find_reclaim_single_valid (T : IndexT) (F : StateFlags) (dmc : cache_c) (g : Int)
    (cache_sets : List eio_lifo_cache_set) (cs : eio_lifo_cache_set) (b : Int)
    (hint : dmc.assoc < 2 ^ 31)
    (hsets : dmc.sp_cache_set = some cache_sets)
    (hcs : cache_set_at cache_sets g = some cs)
    (hw : T.walks (g * dmc.assoc) dmc.assoc)
    (hc1 : g * dmc.assoc ≤ cs.set_lifo_top)
    (hc2 : cs.set_lifo_top < g * dmc.assoc + dmc.assoc)
    (hb1 : g * dmc.assoc ≤ b) (hb2 : b < g * dmc.assoc + dmc.assoc)
    (hb : dmc.cache_state b = F.VALID)
    (huniq : ∀ j, g * dmc.assoc ≤ j → j < g * dmc.assoc + dmc.assoc →
      dmc.cache_state j = F.VALID → j = b) :
    ∃ r c1, eio_lifo_find_reclaim_dbn T F dmc (g * dmc.assoc) = .ok r ∧
      r.victim = some b ∧
      r.dmc = { dmc with
        sp_cache_set := some (cache_sets.set g.toNat { cs with set_lifo_top := c1 }) } ∧
      g * dmc.assoc ≤ c1 ∧ c1 < g * dmc.assoc + dmc.assoc := by
  obtain ⟨r, p, hr, hd, hp1, hp2, h⟩ :=
    find_reclaim_walk T F dmc g cache_sets cs hint hsets hcs hw hc1 hc2
  have hm := lifo_prev_mem T (g * dmc.assoc) p dmc.assoc hw hp1 hp2
  refine ⟨r, _, hr, ?_, hd, hm.1, hm.2⟩
  rcases h with ⟨_, _, _, hno⟩ | ⟨m, _, _, hvic, _, hval, _⟩
  · exact absurd hb (hno b hb1 hb2)
  · rw [hvic, huniq p hp1 hp2 hval]

/-- On a set that can be walked and has exactly one VALID block `b`, every call of a
run of consecutive calls of `eio_lifo_find_reclaim_dbn` returns `b`. -/
theorem find_run_single_valid (T : IndexT) (F : StateFlags) (g : Int) (b : Int) :
    ∀ (n : Nat) (dmc : cache_c) (cache_sets : List eio_lifo_cache_set)
      (cs : eio_lifo_cache_set),
      dmc.assoc < 2 ^ 31 →
      dmc.sp_cache_set = some cache_sets →
      cache_set_at cache_sets g = some cs →
      T.walks (g * dmc.assoc) dmc.assoc →
      g * dmc.assoc ≤ cs.set_lifo_top →
      cs.set_lifo_top < g * dmc.assoc + dmc.assoc →
      g * dmc.assoc ≤ b → b < g * dmc.assoc + dmc.assoc →
      dmc.cache_state b = F.VALID →
      (∀ j, g * dmc.assoc ≤ j → j < g * dmc.assoc + dmc.assoc →
        dmc.cache_state j = F.VALID → j = b) →
      ∃ dmc1, find_run T F (g * dmc.assoc) n dmc = .ok (dmc1, List.replicate n (some b)) := by
  intro n
  induction n with
  | zero => intro dmc _ _ _ _ _ _ _ _ _ _ _ _; exact ⟨dmc, rfl⟩
  | succ n ih =>
    intro dmc cache_sets cs hint hsets hcs hw hc1 hc2 hb1 hb2 hb huniq
    obtain ⟨r, c1, hr, hvic, hd, h1, h2⟩ := find_reclaim_single_valid T F dmc g cache_sets cs b
      hint hsets hcs hw hc1 hc2 hb1 hb2 hb huniq
    have hassoc : r.dmc.assoc = dmc.assoc := by rw [hd]
    have hstate : r.dmc.cache_state = dmc.cache_state := by rw [hd]
    obtain ⟨dmc1, hrun⟩ := ih r.dmc (cache_sets.set g.toNat { cs with set_lifo_top := c1 })
      { cs with set_lifo_top := c1 }
      (by rw [hassoc]; exact hint) (by rw [hd])
      (cache_set_at_set_self cache_sets g cs _ hcs)
      (by rw [hassoc]; exact hw) (by rw [hassoc]; exact h1) (by rw [hassoc]; exact h2)
      (by rw [hassoc]; exact hb1) (by rw [hassoc]; exact hb2) (by rw [hstate]; exact hb)
      (by rw [hassoc, hstate]; exact huniq)
    rw [hassoc] at hrun
    refine ⟨dmc1, ?_⟩
    simp only [find_run, hr, Outcome.bind, hrun, Outcome.map, hvic, List.replicate]

/-! ## The exact result of `eio_lifo_find_reclaim_dbn` on a set that can be walked -/

/-- On the first slot of a set `g` that can be walked, with the eviction cursor `c` in
the range of the set, `eio_lifo_find_reclaim_dbn` returns (no assertion fails).
If no block of the set is VALID it stores no victim, has read all `assoc` slots once,
in backward cyclic order from `c`, and leaves the cursor one slot behind `c`.
Otherwise it stores the first VALID block `v` in backward cyclic order from `c`, has
read the slots up to `v`, and leaves the cursor one slot behind `v`. -/
theorem find_reclaim_exact (T : IndexT) (F : StateFlags) (dmc : cache_c) (g : Int)
    (cache_sets : List eio_lifo_cache_set) (cs : eio_lifo_cache_set)
    (hint : dmc.assoc < 2 ^ 31)
    (hsets : dmc.sp_cache_set = some cache_sets)
    (hcs : cache_set_at cache_sets g = some cs)
    (hw : T.walks (g * dmc.assoc) dmc.assoc)
    (hc1 : g * dmc.assoc ≤ cs.set_lifo_top)
    (hc2 : cs.set_lifo_top < g * dmc.assoc + dmc.assoc) :
    ∃ r, eio_lifo_find_reclaim_dbn T F dmc (g * dmc.assoc) = .ok r ∧
      (((∀ j, g * dmc.assoc ≤ j → j < g * dmc.assoc + dmc.assoc →
            dmc.cache_state j ≠ F.VALID) ∧
          r.victim = none ∧
          r.reads = back_list (g * dmc.assoc) dmc.assoc cs.set_lifo_top 0 dmc.assoc ∧
          r.dmc.lifo_top g = some (prev_slot (g * dmc.assoc) dmc.assoc cs.set_lifo_top)) ∨
       ∃ m : Nat, m < dmc.assoc ∧
          r.victim = some (back_slot (g * dmc.assoc) dmc.assoc cs.set_lifo_top m) ∧
          dmc.cache_state (back_slot (g * dmc.assoc) dmc.assoc cs.set_lifo_top m)
            = F.VALID ∧
          (∀ j ∈ back_list (g * dmc.assoc) dmc.assoc cs.set_lifo_top 0 m,
            dmc.cache_state j ≠ F.VALID) ∧
          r.reads = back_list (g * dmc.assoc) dmc.assoc cs.set_lifo_top 0 (m + 1) ∧
          r.dmc.lifo_top g = some (prev_slot (g * dmc.assoc) dmc.assoc
            (back_slot (g * dmc.assoc) dmc.assoc cs.set_lifo_top m))) := by
  obtain ⟨r, p, hr, hd, hp1, hp2, h⟩ :=
    find_reclaim_walk T F dmc g cache_sets cs hint hsets hcs hw hc1 hc2
  have htop : r.dmc.lifo_top g = some (prev_slot (g * dmc.assoc) dmc.assoc p) := by
    rw [hd]
    simp only [cache_c.lifo_top, Option.bind, cache_set_at_set_self cache_sets g cs _ hcs,
      Option.map, lifo_prev_eq T _ _ _ hw hp1 hp2, prev_slot]
  refine ⟨r, hr, ?_⟩
  rcases h with ⟨h1, h2, h3, h4⟩ | ⟨m, hm, h1, h2, h3, h4, h5⟩
  · left
    rw [h2] at htop
    exact ⟨h4, h1, h3, htop⟩
  · right
    rw [h1] at htop h2 h4
    exact ⟨m, hm, h2, h4, h5, h3, htop⟩

/-- Victim rotation: on a set that can be walked and holds two different VALID blocks,
two consecutive calls of `eio_lifo_find_reclaim_dbn` return two different blocks. -/
theorem find_reclaim_twice_differ (T : IndexT) (F : StateFlags) (dmc : cache_c) (g : Int)
    (cache_sets : List eio_lifo_cache_set) (cs : eio_lifo_cache_set) (w1 w2 : Int)
    (hint : dmc.assoc < 2 ^ 31)
    (hsets : dmc.sp_cache_set = some cache_sets)
    (hcs : cache_set_at cache_sets g = some cs)
    (hw : T.walks (g * dmc.assoc) dmc.assoc)
    (hc1 : g * dmc.assoc ≤ cs.set_lifo_top)
    (hc2 : cs.set_lifo_top < g * dmc.assoc + dmc.assoc)
    (h11 : g * dmc.assoc ≤ w1) (h12 : w1 < g * dmc.assoc + dmc.assoc)
    (h21 : g * dmc.assoc ≤ w2) (h22 : w2 < g * dmc.assoc + dmc.assoc)
    (hv1 : dmc.cache_state w1 = F.VALID) (hv2 : dmc.cache_state w2 = F.VALID)
    (hne : w1 ≠ w2) :
    ∃ r1 r2 v1 v2, eio_lifo_find_reclaim_dbn T F dmc (g * dmc.assoc) = .ok r1 ∧
      eio_lifo_find_reclaim_dbn T F r1.dmc (g * dmc.assoc) = .ok r2 ∧
      r1.victim = some v1 ∧ r2.victim = some v2 ∧ v1 ≠ v2 := by
  obtain ⟨r1, p1, hr1, hd1, hp1, hp2, h⟩ :=
    find_reclaim_walk T F dmc g cache_sets cs hint hsets hcs hw hc1 hc2
  rcases h with ⟨_, _, _, hno⟩ | ⟨m1, _, _, hvic1, _, hval1, _⟩
  · exact absurd hv1 (hno w1 h11 h12)
  have hassoc : r1.dmc.assoc = dmc.assoc := by rw [hd1]
  have hstate : r1.dmc.cache_state = dmc.cache_state := by rw [hd1]
  have hnew := lifo_prev_mem T (g * dmc.assoc) p1 dmc.assoc hw hp1 hp2
  have hback : lifo_prev T (g * dmc.assoc) (g * dmc.assoc + dmc.assoc) p1
      = back_slot (g * dmc.assoc) dmc.assoc p1 1 := by
    have := lifo_prev_back T (g * dmc.assoc) dmc.assoc p1 0 hw hp1 hp2 (by omega)
    rwa [back_slot_zero _ _ _ hp1] at this
  obtain ⟨r2, p2, hr2, _, _, _, h⟩ := find_reclaim_walk T F r1.dmc g
    (cache_sets.set g.toNat
      { cs with
        set_lifo_top := (lifo_prev T (g * dmc.assoc) (g * dmc.assoc + dmc.assoc) p1) })
    { cs with
      set_lifo_top := (lifo_prev T (g * dmc.assoc) (g * dmc.assoc + dmc.assoc) p1) }
    (by rw [hassoc]; exact hint) (by rw [hd1])
    (cache_set_at_set_self cache_sets g cs _ hcs)
    (by rw [hassoc]; exact hw) (by rw [hassoc]; exact hnew.1) (by rw [hassoc]; exact hnew.2)
  rw [hassoc, hstate] at h
  rw [hassoc] at hr2
  rcases h with ⟨_, _, _, hno⟩ | ⟨m2, hm2, hp2eq, hvic2, _, _, hbefore⟩
  · exact absurd hv1 (hno w1 h11 h12)
  refine ⟨r1, r2, p1, p2, hr1, hr2, hvic1, hvic2, fun heq => ?_⟩
  -- the victim of the first call is the last slot in the order of the second call
  have hlast : back_slot (g * dmc.assoc) dmc.assoc
      (lifo_prev T (g * dmc.assoc) (g * dmc.assoc + dmc.assoc) p1) (dmc.assoc - 1) = p1 := by
    rw [hback, back_slot_add _ _ _ _ _ hp1 (by omega)]
    have : 1 + (dmc.assoc - 1) = dmc.assoc := by omega
    rw [this, back_slot_full _ _ _ hp2]
  have hm2eq : m2 = dmc.assoc - 1 := by
    apply back_slot_inj (g * dmc.assoc) dmc.assoc
      (lifo_prev T (g * dmc.assoc) (g * dmc.assoc + dmc.assoc) p1) _ _ hm2 (by omega)
    rw [hlast, ← hp2eq, heq]
  -- a VALID block other than `p1` comes earlier in that order
  have hother : ∀ w, g * dmc.assoc ≤ w → w < g * dmc.assoc + dmc.assoc →
      dmc.cache_state w = F.VALID → w ≠ p1 → False := by
    intro w hw1 hw2 hwv hwne
    obtain ⟨k, hk, hkw⟩ := back_slot_surj (g * dmc.assoc) dmc.assoc
      (lifo_prev T (g * dmc.assoc) (g * dmc.assoc + dmc.assoc) p1) w hnew.1 hnew.2 hw1 hw2
    have hkne : k ≠ dmc.assoc - 1 := by
      intro hk1
      rw [hk1, hlast] at hkw
      exact hwne hkw.symm
    have hmem : w ∈ back_list (g * dmc.assoc) dmc.assoc
        (lifo_prev T (g * dmc.assoc) (g * dmc.assoc + dmc.assoc) p1) 0 m2 :=
      (mem_back_list _ _ _ _ _ _).2 ⟨k, by omega, by rw [Nat.zero_add, hkw]⟩
    exact hbefore w hmem hwv
  by_cases h1 : w1 = p1
  · exact hother w2 h21 h22 hv2 (fun h2 => hne (h1.trans h2.symm))
  · exact hother w1 h11 h12 hv1 h1

/-- Victim rotation with all blocks VALID: on a set that can be walked, started `k`
steps behind `c`, `n` consecutive calls (`k + n ≤ assoc`) return the next `n` slots
behind `c`, in backward cyclic order. -/
theorem find_run_all_valid (T : IndexT) (F : StateFlags) (g c : Int) (a : Nat)
    (hint : a < 2 ^ 31) (hw : T.walks (g * a) a) (hc1 : g * a ≤ c) (hc2 : c < g * a + a) :
    ∀ (n k : Nat) (dmc : cache_c) (cache_sets : List eio_lifo_cache_set)
      (cs : eio_lifo_cache_set),
      k + n ≤ a →
      dmc.assoc = a →
      dmc.sp_cache_set = some cache_sets →
      cache_set_at cache_sets g = some cs →
      cs.set_lifo_top = back_slot (g * a) a c k →
      (∀ j, g * a ≤ j → j < g * a + a → dmc.cache_state j = F.VALID) →
      ∃ dmc1, find_run T F (g * a) n dmc
        = .ok (dmc1, (back_list (g * a) a c k n).map some) := by
  intro n
  induction n with
  | zero => intro k dmc _ _ _ _ _ _ _ _; exact ⟨dmc, rfl⟩
  | succ n ih =>
    intro k dmc cache_sets cs hk hassoc hsets hcs hcur hall
    subst hassoc
    have hm := back_slot_mem (g * dmc.assoc) dmc.assoc c k hc1 hc2 (by omega)
    obtain ⟨r, p, hr, hd, _, _, h⟩ := find_reclaim_walk T F dmc g cache_sets cs hint hsets hcs
      hw (by rw [hcur]; exact hm.1) (by rw [hcur]; exact hm.2)
    rcases h with ⟨_, _, _, hno⟩ | ⟨m, _, hp, hvic, _, _, hbefore⟩
    · exact absurd (hall _ hm.1 hm.2) (hno _ hm.1 hm.2)
    have hm0 : m = 0 := by
      cases m with
      | zero => rfl
      | succ m =>
        exfalso
        refine hbefore cs.set_lifo_top ?_ (by rw [hcur]; exact hall _ hm.1 hm.2)
        exact (mem_back_list _ _ _ _ _ _).2
          ⟨0, by omega, by rw [Nat.zero_add, back_slot_zero _ _ _ (by rw [hcur]; exact hm.1)]⟩
    rw [hm0, back_slot_zero _ _ _ (by rw [hcur]; exact hm.1), hcur] at hp
    rw [hp] at hvic hd
    rw [lifo_prev_back T _ _ c k hw hc1 hc2 (by omega)] at hd
    have hassoc : r.dmc.assoc = dmc.assoc := by rw [hd]
    have hstate : r.dmc.cache_state = dmc.cache_state := by rw [hd]
    obtain ⟨dmc1, hrun⟩ := ih (k + 1) r.dmc
      (cache_sets.set g.toNat
        { cs with set_lifo_top := back_slot (g * dmc.assoc) dmc.assoc c (k + 1) })
      { cs with set_lifo_top := back_slot (g * dmc.assoc) dmc.assoc c (k + 1) }
      (by omega) hassoc (by rw [hd])
      (cache_set_at_set_self cache_sets g cs _ hcs) rfl (by rw [hstate]; exact hall)
    refine ⟨dmc1, ?_⟩
    simp only [find_run, hr, Outcome.bind, hrun, Outcome.map, hvic, back_list, List.map]

/-! ## The exact result of `eio_lifo_clean_set` on a set that can be walked -/

/-- With `to_clean ≤ nr_writes` the loop of `eio_lifo_clean_set` does nothing. -/
theorem clean_scan_done (T : IndexT) (F : StateFlags) (s e to_clean : Int) (n : Nat)
    (st : Int → Nat) (i nw : Int) (h : to_clean ≤ nw) :
    clean_scan T F s e to_clean n st i nw
      = { cache_state := st, i := i, nr_writes := nw, visited := [], marked := [] } := by
  cases n with
  | zero => rfl
  | succ n =>
    unfold clean_scan
    rw [if_neg (by omega)]

/-- The blocks the loop of `eio_lifo_clean_set` marks, started `k` steps behind `c`
with `nw` writes made: the first `to_clean - nw` eligible blocks among the `n` slots
ahead, in backward cyclic order. -/
theorem clean_scan_exact (T : IndexT) (F : StateFlags) (s : Int) (a : Nat) (c to_clean : Int)
    (hw : T.walks s a) (hc1 : s ≤ c) (hc2 : c < s + a) :
    ∀ (n k : Nat) (st : Int → Nat) (nw : Int), k + n ≤ a →
      ((clean_scan T F s (s + a) to_clean n st (back_slot s a c k) nw).marked.map
          fun p => p.1)
        = (eligible_list F st s a c k n).take (to_clean - nw).toNat ∧
      (clean_scan T F s (s + a) to_clean n st (back_slot s a c k) nw).nr_writes
        = nw + ((eligible_list F st s a c k n).take (to_clean - nw).toNat).length := by
  intro n
  induction n with
  | zero =>
    intro k st nw _
    simp [clean_scan, eligible_list, back_list]
  | succ n ih =>
    intro k st nw hk
    by_cases h1 : nw < to_clean
    · obtain ⟨t, ht⟩ : ∃ t : Nat, (to_clean - nw).toNat = t + 1 :=
        ⟨(to_clean - nw).toNat - 1, by omega⟩
      have ht1 : (to_clean - (nw + 1)).toNat = t := by omega
      unfold clean_scan
      rw [if_pos h1, lifo_prev_back T s a c k hw hc1 hc2 (by omega), ht]
      by_cases h2 : st (back_slot s a c k) &&& (F.DIRTY ||| F.BLOCK_IO_INPROG) = F.DIRTY
      · rw [if_pos h2]
        obtain ⟨hm, hn⟩ := ih (k + 1)
          (Function.update st (back_slot s a c k)
            (st (back_slot s a c k) ||| F.DISKWRITEINPROG)) (nw + 1) (by omega)
        rw [ht1] at hm hn
        have hsame : eligible_list F
            (Function.update st (back_slot s a c k)
              (st (back_slot s a c k) ||| F.DISKWRITEINPROG)) s a c (k + 1) n
            = eligible_list F st s a c (k + 1) n := by
          unfold eligible_list
          apply List.filter_congr
          intro x hx
          obtain ⟨j, hj, rfl⟩ := (mem_back_list s a c n (k + 1) x).1 hx
          have hne : back_slot s a c (k + 1 + j) ≠ back_slot s a c k := by
            intro he
            have := back_slot_inj s a c _ _ (by omega) (by omega) he
            omega
          rw [Function.update_noteq hne]
        rw [hsame] at hm hn
        have hel : eligible_list F st s a c k (n + 1)
            = back_slot s a c k :: eligible_list F st s a c (k + 1) n := by
          unfold eligible_list
          rw [back_list, List.filter_cons_of_pos (by simpa [StateFlags.cleanable] using h2)]
        rw [hel]
        refine ⟨by simp only [List.map, List.take_succ_cons, hm], ?_⟩
        simp only [List.take_succ_cons, List.length_cons, hn]
        push_cast
        omega
      · rw [if_neg h2]
        obtain ⟨hm, hn⟩ := ih (k + 1) st nw (by omega)
        rw [ht] at hm hn
        have hel : eligible_list F st s a c k (n + 1)
            = eligible_list F st s a c (k + 1) n := by
          unfold eligible_list
          rw [back_list, List.filter_cons_of_neg (by simpa [StateFlags.cleanable] using h2)]
        rw [hel]
        exact ⟨hm, hn⟩
    · rw [clean_scan_done T F s (s + a) to_clean (n + 1) st _ nw (by omega)]
      have : (to_clean - nw).toNat = 0 := by omega
      simp [this]

/-- The exact result of `eio_lifo_clean_set` on a set `g` that can be walked, with the
clean cursor in the range of the set: with `E` the number of blocks of the set that
are DIRTY and not BLOCK_IO_INPROG before the call, the return value is
`min(max(to_clean, 0), E)`, and the blocks marked are the first that many such blocks
in backward cyclic order from the cursor. -/
theorem clean_set_exact (T : IndexT) (F : StateFlags) (dmc : cache_c) (g to_clean : Int)
    (cache_sets : List eio_lifo_cache_set) (cs : eio_lifo_cache_set)
    (hint : dmc.assoc < 2 ^ 31)
    (hsets : dmc.sp_cache_set = some cache_sets)
    (hcs : cache_set_at cache_sets g = some cs)
    (hw : T.walks (g * dmc.assoc) dmc.assoc)
    (hc1 : g * dmc.assoc ≤ cs.set_clean_next)
    (hc2 : cs.set_clean_next < g * dmc.assoc + dmc.assoc) :
    ∃ r, eio_lifo_clean_set T F dmc g to_clean = .ok r ∧
      r.nr_writes = min (max to_clean 0)
        ((eligible_list F dmc.cache_state (g * dmc.assoc) dmc.assoc cs.set_clean_next
          0 dmc.assoc).length : Int) ∧
      (r.marked.map fun p => p.1)
        = (eligible_list F dmc.cache_state (g * dmc.assoc) dmc.assoc cs.set_clean_next
            0 dmc.assoc).take r.nr_writes.toNat := by
  have hn := to_int_toNat_eq dmc.assoc hint
  obtain ⟨r, hr, hnw, _, hmk, _⟩ :=
    clean_set_eq T F dmc g to_clean cache_sets cs dmc.assoc hsets hcs hn
  rw [T.walks_first _ _ hw, T.wrap_of_holds _ hw.2.2] at hnw hmk
  obtain ⟨hm, hcount⟩ := clean_scan_exact T F (g * dmc.assoc) dmc.assoc cs.set_clean_next
    to_clean hw hc1 hc2 dmc.assoc 0 dmc.cache_state 0 (by omega)
  rw [back_slot_zero _ _ _ hc1] at hm hcount
  rw [← hnw] at hcount
  rw [← hmk] at hm
  have hlen : r.nr_writes = min (max to_clean 0)
      ((eligible_list F dmc.cache_state (g * dmc.assoc) dmc.assoc cs.set_clean_next
        0 dmc.assoc).length : Int) := by
    rw [hcount, List.length_take]
    simp only [sub_zero, zero_add]
    omega
  refine ⟨r, hr, hlen, ?_⟩
  rw [hm]
  simp only [sub_zero]
  have hle : r.nr_writes.toNat ≤ to_clean.toNat := by
    rw [hlen]; omega
  have hlen2 : r.nr_writes.toNat ≤ (eligible_list F dmc.cache_state (g * dmc.assoc)
      dmc.assoc cs.set_clean_next 0 dmc.assoc).length := by
    rw [hlen]; omega
  by_cases hcase : to_clean.toNat ≤ (eligible_list F dmc.cache_state (g * dmc.assoc)
      dmc.assoc cs.set_clean_next 0 dmc.assoc).length
  · have : r.nr_writes.toNat = to_clean.toNat := by rw [hlen]; omega
    rw [this]
  · have : r.nr_writes.toNat = (eligible_list F dmc.cache_state (g * dmc.assoc)
        dmc.assoc cs.set_clean_next 0 dmc.assoc).length := by rw [hlen]; omega
    rw [this, List.take_length, List.take_of_length_le (by omega)]

/-- With `to_clean ≤ 0` a call of `eio_lifo_clean_set` returns 0 and changes no block
state and no cursor (for every index type and every set of the array). -/
theorem clean_set_nothing_to_clean (T : IndexT) (F : StateFlags) (dmc : cache_c)
    (set to_clean : Int) (cache_sets : List eio_lifo_cache_set) (cs : eio_lifo_cache_set)
    (hsets : dmc.sp_cache_set = some cache_sets)
    (hcs : cache_set_at cache_sets set = some cs)
    (hto : to_clean ≤ 0) :
    ∃ r, eio_lifo_clean_set T F dmc set to_clean = .ok r ∧ r.nr_writes = 0 ∧
      r.marked = [] ∧ r.visited = [] ∧
      r.dmc.cache_state = dmc.cache_state ∧
      (∀ g, r.dmc.clean_next g = dmc.clean_next g) ∧
      (∀ g, r.dmc.lifo_top g = dmc.lifo_top g) := by
  obtain ⟨n, hn⟩ : ∃ n, (to_int dmc.assoc).toNat = n := ⟨_, rfl⟩
  obtain ⟨r, hr, hnw, hvis, hmk, hst, hcsets, _⟩ :=
    clean_set_eq T F dmc set to_clean cache_sets cs n hsets hcs hn
  rw [clean_scan_done T F _ _ to_clean n _ _ 0 hto] at hnw hvis hmk hst hcsets
  obtain ⟨hl, hc⟩ := clean_set_cursor_frame T F dmc set to_clean r hr
  refine ⟨r, hr, hnw, hmk, hvis, hst, fun g => ?_, hl⟩
  by_cases hg : g = set
  · subst hg
    simp only [cache_c.clean_next, hcsets, hsets, Option.bind,
      cache_set_at_set_self cache_sets g cs _ hcs, hcs, Option.map]
  · exact hc g hg

/-- What a run of consecutive calls of `eio_lifo_clean_set` on a set `g` that can be
walked examines: as long as the calls scan at most `assoc` slots in total, the slots
examined are the slots behind the clean cursor `c` the run started with, in backward
cyclic order, each call resuming where the previous one stopped. -/
theorem clean_run_trace (T : IndexT) (F : StateFlags) (g : Int) (a : Nat)
    (hint : a < 2 ^ 31) (hw : T.walks (g * a) a) :
    ∀ (to_cleans : List Int) (dmc : cache_c) (cache_sets : List eio_lifo_cache_set)
      (cs : eio_lifo_cache_set),
      dmc.assoc = a →
      dmc.sp_cache_set = some cache_sets →
      cache_set_at cache_sets g = some cs →
      g * a ≤ cs.set_clean_next → cs.set_clean_next < g * a + a →
      ∃ dmc1 visited, clean_run T F g to_cleans dmc = .ok (dmc1, visited) ∧
        (visited.length ≤ a →
          visited = back_list (g * a) a cs.set_clean_next 0 visited.length) := by
  intro to_cleans
  induction to_cleans with
  | nil =>
    intro dmc _ _ _ _ _ _ _
    exact ⟨dmc, [], rfl, fun _ => rfl⟩
  | cons to_clean rest ih =>
    intro dmc cache_sets cs hassoc hsets hcs hc1 hc2
    subst hassoc
    obtain ⟨r, m, hr, hm, hvis, hcsets, _, _⟩ :=
      clean_set_walk T F dmc g to_clean cache_sets cs hint hsets hcs hw hc1 hc2
    have hassoc : r.dmc.assoc = dmc.assoc := by
      obtain ⟨n, hn⟩ : ∃ n, (to_int dmc.assoc).toNat = n := ⟨_, rfl⟩
      obtain ⟨r1, hr1, _, _, _, _, _, ha, _⟩ :=
        clean_set_eq T F dmc g to_clean cache_sets cs n hsets hcs hn
      rw [Outcome.ok.inj (hr.symm.trans hr1)]
      exact ha
    have hb := back_slot_mem (g * dmc.assoc) dmc.assoc cs.set_clean_next m hc1 hc2 hm
    obtain ⟨dmc1, vis2, hrun, hvis2⟩ := ih r.dmc _
      { cs with
        set_clean_next := back_slot (g * dmc.assoc) dmc.assoc cs.set_clean_next m }
      hassoc hcsets (cache_set_at_set_self cache_sets g cs _ hcs) hb.1 hb.2
    refine ⟨dmc1, r.visited ++ vis2, ?_, fun hlen => ?_⟩
    · simp only [clean_run, hr, Outcome.bind, hrun, Outcome.map]
    · have hl1 : r.visited.length = m := by rw [hvis, length_back_list]
      rw [List.length_append, hl1] at hlen ⊢
      have h2 := hvis2 (by omega)
      have hshift := back_list_shift (g * dmc.assoc) dmc.assoc cs.set_clean_next hc1
        vis2.length m 0 (by omega)
      rw [Nat.add_zero] at hshift
      simp only at h2
      rw [hshift] at h2
      rw [← back_list_append, ← hvis, Nat.zero_add, ← h2]

/-- Round-robin fairness on a set that can be walked: in a run of consecutive calls of
`eio_lifo_clean_set` that scan at most `assoc` slots in total no slot is examined
twice and every slot examined is a slot of the set; when they scan exactly `assoc`
slots, every slot of the set is examined (exactly once). -/
theorem clean_run_round_robin (T : IndexT) (F : StateFlags) (g : Int)
    (to_cleans : List Int) (dmc : cache_c) (cache_sets : List eio_lifo_cache_set)
    (cs : eio_lifo_cache_set)
    (hint : dmc.assoc < 2 ^ 31) (hw : T.walks (g * dmc.assoc) dmc.assoc)
    (hsets : dmc.sp_cache_set = some cache_sets)
    (hcs : cache_set_at cache_sets g = some cs)
    (hc1 : g * dmc.assoc ≤ cs.set_clean_next)
    (hc2 : cs.set_clean_next < g * dmc.assoc + dmc.assoc) :
    ∃ dmc1 visited, clean_run T F g to_cleans dmc = .ok (dmc1, visited) ∧
      (visited.length ≤ dmc.assoc →
        visited.Nodup ∧
        ∀ j ∈ visited, g * dmc.assoc ≤ j ∧ j < g * dmc.assoc + dmc.assoc) ∧
      (visited.length = dmc.assoc →
        ∀ j, g * dmc.assoc ≤ j → j < g * dmc.assoc + dmc.assoc → j ∈ visited) := by
  obtain ⟨dmc1, visited, hrun, htr⟩ := clean_run_trace T F g dmc.assoc hint hw to_cleans dmc
    cache_sets cs rfl hsets hcs hc1 hc2
  refine ⟨dmc1, visited, hrun, fun hlen => ?_, fun hlen j hj1 hj2 => ?_⟩
  · have h := htr hlen
    constructor
    · rw [h]
      exact nodup_back_list _ _ _ _ 0 (by omega)
    · intro j hj
      rw [h, mem_back_list] at hj
      obtain ⟨k, hk, rfl⟩ := hj
      exact back_slot_mem _ _ _ _ hc1 hc2 (by omega)
  · have h := htr (by omega)
    obtain ⟨k, hk, hkj⟩ := back_slot_surj _ dmc.assoc cs.set_clean_next j hc1 hc2 hj1 hj2
    rw [h, mem_back_list]
    exact ⟨k, by omega, by rw [Nat.zero_add, hkj]⟩

/-! ## The cursor-range invariant where every set can be walked -/

/-- The record of set `g` after a store in the record of set `g1`. -/
theorem cache_set_at_set (cache_sets : List eio_lifo_cache_set) (g g1 : Int)
    (cs cs1 x : eio_lifo_cache_set) (hcs : cache_set_at cache_sets g1 = some cs)
    (h : cache_set_at (cache_sets.set g1.toNat cs1) g = some x) :
    (g = g1 ∧ x = cs1) ∨ (g ≠ g1 ∧ cache_set_at cache_sets g = some x) := by
  by_cases hg : g = g1
  · subst hg
    rw [cache_set_at_set_self cache_sets g cs cs1 hcs] at h
    exact Or.inl ⟨rfl, (Option.some.inj h).symm⟩
  · rw [cache_set_at_set_ne cache_sets g1 g cs1 (cache_set_at_nonneg _ _ _ hcs) hg] at h
    exact Or.inr ⟨hg, h⟩

/-- The cursor-range invariant holds in every reachable state, when every set of the
array can be walked in the index type (as in the signed index type `s64`). -/
theorem reachable_cursors_in_range (T A : IndexT) (F : StateFlags) (dmc0 : cache_c)
    (mem : Nat → eio_lifo_cache_set)
    (hint : dmc0.assoc < 2 ^ 31)
    (hnum : dmc0.size >>> dmc0.consecutive_shift < 2 ^ 31)
    (hpos : 0 < dmc0.assoc)
    (h0 : T.holds 0 ∧ A.holds 0)
    (hmax : T.holds (((dmc0.size >>> dmc0.consecutive_shift) * dmc0.assoc : Nat) : Int) ∧
      A.holds (((dmc0.size >>> dmc0.consecutive_shift) * dmc0.assoc : Nat) : Int))
    (hwalk : ∀ g : Int, 0 ≤ g → g < ((dmc0.size >>> dmc0.consecutive_shift : Nat) : Int) →
      T.walks (g * dmc0.assoc) dmc0.assoc)
    (dmc : cache_c) (hreach : reachable T A F dmc0 mem dmc) :
    cursors_in_range dmc ∧ dmc.assoc = dmc0.assoc ∧
      ∃ cache_sets, dmc.sp_cache_set = some cache_sets ∧
        cache_sets.length = dmc0.size >>> dmc0.consecutive_shift := by
  have hrange : ∀ (cache_sets : List eio_lifo_cache_set) (g : Int) (cs : eio_lifo_cache_set),
      cache_sets.length = dmc0.size >>> dmc0.consecutive_shift →
      cache_set_at cache_sets g = some cs →
      0 ≤ g ∧ g < ((dmc0.size >>> dmc0.consecutive_shift : Nat) : Int) := by
    intro cache_sets g cs hlen hcs
    have hg := cache_set_at_nonneg _ _ _ hcs
    unfold cache_set_at at hcs
    rw [if_pos hg] at hcs
    have := (List.getElem?_eq_some.1 hcs).1
    omega
  induction hreach with
  | init =>
    obtain ⟨cache_sets, hcall, hlen, hrec⟩ := sets_init_array T A dmc0 mem hnum h0 hmax
    rw [hcall]
    refine ⟨?_, rfl, cache_sets, rfl, hlen⟩
    intro cs1 hcs1 g cs hcs
    cases hcs1
    obtain ⟨hg0, hg1⟩ := hrange cache_sets g cs hlen hcs
    unfold cache_set_at at hcs
    rw [if_pos hg0, hrec g.toNat (by omega)] at hcs
    cases hcs
    have : ((g.toNat : Nat) : Int) = g := Int.toNat_of_nonneg hg0
    simp only [this]
    omega
  | find dmc g r _ hcall hset ih =>
    obtain ⟨hinv, hassoc, cache_sets, hsets, hlen⟩ := ih
    obtain ⟨cs1, cs, n, _, hs1, hcs, _, _, _, _, _⟩ :=
      find_reclaim_ok_inv T F dmc (g * dmc.assoc) r hcall
    rw [hsets] at hs1
    cases hs1
    rw [hset] at hcs
    obtain ⟨hg0, hg1⟩ := hrange cache_sets g cs hlen hcs
    have hcur := hinv cache_sets hsets g cs hcs
    obtain ⟨r1, c1, hr1, hd, hc1, hc2⟩ := find_reclaim_cursor_in_range T F dmc g cache_sets cs
      (by rw [hassoc]; exact hint) hsets hcs (by rw [hassoc]; exact hwalk g hg0 hg1)
      hcur.1.1 hcur.1.2
    have hrr : r = r1 := Outcome.ok.inj (hcall.symm.trans hr1)
    rw [hrr, hd]
    refine ⟨?_, hassoc, _, rfl, by rw [List.length_set]; exact hlen⟩
    intro cs2 hcs2 g2 x hx
    cases hcs2
    rcases cache_set_at_set cache_sets g2 g cs _ x hcs hx with ⟨rfl, rfl⟩ | ⟨_, hx1⟩
    · exact ⟨⟨hc1, hc2⟩, hcur.2⟩
    · exact hinv cache_sets hsets g2 x hx1
  | clean dmc set to_clean r _ hcall ih =>
    obtain ⟨hinv, hassoc, cache_sets, hsets, hlen⟩ := ih
    cases hcs : cache_set_at cache_sets set with
    | none =>
      simp only [eio_lifo_clean_set, hsets, hcs] at hcall
      cases hcall
    | some cs =>
      obtain ⟨hg0, hg1⟩ := hrange cache_sets set cs hlen hcs
      have hcur := hinv cache_sets hsets set cs hcs
      obtain ⟨r1, m, hr1, hm, _, hcsets, _, _⟩ := clean_set_walk T F dmc set to_clean
        cache_sets cs (by rw [hassoc]; exact hint) hsets hcs
        (by rw [hassoc]; exact hwalk set hg0 hg1) hcur.2.1 hcur.2.2
      have hrr : r = r1 := Outcome.ok.inj (hcall.symm.trans hr1)
      have ha : r.dmc.assoc = dmc.assoc := by
        obtain ⟨n, hn⟩ : ∃ n, (to_int dmc.assoc).toNat = n := ⟨_, rfl⟩
        obtain ⟨r2, hr2, _, _, _, _, _, ha, _⟩ :=
          clean_set_eq T F dmc set to_clean cache_sets cs n hsets hcs hn
        rw [Outcome.ok.inj (hcall.symm.trans hr2)]
        exact ha
      rw [← hrr] at hcsets
      have hb := back_slot_mem (set * dmc.assoc) dmc.assoc cs.set_clean_next m
        hcur.2.1 hcur.2.2 hm
      refine ⟨?_, ha.trans hassoc, _, hcsets, by rw [List.length_set]; exact hlen⟩
      intro cs2 hcs2 g2 x hx
      rw [hcsets] at hcs2
      cases hcs2
      rw [ha]
      rcases cache_set_at_set cache_sets g2 set cs _ x hcs hx with ⟨rfl, rfl⟩ | ⟨_, hx1⟩
      · exact ⟨hcur.1, hb⟩
      · exact hinv cache_sets hsets g2 x hx1
  | engine dmc cache_state _ ih =>
    obtain ⟨hinv, hassoc, cache_sets, hsets, hlen⟩ := ih
    exact ⟨fun cs1 hcs1 g cs hcs => hinv cs1 hcs1 g cs hcs, hassoc, cache_sets, hsets, hlen⟩

/-- The hypotheses of `reachable_cursors_in_range` hold for a signed 64-bit `index_t`
and a cache of two sets of four blocks: there the cursor-range invariant holds in
every reachable state. -/
theorem reachable_cursors_in_range_s64 (F : StateFlags) (cache_state : Int → Nat)
    (mem : Nat → eio_lifo_cache_set) (dmc : cache_c)
    (hreach : reachable s64 u32 F (cache4_fresh 2 cache_state) mem dmc) :
    cursors_in_range dmc := by
  have ha : (cache4_fresh 2 cache_state).assoc = 4 := rfl
  have hn : (cache4_fresh 2 cache_state).size >>>
      (cache4_fresh 2 cache_state).consecutive_shift = 2 := by
    show (4 * 2) >>> 2 = 2
    decide
  refine (reachable_cursors_in_range s64 u32 F (cache4_fresh 2 cache_state) mem
    (by rw [ha]; decide) (by rw [hn]; decide) (by rw [ha]; decide) (by decide)
    (by rw [hn, ha]; decide) ?_ dmc hreach).1
  intro g hg0 hg1
  rw [hn] at hg1
  rw [ha]
  have h2 : g < 2 := hg1
  interval_cases g <;> decide

/-! ## Frame of `eio_lifo_find_reclaim_dbn` -/

/-- C11. After a returning call of `eio_lifo_find_reclaim_dbn` the whole block state
table is unchanged, the clean cursor of every set is unchanged, and the eviction
cursor of every set other than the set `start_index / assoc` of the call is unchanged
(as are `size`, `assoc` and `consecutive_shift`); only `set_lifo_top` of that one set
may differ. For every index type, every `start_index` and every cursor. -/
theorem find_reclaim_frame (T : IndexT) (F : StateFlags) (dmc : cache_c)
    (start_index : Int) (r : FindResult)
    (hcall : eio_lifo_find_reclaim_dbn T F dmc start_index = .ok r) :
    r.dmc.cache_state = dmc.cache_state ∧
    (∀ g, r.dmc.clean_next g = dmc.clean_next g) ∧
    (∀ g, g ≠ T.wrap (Int.tdiv start_index dmc.assoc) →
      r.dmc.lifo_top g = dmc.lifo_top g) ∧
    r.dmc.size = dmc.size ∧ r.dmc.assoc = dmc.assoc ∧
    r.dmc.consecutive_shift = dmc.consecutive_shift := by
  obtain ⟨cache_sets, cs, n, _, hsets, hcs, _, _, _, _, hd⟩ :=
    find_reclaim_ok_inv T F dmc start_index r hcall
  have h0 := cache_set_at_nonneg cache_sets _ cs hcs
  rw [hd]
  refine ⟨rfl, ?_, ?_, rfl, rfl, rfl⟩
  · intro g
    simp only [cache_c.clean_next, hsets, Option.bind]
    by_cases hg : g = T.wrap (Int.tdiv start_index dmc.assoc)
    · rw [hg, cache_set_at_set_self cache_sets _ cs _ hcs, hcs]
      rfl
    · rw [cache_set_at_set_ne cache_sets _ g _ h0 hg]
  · intro g hg
    simp only [cache_c.lifo_top, hsets, Option.bind]
    rw [cache_set_at_set_ne cache_sets _ g _ h0 hg]

theorem find_reclaim_frame_witness :
    (cache4 2 one_valid_state [⟨0, 0⟩, ⟨5, 4⟩]).cache_state
      = (cache4 2 one_valid_state [⟨0, 0⟩, ⟨4, 4⟩]).cache_state ∧
    (∀ g, (cache4 2 one_valid_state [⟨0, 0⟩, ⟨5, 4⟩]).clean_next g
      = (cache4 2 one_valid_state [⟨0, 0⟩, ⟨4, 4⟩]).clean_next g) ∧
    (∀ g, g ≠ u64.wrap (Int.tdiv 4 (cache4 2 one_valid_state [⟨0, 0⟩, ⟨4, 4⟩]).assoc) →
      (cache4 2 one_valid_state [⟨0, 0⟩, ⟨5, 4⟩]).lifo_top g
        = (cache4 2 one_valid_state [⟨0, 0⟩, ⟨4, 4⟩]).lifo_top g) ∧
    (cache4 2 one_valid_state [⟨0, 0⟩, ⟨5, 4⟩]).size
      = (cache4 2 one_valid_state [⟨0, 0⟩, ⟨4, 4⟩]).size ∧
    (cache4 2 one_valid_state [⟨0, 0⟩, ⟨5, 4⟩]).assoc
      = (cache4 2 one_valid_state [⟨0, 0⟩, ⟨4, 4⟩]).assoc ∧
    (cache4 2 one_valid_state [⟨0, 0⟩, ⟨5, 4⟩]).consecutive_shift
      = (cache4 2 one_valid_state [⟨0, 0⟩, ⟨4, 4⟩]).consecutive_shift :=
  find_reclaim_frame u64 eio_flags (cache4 2 one_valid_state [⟨0, 0⟩, ⟨4, 4⟩]) 4
    { dmc := cache4 2 one_valid_state [⟨0, 0⟩, ⟨5, 4⟩]
      victim := some 6
      reads := [4, 7, 6] }
    (by with_unfolding_all rfl)

/-! ## Allocation failure in `eio_lifo_cache_sets_init` -/

/-- C12. `eio_lifo_cache_sets_init` returns `-ENOMEM` if and only if the allocation of
the set array fails; in that case `sp_cache_set` is NULL (no set has a cursor); when
the allocation succeeds the call returns 0 and `sp_cache_set` is not NULL. -/
theorem sets_init_enomem (T A : IndexT) (dmc : cache_c)
    (vmalloc : Option (Nat → eio_lifo_cache_set)) :
    ((eio_lifo_cache_sets_init T A dmc vmalloc).2 = -ENOMEM ↔ vmalloc = none) ∧
    (vmalloc = none →
      (eio_lifo_cache_sets_init T A dmc vmalloc).1.sp_cache_set = none ∧
      (∀ g, (eio_lifo_cache_sets_init T A dmc vmalloc).1.lifo_top g = none) ∧
      (∀ g, (eio_lifo_cache_sets_init T A dmc vmalloc).1.clean_next g = none)) ∧
    (vmalloc ≠ none →
      (eio_lifo_cache_sets_init T A dmc vmalloc).2 = 0 ∧
      (eio_lifo_cache_sets_init T A dmc vmalloc).1.sp_cache_set ≠ none) := by
  cases vmalloc with
  | none =>
    refine ⟨⟨fun _ => rfl, fun _ => rfl⟩, fun _ => ⟨rfl, fun g => rfl, fun g => rfl⟩,
      fun h => absurd rfl h⟩
  | some mem =>
    obtain ⟨n, hn⟩ : ∃ n, (to_int ((dmc.size >>> dmc.consecutive_shift : Nat) : Int)).toNat = n :=
      ⟨_, rfl⟩
    rw [sets_init_eq T A dmc mem n hn]
    refine ⟨⟨fun h => ?_, fun h => ?_⟩, fun h => ?_, fun _ => ⟨rfl, ?_⟩⟩
    · simp [ENOMEM] at h
    · cases h
    · cases h
    · simp

/-! ## The two set formulas -/

/-- A set index at or past the end of the set array: both operations fault. -/
theorem set_past_array_faults (T : IndexT) (F : StateFlags) (dmc : cache_c)
    (cache_sets : List eio_lifo_cache_set) (hsets : dmc.sp_cache_set = some cache_sets) :
    (∀ start_index : Int,
      (cache_sets.length : Int) ≤ T.wrap (Int.tdiv start_index dmc.assoc) →
      eio_lifo_find_reclaim_dbn T F dmc start_index = .fault) ∧
    (∀ set to_clean : Int, (cache_sets.length : Int) ≤ set →
      eio_lifo_clean_set T F dmc set to_clean = .fault) := by
  have hnone : ∀ g : Int, (cache_sets.length : Int) ≤ g → cache_set_at cache_sets g = none := by
    intro g hg
    unfold cache_set_at
    split_ifs with h0
    · exact List.getElem?_eq_none (by omega)
    · rfl
  constructor
  · intro start_index h
    rcases find_reclaim_cases T F dmc start_index with hf | ⟨cs1, cs, n, _, hs, hcs, _⟩
    · exact hf
    · rw [hsets] at hs
      cases hs
      rw [hnone _ h] at hcs
      cases hcs
  · intro set to_clean h
    simp only [eio_lifo_clean_set, hsets, hnone set h]

/-- C18. If `assoc = 2^consecutive_shift` and `size` is a multiple of `assoc`, then
after `eio_lifo_cache_sets_init` every block index `b < size` has its lookup-time set
`b / assoc` below the number `size >> consecutive_shift` of initialised records, the
record of that set is in the array, and its two cursors lie in the range
`[(b/assoc)*assoc, (b/assoc)*assoc + assoc)`, which contains `b`. Without that
relation the set can lie past the array: in `mismatch_cache` (size 8, shift 2,
assoc 2) block 6 belongs to set 3 while two records are made, and
`eio_lifo_find_reclaim_dbn` on block 6 and `eio_lifo_clean_set` on set 3 fault. (The
number of sets is taken to fit an `int`, and `0` and `numSets * assoc` to be
representable.) -/
theorem set_formulas_agree (T A : IndexT) (dmc : cache_c) (mem : Nat → eio_lifo_cache_set)
    (hassoc : dmc.assoc = 2 ^ dmc.consecutive_shift)
    (hsize : dmc.assoc ∣ dmc.size)
    (hsets : dmc.size >>> dmc.consecutive_shift < 2 ^ 31)
    (h0 : T.holds 0 ∧ A.holds 0)
    (hmax : T.holds (((dmc.size >>> dmc.consecutive_shift) * dmc.assoc : Nat) : Int) ∧
      A.holds (((dmc.size >>> dmc.consecutive_shift) * dmc.assoc : Nat) : Int)) :
    (∀ b : Nat, b < dmc.size →
      b / dmc.assoc < dmc.size >>> dmc.consecutive_shift ∧
      T.wrap (Int.tdiv b dmc.assoc) = ((b / dmc.assoc : Nat) : Int) ∧
      ∃ cache_sets cs,
        (eio_lifo_cache_sets_init T A dmc (some mem)).1.sp_cache_set = some cache_sets ∧
        cache_set_at cache_sets (T.wrap (Int.tdiv b dmc.assoc)) = some cs ∧
        (((b / dmc.assoc) * dmc.assoc : Nat) : Int) ≤ cs.set_lifo_top ∧
        cs.set_lifo_top < (((b / dmc.assoc) * dmc.assoc + dmc.assoc : Nat) : Int) ∧
        (((b / dmc.assoc) * dmc.assoc : Nat) : Int) ≤ cs.set_clean_next ∧
        cs.set_clean_next < (((b / dmc.assoc) * dmc.assoc + dmc.assoc : Nat) : Int) ∧
        (b / dmc.assoc) * dmc.assoc ≤ b ∧ b < (b / dmc.assoc) * dmc.assoc + dmc.assoc) ∧
    ((6 : Nat) < mismatch_cache.size ∧
      ¬ (6 / mismatch_cache.assoc
          < mismatch_cache.size >>> mismatch_cache.consecutive_shift) ∧
      eio_lifo_find_reclaim_dbn u64 eio_flags
        (eio_lifo_cache_sets_init u64 u32 mismatch_cache (some stale_memory)).1 6 = .fault ∧
      eio_lifo_clean_set u64 eio_flags
        (eio_lifo_cache_sets_init u64 u32 mismatch_cache (some stale_memory)).1 3 1
          = .fault) := by
  constructor
  · intro b hb
    have hpos : 0 < dmc.assoc := by rw [hassoc]; positivity
    obtain ⟨k, hk⟩ := hsize
    have hnum : dmc.size >>> dmc.consecutive_shift = k := by
      rw [Nat.shiftRight_eq_div_pow, ← hassoc, hk, Nat.mul_div_cancel_left _ hpos]
    have hlt : b / dmc.assoc < dmc.size >>> dmc.consecutive_shift := by
      rw [hnum, Nat.div_lt_iff_lt_mul hpos, Nat.mul_comm]
      omega
    obtain ⟨cache_sets, hcall, _, hrec⟩ := sets_init_array T A dmc mem hsets h0 hmax
    have hq := hrec (b / dmc.assoc) hlt
    have hle : ((b / dmc.assoc : Nat) : Int) ≤
        (((dmc.size >>> dmc.consecutive_shift) * dmc.assoc : Nat) : Int) := by
      have : b / dmc.assoc ≤ (dmc.size >>> dmc.consecutive_shift) * dmc.assoc :=
        le_trans hlt.le (Nat.le_mul_of_pos_right _ hpos)
      exact_mod_cast this
    have hwrap : T.wrap (Int.tdiv b dmc.assoc) = ((b / dmc.assoc : Nat) : Int) := by
      rw [← Int.ofNat_tdiv]
      exact T.wrap_of_holds _ (T.holds_of_between 0 _ _ h0.1 hmax.1 (by positivity) hle)
    have hlow := Nat.div_mul_le_self b dmc.assoc
    have hhigh : b < (b / dmc.assoc) * dmc.assoc + dmc.assoc := by
      have h1 := Nat.div_add_mod b dmc.assoc
      have h2 := Nat.mod_lt b hpos
      rw [Nat.mul_comm] at h1
      omega
    refine ⟨hlt, hwrap, cache_sets,
      { set_lifo_top := ((b / dmc.assoc : Nat) : Int) * dmc.assoc,
        set_clean_next := ((b / dmc.assoc : Nat) : Int) * dmc.assoc },
      by rw [hcall], ?_, ?_, ?_, ?_, ?_, hlow, hhigh⟩
    · rw [hwrap]
      simp only [cache_set_at, Int.natCast_nonneg, if_true, Int.toNat_ofNat]
      exact hq
    · push_cast; exact le_refl _
    · push_cast; omega
    · push_cast; exact le_refl _
    · push_cast; omega
  · exact ⟨by decide, by decide, by with_unfolding_all rfl, by with_unfolding_all rfl⟩

theorem set_formulas_agree_witness :
    (∀ b : Nat, b < (cache4_fresh 2 one_valid_state).size →
      b / (cache4_fresh 2 one_valid_state).assoc
        < (cache4_fresh 2 one_valid_state).size >>>
            (cache4_fresh 2 one_valid_state).consecutive_shift ∧
      u64.wrap (Int.tdiv b (cache4_fresh 2 one_valid_state).assoc)
        = ((b / (cache4_fresh 2 one_valid_state).assoc : Nat) : Int) ∧
      ∃ cache_sets cs,
        (eio_lifo_cache_sets_init u64 u32 (cache4_fresh 2 one_valid_state)
          (some stale_memory)).1.sp_cache_set = some cache_sets ∧
        cache_set_at cache_sets
          (u64.wrap (Int.tdiv b (cache4_fresh 2 one_valid_state).assoc)) = some cs ∧
        (((b / (cache4_fresh 2 one_valid_state).assoc)
            * (cache4_fresh 2 one_valid_state).assoc : Nat) : Int) ≤ cs.set_lifo_top ∧
        cs.set_lifo_top < (((b / (cache4_fresh 2 one_valid_state).assoc)
            * (cache4_fresh 2 one_valid_state).assoc
            + (cache4_fresh 2 one_valid_state).assoc : Nat) : Int) ∧
        (((b / (cache4_fresh 2 one_valid_state).assoc)
            * (cache4_fresh 2 one_valid_state).assoc : Nat) : Int) ≤ cs.set_clean_next ∧
        cs.set_clean_next < (((b / (cache4_fresh 2 one_valid_state).assoc)
            * (cache4_fresh 2 one_valid_state).assoc
            + (cache4_fresh 2 one_valid_state).assoc : Nat) : Int) ∧
        (b / (cache4_fresh 2 one_valid_state).assoc)
            * (cache4_fresh 2 one_valid_state).assoc ≤ b ∧
        b < (b / (cache4_fresh 2 one_valid_state).assoc)
            * (cache4_fresh 2 one_valid_state).assoc
            + (cache4_fresh 2 one_valid_state).assoc) ∧
    ((6 : Nat) < mismatch_cache.size ∧
      ¬ (6 / mismatch_cache.assoc
          < mismatch_cache.size >>> mismatch_cache.consecutive_shift) ∧
      eio_lifo_find_reclaim_dbn u64 eio_flags
        (eio_lifo_cache_sets_init u64 u32 mismatch_cache (some stale_memory)).1 6 = .fault ∧
      eio_lifo_clean_set u64 eio_flags
        (eio_lifo_cache_sets_init u64 u32 mismatch_cache (some stale_memory)).1 3 1
          = .fault) :=
  set_formulas_agree u64 u32 (cache4_fresh 2 one_valid_state) stale_memory
    (by decide) ⟨2, by decide⟩ (by decide) (by decide) (by decide)

/-! ## Exact results of `eio_lifo_find_reclaim_dbn` -/

theorem prev_slot_back (s : Int) (a : Nat) (c : Int) (k : Nat) (hc1 : s ≤ c)
    (hk : k < a) :
    prev_slot s a (back_slot s a c k) = back_slot s a c (k + 1) := by
  unfold prev_slot back_slot
  push_cast
  split_ifs <;> omega

/-- C13. With `start_index` the first slot `s = g * assoc` of a set and the eviction
cursor `c` in `[s, s + assoc)`, `eio_lifo_find_reclaim_dbn` returns, and it stores a
victim if and only if some block of the set is in state exactly VALID. The victim `v`
is the first such block in the backward cyclic order `c, c-1, ..., s, s+assoc-1, ...,
c+1`: it is `m < assoc` steps behind `c`, no block fewer steps behind `c` is VALID,
and the slots read are those up to `v` (at most `assoc`). The persisted cursor is the
wrapped predecessor of the victim (`v - 1`, or `s + assoc - 1` when `v = s`).
(`assoc` fits an `int`; `s - 1` and `s + assoc` are representable in `index_t`.) -/
theorem find_reclaim_hit (T : IndexT) (F : StateFlags) (dmc : cache_c) (g : Int)
    (cache_sets : List eio_lifo_cache_set) (cs : eio_lifo_cache_set)
    (hint : dmc.assoc < 2 ^ 31)
    (hsets : dmc.sp_cache_set = some cache_sets)
    (hcs : cache_set_at cache_sets g = some cs)
    (hw : T.walks (g * dmc.assoc) dmc.assoc)
    (hc1 : g * dmc.assoc ≤ cs.set_lifo_top)
    (hc2 : cs.set_lifo_top < g * dmc.assoc + dmc.assoc) :
    ∃ r, eio_lifo_find_reclaim_dbn T F dmc (g * dmc.assoc) = .ok r ∧
      ((∃ v, r.victim = some v) ↔
        ∃ j, g * dmc.assoc ≤ j ∧ j < g * dmc.assoc + dmc.assoc ∧
          dmc.cache_state j = F.VALID) ∧
      ∀ v, r.victim = some v →
        (g * dmc.assoc ≤ v ∧ v < g * dmc.assoc + dmc.assoc) ∧
        dmc.cache_state v = F.VALID ∧
        (∃ m : Nat, m < dmc.assoc ∧
          v = back_slot (g * dmc.assoc) dmc.assoc cs.set_lifo_top m ∧
          (∀ k : Nat, k < m →
            dmc.cache_state (back_slot (g * dmc.assoc) dmc.assoc cs.set_lifo_top k)
              ≠ F.VALID) ∧
          r.reads = back_list (g * dmc.assoc) dmc.assoc cs.set_lifo_top 0 (m + 1)) ∧
        r.reads.length ≤ dmc.assoc ∧
        r.dmc.lifo_top g
          = some (if v = g * dmc.assoc then g * dmc.assoc + dmc.assoc - 1 else v - 1) := by
  obtain ⟨r, hr, h⟩ := find_reclaim_exact T F dmc g cache_sets cs hint hsets hcs hw hc1 hc2
  refine ⟨r, hr, ?_, ?_⟩
  · rcases h with ⟨hno, hvic, _, _⟩ | ⟨m, hm, hvic, hval, _, _, _⟩
    · constructor
      · rintro ⟨v, hv⟩
        rw [hvic] at hv
        cases hv
      · rintro ⟨j, hj1, hj2, hj⟩
        exact absurd hj (hno j hj1 hj2)
    · have hmem := back_slot_mem (g * dmc.assoc) dmc.assoc cs.set_lifo_top m hc1 hc2 hm.le
      exact ⟨fun _ => ⟨_, hmem.1, hmem.2, hval⟩, fun _ => ⟨_, hvic⟩⟩
  · intro v hv
    rcases h with ⟨_, hvic, _, _⟩ | ⟨m, hm, hvic, hval, hbefore, hreads, htop⟩
    · rw [hvic] at hv
      cases hv
    · rw [hvic] at hv
      have hveq := Option.some.inj hv
      have hmem := back_slot_mem (g * dmc.assoc) dmc.assoc cs.set_lifo_top m hc1 hc2 hm.le
      rw [← hveq]
      refine ⟨hmem, hval, ⟨m, hm, rfl, fun k hk => ?_, hreads⟩, ?_, ?_⟩
      · exact hbefore _ ((mem_back_list _ _ _ _ _ _).2 ⟨k, hk, by rw [Nat.zero_add]⟩)
      · rw [hreads, length_back_list]
        omega
      · rw [htop]
        rfl

theorem find_reclaim_hit_witness :
    ∃ r, eio_lifo_find_reclaim_dbn s64 eio_flags (cache4 2 block_two_valid (two_sets 0))
        (0 * (cache4 2 block_two_valid (two_sets 0)).assoc) = .ok r ∧
      r.victim = some 2 ∧ r.reads = [0, 3, 2] ∧ r.dmc.lifo_top 0 = some 1 := by
  obtain ⟨r, hr, hiff, hv⟩ := find_reclaim_hit s64 eio_flags
    (cache4 2 block_two_valid (two_sets 0)) 0 (two_sets 0)
    { set_lifo_top := 0, set_clean_next := 0 }
    (by decide) rfl (by decide) (by decide) (by decide) (by decide)
  obtain ⟨v, hvic⟩ := hiff.2 ⟨2, by decide, by decide, by decide⟩
  obtain ⟨_, hval, ⟨m, hm, hvm, _, hreads⟩, _, htop⟩ := hv v hvic
  have hm4 : m < 4 := hm
  have hv2 : v = 2 := by
    by_contra hne
    simp [cache4, block_two_valid, hne, eio_flags] at hval
  subst hv2
  have hm2 : m = 2 := by
    interval_cases m <;> first | rfl | (exfalso; revert hvm; decide)
  subst hm2
  exact ⟨r, hr, hvic, by rw [hreads]; decide, by rw [htop]; decide⟩

/-- C14. With `start_index` the first slot `s = g * assoc` of a set, the eviction cursor
`c` in `[s, s + assoc)` and no block of the set in state exactly VALID,
`eio_lifo_find_reclaim_dbn` returns having read every one of the `assoc` slots of the
set exactly once (in backward cyclic order from `c`); it stores no victim, so the
caller's output index is left as it was; and the persisted cursor is the wrapped
predecessor of the old cursor (`c - 1`, or `s + assoc - 1` when `c = s`).
(`assoc` fits an `int`; `s - 1` and `s + assoc` are representable in `index_t`.) -/
theorem find_reclaim_miss (T : IndexT) (F : StateFlags) (dmc : cache_c) (g : Int)
    (cache_sets : List eio_lifo_cache_set) (cs : eio_lifo_cache_set)
    (hint : dmc.assoc < 2 ^ 31)
    (hsets : dmc.sp_cache_set = some cache_sets)
    (hcs : cache_set_at cache_sets g = some cs)
    (hw : T.walks (g * dmc.assoc) dmc.assoc)
    (hc1 : g * dmc.assoc ≤ cs.set_lifo_top)
    (hc2 : cs.set_lifo_top < g * dmc.assoc + dmc.assoc)
    (hmiss : ∀ j, g * dmc.assoc ≤ j → j < g * dmc.assoc + dmc.assoc →
      dmc.cache_state j ≠ F.VALID) :
    ∃ r, eio_lifo_find_reclaim_dbn T F dmc (g * dmc.assoc) = .ok r ∧
      r.victim = none ∧ (∀ index0, r.index index0 = index0) ∧
      r.reads = back_list (g * dmc.assoc) dmc.assoc cs.set_lifo_top 0 dmc.assoc ∧
      r.reads.length = dmc.assoc ∧ r.reads.Nodup ∧
      (∀ j, j ∈ r.reads ↔ g * dmc.assoc ≤ j ∧ j < g * dmc.assoc + dmc.assoc) ∧
      r.dmc.lifo_top g
        = some (if cs.set_lifo_top = g * dmc.assoc then g * dmc.assoc + dmc.assoc - 1
            else cs.set_lifo_top - 1) := by
  obtain ⟨r, hr, h⟩ := find_reclaim_exact T F dmc g cache_sets cs hint hsets hcs hw hc1 hc2
  rcases h with ⟨_, hvic, hreads, htop⟩ | ⟨m, hm, _, hval, _, _, _⟩
  · refine ⟨r, hr, hvic, fun index0 => ?_, hreads, ?_, ?_, fun j => ?_, ?_⟩
    · simp [FindResult.index, hvic]
    · rw [hreads, length_back_list]
    · rw [hreads]
      exact nodup_back_list _ _ _ _ 0 (by omega)
    · rw [hreads, mem_back_list]
      constructor
      · rintro ⟨k, hk, rfl⟩
        exact back_slot_mem _ _ _ _ hc1 hc2 (by omega)
      · rintro ⟨hj1, hj2⟩
        obtain ⟨k, hk, hkj⟩ := back_slot_surj _ dmc.assoc cs.set_lifo_top j hc1 hc2 hj1 hj2
        exact ⟨k, hk, by rw [Nat.zero_add, hkj]⟩
    · rw [htop]
      rfl
  · have hmem := back_slot_mem (g * dmc.assoc) dmc.assoc cs.set_lifo_top m hc1 hc2 hm.le
    exact absurd hval (hmiss _ hmem.1 hmem.2)

theorem find_reclaim_miss_witness :
    ∃ r, eio_lifo_find_reclaim_dbn s64 eio_flags (cache4 2 all_invalid (two_sets 2))
        (0 * (cache4 2 all_invalid (two_sets 2)).assoc) = .ok r ∧
      r.victim = none ∧ r.reads = [2, 1, 0, 3] ∧ r.dmc.lifo_top 0 = some 1 := by
  obtain ⟨r, hr, hvic, _, hreads, _, _, _, htop⟩ := find_reclaim_miss s64 eio_flags
    (cache4 2 all_invalid (two_sets 2)) 0 (two_sets 2)
    { set_lifo_top := 2, set_clean_next := 2 }
    (by decide) rfl (by decide) (by decide) (by decide) (by decide)
    (fun _ _ _ => by show eio_flags.INVALID ≠ eio_flags.VALID; decide)
  exact ⟨r, hr, hvic, by rw [hreads]; decide, by rw [htop]; decide⟩

/-- C15. With `start_index` the first slot `s = g * assoc` of a set and the eviction
cursor in `[s, s + assoc)` (so that `assoc > 0`), neither `EIO_ASSERT(i >= start_index)` nor
`EIO_ASSERT(i < end_index)` fails on any iteration, for every block state table: the
call does not end in a failed assertion but returns, and every index it reads lies in
`[s, s + assoc)`. (`assoc` fits an `int`; `s - 1` and `s + assoc` are representable in
`index_t`.) -/
theorem find_reclaim_asserts_hold (T : IndexT) (F : StateFlags) (dmc : cache_c) (g : Int)
    (cache_sets : List eio_lifo_cache_set) (cs : eio_lifo_cache_set)
    (hint : dmc.assoc < 2 ^ 31)
    (hsets : dmc.sp_cache_set = some cache_sets)
    (hcs : cache_set_at cache_sets g = some cs)
    (hw : T.walks (g * dmc.assoc) dmc.assoc)
    (hc1 : g * dmc.assoc ≤ cs.set_lifo_top)
    (hc2 : cs.set_lifo_top < g * dmc.assoc + dmc.assoc) :
    (∀ cache_state : Int → Nat, ∀ reads,
      eio_lifo_find_reclaim_dbn T F { dmc with cache_state := cache_state }
        (g * dmc.assoc) ≠ .bug reads) ∧
    (∀ cache_state : Int → Nat,
      ∃ r, eio_lifo_find_reclaim_dbn T F { dmc with cache_state := cache_state }
          (g * dmc.assoc) = .ok r ∧
        ∀ j ∈ r.reads, g * dmc.assoc ≤ j ∧ j < g * dmc.assoc + dmc.assoc) := by
  have hret : ∀ cache_state : Int → Nat,
      ∃ r, eio_lifo_find_reclaim_dbn T F { dmc with cache_state := cache_state }
          (g * dmc.assoc) = .ok r ∧
        ∀ j ∈ r.reads, g * dmc.assoc ≤ j ∧ j < g * dmc.assoc + dmc.assoc := by
    intro cache_state
    obtain ⟨r, p, hr, _, _, _, h⟩ := find_reclaim_walk T F
      { dmc with cache_state := cache_state } g cache_sets cs hint hsets hcs hw hc1 hc2
    refine ⟨r, hr, fun j hj => ?_⟩
    have hin : ∀ n : Nat, n ≤ dmc.assoc →
        j ∈ back_list (g * dmc.assoc) dmc.assoc cs.set_lifo_top 0 n →
        g * dmc.assoc ≤ j ∧ j < g * dmc.assoc + dmc.assoc := by
      intro n hn hmem
      obtain ⟨k, hk, rfl⟩ := (mem_back_list _ _ _ _ _ _).1 hmem
      exact back_slot_mem _ _ _ _ hc1 hc2 (by omega)
    rcases h with ⟨_, _, hreads, _⟩ | ⟨m, hm, _, _, hreads, _, _⟩
    · rw [hreads] at hj
      exact hin _ (le_refl _) hj
    · have hm1 : m < dmc.assoc := hm
      rw [hreads] at hj
      exact hin _ hm1 hj
  refine ⟨fun cache_state reads hbug => ?_, hret⟩
  obtain ⟨r, hr, _⟩ := hret cache_state
  rw [hr] at hbug
  cases hbug

theorem find_reclaim_asserts_hold_witness :
    (∀ cache_state : Int → Nat, ∀ reads,
      eio_lifo_find_reclaim_dbn s64 eio_flags
        { cache4 2 all_dirty (two_sets 0) with cache_state := cache_state }
        (0 * (cache4 2 all_dirty (two_sets 0)).assoc) ≠ .bug reads) ∧
    (∀ cache_state : Int → Nat,
      ∃ r, eio_lifo_find_reclaim_dbn s64 eio_flags
          { cache4 2 all_dirty (two_sets 0) with cache_state := cache_state }
          (0 * (cache4 2 all_dirty (two_sets 0)).assoc) = .ok r ∧
        ∀ j ∈ r.reads, 0 * ((cache4 2 all_dirty (two_sets 0)).assoc : Int) ≤ j ∧
          j < 0 * ((cache4 2 all_dirty (two_sets 0)).assoc : Int)
            + (cache4 2 all_dirty (two_sets 0)).assoc) :=
  find_reclaim_asserts_hold s64 eio_flags (cache4 2 all_dirty (two_sets 0)) 0 (two_sets 0)
    { set_lifo_top := 0, set_clean_next := 0 }
    (by decide) rfl (by decide) (by decide) (by decide) (by decide)

/-! ## Consecutive calls of `eio_lifo_find_reclaim_dbn` -/

/-- The `a` slots behind `c`, `c` included, are the slots of the set. -/
theorem mem_back_list_full (s : Int) (a : Nat) (c : Int) (hc1 : s ≤ c) (hc2 : c < s + a)
    (j : Int) : j ∈ back_list s a c 0 a ↔ s ≤ j ∧ j < s + a := by
  rw [mem_back_list]
  constructor
  · rintro ⟨k, hk, rfl⟩
    exact back_slot_mem _ _ _ _ hc1 hc2 (by omega)
  · rintro ⟨hj1, hj2⟩
    obtain ⟨k, hk, hkj⟩ := back_slot_surj s a c j hc1 hc2 hj1 hj2
    exact ⟨k, hk, by rw [Nat.zero_add, hkj]⟩

/-- C4. If exactly one block `b` of a set is in state exactly VALID and the eviction
cursor of the set is anywhere in the range of the set, then in every finite run of `n`
consecutive calls of `eio_lifo_find_reclaim_dbn` on the first slot of the set, the
block states left as they are in between, every call returns and stores `b`.
(`assoc` fits an `int`; `s - 1` and `s + assoc` are representable in `index_t`.) -/
theorem find_run_returns_single_valid (T : IndexT) (F : StateFlags) (dmc : cache_c)
    (g : Int) (cache_sets : List eio_lifo_cache_set) (cs : eio_lifo_cache_set)
    (b : Int) (n : Nat)
    (hint : dmc.assoc < 2 ^ 31)
    (hsets : dmc.sp_cache_set = some cache_sets)
    (hcs : cache_set_at cache_sets g = some cs)
    (hw : T.walks (g * dmc.assoc) dmc.assoc)
    (hc1 : g * dmc.assoc ≤ cs.set_lifo_top)
    (hc2 : cs.set_lifo_top < g * dmc.assoc + dmc.assoc)
    (hb1 : g * dmc.assoc ≤ b) (hb2 : b < g * dmc.assoc + dmc.assoc)
    (hvalid : dmc.cache_state b = F.VALID)
    (honly : ∀ j, g * dmc.assoc ≤ j → j < g * dmc.assoc + dmc.assoc →
      dmc.cache_state j = F.VALID → j = b) :
    ∃ dmc1, find_run T F (g * dmc.assoc) n dmc = .ok (dmc1, List.replicate n (some b)) :=
  find_run_single_valid T F g b n dmc cache_sets cs hint hsets hcs hw hc1 hc2 hb1 hb2
    hvalid honly

theorem find_run_returns_single_valid_witness :
    ∃ dmc1, find_run s64 eio_flags (0 * (cache4 2 block_two_valid (two_sets 0)).assoc) 3
        (cache4 2 block_two_valid (two_sets 0)) = .ok (dmc1, [some 2, some 2, some 2]) :=
  find_run_returns_single_valid s64 eio_flags (cache4 2 block_two_valid (two_sets 0)) 0
    (two_sets 0) { set_lifo_top := 0, set_clean_next := 0 } 2 3
    (by decide) rfl (by decide) (by decide) (by decide) (by decide) (by decide) (by decide)
    (by decide)
    (fun j _ _ h => by
      by_contra hne
      simp [cache4, block_two_valid, hne, eio_flags] at h)

/-- C17. Victim rotation. On a set whose eviction cursor `c` is in the range of the
set: if two different blocks of the set are in state exactly VALID, two consecutive
calls of `eio_lifo_find_reclaim_dbn` on the first slot of the set (block states left
as they are) both return and store two different indices; and if all `assoc` blocks of
the set are VALID, `assoc` consecutive calls store `c`, then the slot behind it, and so
on in descending cyclic order, every slot of the set exactly once.
(`assoc` fits an `int`; `s - 1` and `s + assoc` are representable in `index_t`.) -/
theorem find_reclaim_rotates (T : IndexT) (F : StateFlags) (dmc : cache_c) (g : Int)
    (cache_sets : List eio_lifo_cache_set) (cs : eio_lifo_cache_set)
    (hint : dmc.assoc < 2 ^ 31)
    (hsets : dmc.sp_cache_set = some cache_sets)
    (hcs : cache_set_at cache_sets g = some cs)
    (hw : T.walks (g * dmc.assoc) dmc.assoc)
    (hc1 : g * dmc.assoc ≤ cs.set_lifo_top)
    (hc2 : cs.set_lifo_top < g * dmc.assoc + dmc.assoc) :
    (∀ w1 w2 : Int, g * dmc.assoc ≤ w1 → w1 < g * dmc.assoc + dmc.assoc →
      g * dmc.assoc ≤ w2 → w2 < g * dmc.assoc + dmc.assoc →
      dmc.cache_state w1 = F.VALID → dmc.cache_state w2 = F.VALID → w1 ≠ w2 →
      ∃ r1 r2 v1 v2, eio_lifo_find_reclaim_dbn T F dmc (g * dmc.assoc) = .ok r1 ∧
        eio_lifo_find_reclaim_dbn T F r1.dmc (g * dmc.assoc) = .ok r2 ∧
        r1.victim = some v1 ∧ r2.victim = some v2 ∧ v1 ≠ v2) ∧
    ((∀ j, g * dmc.assoc ≤ j → j < g * dmc.assoc + dmc.assoc →
        dmc.cache_state j = F.VALID) →
      (∃ dmc1, find_run T F (g * dmc.assoc) dmc.assoc dmc
        = .ok (dmc1,
            (back_list (g * dmc.assoc) dmc.assoc cs.set_lifo_top 0 dmc.assoc).map some)) ∧
      (back_list (g * dmc.assoc) dmc.assoc cs.set_lifo_top 0 dmc.assoc).Nodup ∧
      (∀ j, j ∈ back_list (g * dmc.assoc) dmc.assoc cs.set_lifo_top 0 dmc.assoc ↔
        g * dmc.assoc ≤ j ∧ j < g * dmc.assoc + dmc.assoc) ∧
      ∀ k : Nat, k < dmc.assoc →
        (back_list (g * dmc.assoc) dmc.assoc cs.set_lifo_top 0 dmc.assoc)[k]?
          = some (back_slot (g * dmc.assoc) dmc.assoc cs.set_lifo_top k)) := by
  refine ⟨fun w1 w2 h11 h12 h21 h22 hv1 hv2 hne =>
    find_reclaim_twice_differ T F dmc g cache_sets cs w1 w2 hint hsets hcs hw hc1 hc2
      h11 h12 h21 h22 hv1 hv2 hne, fun hall => ⟨?_, ?_, ?_, ?_⟩⟩
  · exact find_run_all_valid T F g cs.set_lifo_top dmc.assoc hint hw hc1 hc2 dmc.assoc 0
      dmc cache_sets cs (by omega) rfl hsets hcs
      (back_slot_zero _ _ _ hc1).symm hall
  · exact nodup_back_list _ _ _ _ 0 (by omega)
  · exact mem_back_list_full _ _ _ hc1 hc2
  · intro k hk
    rw [getElem?_back_list _ _ _ _ 0 k hk, Nat.zero_add]

theorem find_reclaim_rotates_witness :
    ∃ dmc1, find_run s64 eio_flags (0 * (cache4 2 all_valid (two_sets 0)).assoc) 4
        (cache4 2 all_valid (two_sets 0)) = .ok (dmc1, [some 0, some 3, some 2, some 1]) :=
  ((find_reclaim_rotates s64 eio_flags (cache4 2 all_valid (two_sets 0)) 0 (two_sets 0)
    { set_lifo_top := 0, set_clean_next := 0 }
    (by decide) rfl (by decide) (by decide) (by decide) (by decide)).2
    (fun _ _ _ => rfl)).1

/-! ## Results of `eio_lifo_clean_set` -/

/-- The state table the loop of `eio_lifo_clean_set` leaves: the old state with
`DISKWRITEINPROG` set for the indices it marked, the old state for all others. -/
theorem clean_scan_state (T : IndexT) (F : StateFlags) (s e to_clean : Int) :
    ∀ (n : Nat) (st : Int → Nat) (i nw : Int) (j : Int),
      (clean_scan T F s e to_clean n st i nw).cache_state j =
        if j ∈ (clean_scan T F s e to_clean n st i nw).marked.map (fun p => p.1)
        then st j ||| F.DISKWRITEINPROG else st j := by
  intro n
  induction n with
  | zero => intro st i nw j; simp [clean_scan]
  | succ n ih =>
    intro st i nw j
    unfold clean_scan
    by_cases h1 : nw < to_clean
    · by_cases h2 : st i &&& (F.DIRTY ||| F.BLOCK_IO_INPROG) = F.DIRTY
      · simp only [if_pos h1, if_pos h2, List.map_cons, List.mem_cons]
        rw [ih (Function.update st i (st i ||| F.DISKWRITEINPROG)) (lifo_prev T s e i)
          (nw + 1) j]
        by_cases hj : j = i
        · subst hj
          simp only [Function.update_same, true_or, if_true]
          split_ifs
          · rw [Nat.or_assoc, Nat.or_self]
          · rfl
        · simp only [Function.update_noteq hj, hj, false_or]
      · simp only [if_pos h1, if_neg h2]
        exact ih st (lifo_prev T s e i) nw j
    · simp only [if_neg h1]
      simp

/-- The state table `eio_lifo_clean_set` leaves: the old state with `DISKWRITEINPROG`
set for the blocks it marked, the old state for all others. -/
theorem clean_set_state (T : IndexT) (F : StateFlags) (dmc : cache_c) (set to_clean : Int)
    (cache_sets : List eio_lifo_cache_set) (cs : eio_lifo_cache_set) (r : CleanResult)
    (hsets : dmc.sp_cache_set = some cache_sets)
    (hcs : cache_set_at cache_sets set = some cs)
    (hcall : eio_lifo_clean_set T F dmc set to_clean = .ok r) (j : Int) :
    r.dmc.cache_state j =
      if j ∈ r.marked.map (fun p => p.1) then dmc.cache_state j ||| F.DISKWRITEINPROG
      else dmc.cache_state j := by
  obtain ⟨n, hn⟩ : ∃ n, (to_int dmc.assoc).toNat = n := ⟨_, rfl⟩
  obtain ⟨r1, hr1, _, _, hmarked, hst, _⟩ :=
    clean_set_eq T F dmc set to_clean cache_sets cs n hsets hcs hn
  have hrr : r = r1 := Outcome.ok.inj (hcall.symm.trans hr1)
  rw [hrr, hst, hmarked]
  exact clean_scan_state T F _ _ to_clean n dmc.cache_state cs.set_clean_next 0 j

/-- The blocks of the set that pass the test of `eio_lifo_clean_set`, listed in
backward cyclic order from `c`: each such block once, and nothing else. -/
theorem eligible_list_spec (F : StateFlags) (cache_state : Int → Nat) (s : Int) (a : Nat)
    (c : Int) (hc1 : s ≤ c) (hc2 : c < s + a) :
    (eligible_list F cache_state s a c 0 a).Nodup ∧
    (∀ j, j ∈ eligible_list F cache_state s a c 0 a ↔
      (s ≤ j ∧ j < s + a) ∧ F.cleanable (cache_state j)) ∧
    (eligible_list F cache_state s a c 0 a).length
      = ((Finset.Ico s (s + a)).filter fun j => F.cleanable (cache_state j)).card := by
  have hnd : (eligible_list F cache_state s a c 0 a).Nodup :=
    (nodup_back_list s a c a 0 (by omega)).filter _
  have hmem : ∀ j, j ∈ eligible_list F cache_state s a c 0 a ↔
      (s ≤ j ∧ j < s + a) ∧ F.cleanable (cache_state j) := by
    intro j
    unfold eligible_list
    rw [List.mem_filter, mem_back_list_full s a c hc1 hc2, decide_eq_true_iff]
  refine ⟨hnd, hmem, ?_⟩
  rw [← List.toFinset_card_of_nodup hnd]
  congr 1
  ext j
  rw [List.mem_toFinset, hmem, Finset.mem_filter, Finset.mem_Ico]

/-- C10. Frame of `eio_lifo_clean_set(set, to_clean)` on a set whose clean cursor is in
the range of the set: the call returns, and afterwards the eviction cursor of every
set (this one included) and the clean cursor of every other set are unchanged; the
state of every block outside this set is unchanged; and the state of a block of this
set is unchanged or is its old state with the `DISKWRITEINPROG` bit set, the latter
only for a block whose old state had `DIRTY` set and no `BLOCK_IO_INPROG` bit set.
(`DIRTY` is taken to be no `BLOCK_IO_INPROG` bit; `assoc` fits an `int`; `s - 1` and
`s + assoc` are representable in `index_t`.) -/
theorem clean_set_frame (T : IndexT) (F : StateFlags) (dmc : cache_c)
    (g to_clean : Int) (cache_sets : List eio_lifo_cache_set) (cs : eio_lifo_cache_set)
    (hD : F.DIRTY &&& F.BLOCK_IO_INPROG = 0)
    (hint : dmc.assoc < 2 ^ 31)
    (hsets : dmc.sp_cache_set = some cache_sets)
    (hcs : cache_set_at cache_sets g = some cs)
    (hw : T.walks (g * dmc.assoc) dmc.assoc)
    (hc1 : g * dmc.assoc ≤ cs.set_clean_next)
    (hc2 : cs.set_clean_next < g * dmc.assoc + dmc.assoc) :
    ∃ r, eio_lifo_clean_set T F dmc g to_clean = .ok r ∧
      (∀ g1, r.dmc.lifo_top g1 = dmc.lifo_top g1) ∧
      (∀ g1, g1 ≠ g → r.dmc.clean_next g1 = dmc.clean_next g1) ∧
      (∀ j, ¬ (g * dmc.assoc ≤ j ∧ j < g * dmc.assoc + dmc.assoc) →
        r.dmc.cache_state j = dmc.cache_state j) ∧
      (∀ j, r.dmc.cache_state j = dmc.cache_state j ∨
        (r.dmc.cache_state j = dmc.cache_state j ||| F.DISKWRITEINPROG ∧
          dmc.cache_state j &&& F.DIRTY = F.DIRTY ∧
          dmc.cache_state j &&& F.BLOCK_IO_INPROG = 0)) := by
  obtain ⟨r, _, hr, _, _, _, _, _, hout, hin⟩ :=
    clean_set_block_frame T F dmc g to_clean cache_sets cs hD hint hsets hcs hw hc1 hc2
  obtain ⟨htop, hclean⟩ := clean_set_cursor_frame T F dmc g to_clean r hr
  exact ⟨r, hr, htop, hclean, hout, hin⟩

theorem clean_set_frame_witness :
    ∃ r, eio_lifo_clean_set s64 eio_flags (cache4 2 all_dirty (two_sets 0)) 0 2 = .ok r ∧
      r.dmc.lifo_top 0 = some 0 ∧ r.dmc.lifo_top 1 = some 4 ∧
      r.dmc.clean_next 1 = some 4 ∧ r.dmc.cache_state 4 = eio_flags.DIRTY := by
  obtain ⟨r, hr, htop, hclean, hout, _⟩ := clean_set_frame s64 eio_flags
    (cache4 2 all_dirty (two_sets 0)) 0 2 (two_sets 0)
    { set_lifo_top := 0, set_clean_next := 0 }
    (by decide) (by decide) rfl (by decide) (by decide) (by decide) (by decide)
  exact ⟨r, hr, (htop 0).trans (by decide), (htop 1).trans (by decide),
    (hclean 1 (by decide)).trans (by decide), (hout 4 (by decide)).trans rfl⟩

/-- C16. The exact result of `eio_lifo_clean_set` on a set whose clean cursor `c` is in
the range of the set. With `E` the number of blocks of the set whose state satisfies
`(state & (DIRTY | BLOCK_IO_INPROG)) == DIRTY` before the call, the call returns
`min(max(to_clean, 0), E)`; the blocks it marks are the first that many such blocks in
backward cyclic order from `c`, each marked once, and the state of a block after the
call is its old state with `DISKWRITEINPROG` set if it was marked and its old state
otherwise; and for `to_clean ≤ 0` the call returns 0 and changes no cursor and no block
state. (`assoc` fits an `int`; `s - 1` and `s + assoc` are representable in
`index_t`.) -/
theorem clean_set_result (T : IndexT) (F : StateFlags) (dmc : cache_c) (g to_clean : Int)
    (cache_sets : List eio_lifo_cache_set) (cs : eio_lifo_cache_set)
    (hint : dmc.assoc < 2 ^ 31)
    (hsets : dmc.sp_cache_set = some cache_sets)
    (hcs : cache_set_at cache_sets g = some cs)
    (hw : T.walks (g * dmc.assoc) dmc.assoc)
    (hc1 : g * dmc.assoc ≤ cs.set_clean_next)
    (hc2 : cs.set_clean_next < g * dmc.assoc + dmc.assoc) :
    ∃ r, eio_lifo_clean_set T F dmc g to_clean = .ok r ∧
      r.nr_writes = min (max to_clean 0)
        (((Finset.Ico (g * dmc.assoc) (g * dmc.assoc + dmc.assoc)).filter
          fun j => F.cleanable (dmc.cache_state j)).card : Int) ∧
      (r.marked.map fun p => p.1)
        = (eligible_list F dmc.cache_state (g * dmc.assoc) dmc.assoc cs.set_clean_next
            0 dmc.assoc).take r.nr_writes.toNat ∧
      (r.marked.map fun p => p.1).Nodup ∧
      (∀ j, r.dmc.cache_state j =
        if j ∈ r.marked.map (fun p => p.1) then dmc.cache_state j ||| F.DISKWRITEINPROG
        else dmc.cache_state j) ∧
      (eligible_list F dmc.cache_state (g * dmc.assoc) dmc.assoc cs.set_clean_next
        0 dmc.assoc).Nodup ∧
      (∀ j, j ∈ eligible_list F dmc.cache_state (g * dmc.assoc) dmc.assoc
          cs.set_clean_next 0 dmc.assoc ↔
        (g * dmc.assoc ≤ j ∧ j < g * dmc.assoc + dmc.assoc) ∧
          F.cleanable (dmc.cache_state j)) ∧
      (to_clean ≤ 0 → r.nr_writes = 0 ∧ r.marked = [] ∧
        r.dmc.cache_state = dmc.cache_state ∧
        (∀ g1, r.dmc.clean_next g1 = dmc.clean_next g1) ∧
        (∀ g1, r.dmc.lifo_top g1 = dmc.lifo_top g1)) := by
  obtain ⟨r, hr, hnw, hmarked⟩ :=
    clean_set_exact T F dmc g to_clean cache_sets cs hint hsets hcs hw hc1 hc2
  obtain ⟨hnd, hmem, hlen⟩ := eligible_list_spec F dmc.cache_state (g * dmc.assoc)
    dmc.assoc cs.set_clean_next hc1 hc2
  refine ⟨r, hr, ?_, hmarked, ?_,
    clean_set_state T F dmc g to_clean cache_sets cs r hsets hcs hr, hnd, hmem,
    fun hto => ?_⟩
  · rw [hnw, hlen]
  · rw [hmarked]
    exact hnd.sublist (List.take_sublist _ _)
  · obtain ⟨r0, hr0, h1, h2, _, h3, h4, h5⟩ :=
      clean_set_nothing_to_clean T F dmc g to_clean cache_sets cs hsets hcs hto
    have hrr : r0 = r := Outcome.ok.inj (hr0.symm.trans hr)
    rw [← hrr]
    exact ⟨h1, h2, h3, h4, h5⟩

theorem clean_set_result_witness :
    ∃ r, eio_lifo_clean_set s64 eio_flags (cache4 2 all_dirty (two_sets 0)) 0 2 = .ok r ∧
      r.nr_writes = 2 ∧ (r.marked.map fun p => p.1) = [0, 3] := by
  obtain ⟨r, hr, hnw, hmarked, _⟩ := clean_set_result s64 eio_flags
    (cache4 2 all_dirty (two_sets 0)) 0 2 (two_sets 0)
    { set_lifo_top := 0, set_clean_next := 0 }
    (by decide) rfl (by decide) (by decide) (by decide) (by decide)
  have hnw2 : r.nr_writes = 2 := hnw.trans (by decide)
  refine ⟨r, hr, hnw2, ?_⟩
  rw [hmarked, hnw2]
  decide

/-- The last of the `m ≥ 1` slots behind `c`. -/
theorem getLast?_back_list (s : Int) (a : Nat) (c : Int) (m : Nat) :
    (back_list s a c 0 (m + 1)).getLast? = some (back_slot s a c m) := by
  rw [List.getLast?_eq_getElem?, length_back_list, Nat.add_sub_cancel,
    getElem?_back_list s a c (m + 1) 0 m (by omega), Nat.zero_add]

/-- C5. Round-robin fairness of `eio_lifo_clean_set` on a set whose clean cursor `c`
is in the range of the set. Each call returns having visited the `m ≤ assoc` slots
behind `c` in backward cyclic order, `c` first, and when it has visited a slot the
clean cursor it leaves is the wrapped predecessor of the last slot visited (when it has
visited none, the cursor it leaves is `c`). So in a
run of consecutive calls on the set that scan at most `assoc` slots in total, the
slots visited are the slots behind `c` in backward cyclic order, pairwise distinct and
all in the set; and when the calls scan exactly `assoc` slots in total, every slot of
the set is visited exactly once. (`assoc` fits an `int`; `s - 1` and `s + assoc` are
representable in `index_t`.) -/
theorem clean_set_round_robin (T : IndexT) (F : StateFlags) (dmc : cache_c) (g : Int)
    (cache_sets : List eio_lifo_cache_set) (cs : eio_lifo_cache_set)
    (hint : dmc.assoc < 2 ^ 31)
    (hsets : dmc.sp_cache_set = some cache_sets)
    (hcs : cache_set_at cache_sets g = some cs)
    (hw : T.walks (g * dmc.assoc) dmc.assoc)
    (hc1 : g * dmc.assoc ≤ cs.set_clean_next)
    (hc2 : cs.set_clean_next < g * dmc.assoc + dmc.assoc) :
    (∀ to_clean : Int, ∃ r, eio_lifo_clean_set T F dmc g to_clean = .ok r ∧
      r.visited.length ≤ dmc.assoc ∧
      r.visited = back_list (g * dmc.assoc) dmc.assoc cs.set_clean_next 0 r.visited.length ∧
      (∀ k : Nat, k < r.visited.length →
        r.visited[k]? = some (back_slot (g * dmc.assoc) dmc.assoc cs.set_clean_next k)) ∧
      (r.visited = [] → r.dmc.clean_next g = some cs.set_clean_next) ∧
      (∀ last, r.visited.getLast? = some last →
        r.dmc.clean_next g = some (prev_slot (g * dmc.assoc) dmc.assoc last))) ∧
    (∀ to_cleans : List Int, ∃ dmc1 visited,
      clean_run T F g to_cleans dmc = .ok (dmc1, visited) ∧
      (visited.length ≤ dmc.assoc →
        visited = back_list (g * dmc.assoc) dmc.assoc cs.set_clean_next 0 visited.length ∧
        visited.Nodup ∧
        ∀ j ∈ visited, g * dmc.assoc ≤ j ∧ j < g * dmc.assoc + dmc.assoc) ∧
      (visited.length = dmc.assoc →
        ∀ j, g * dmc.assoc ≤ j → j < g * dmc.assoc + dmc.assoc →
          j ∈ visited ∧ visited.count j = 1)) := by
  constructor
  · intro to_clean
    obtain ⟨r, m, hr, hm, hvis, hcsets, _, _⟩ :=
      clean_set_walk T F dmc g to_clean cache_sets cs hint hsets hcs hw hc1 hc2
    have hlen : r.visited.length = m := by rw [hvis, length_back_list]
    have hnext : r.dmc.clean_next g
        = some (back_slot (g * dmc.assoc) dmc.assoc cs.set_clean_next m) := by
      unfold cache_c.clean_next
      rw [hcsets]
      simp only [Option.some_bind]
      rw [cache_set_at_set_self cache_sets g cs _ hcs]
      rfl
    refine ⟨r, hr, by omega, by rw [hlen]; exact hvis, fun k hk => ?_, fun hnil => ?_,
      fun last hlast => ?_⟩
    · rw [hvis, getElem?_back_list _ _ _ m 0 k (by omega), Nat.zero_add]
    · rw [hnil] at hlen
      have hm0 : m = 0 := hlen.symm
      rw [hnext, hm0, back_slot_zero _ _ _ hc1]
    · cases m with
      | zero =>
        rw [hvis] at hlast
        simp [back_list] at hlast
      | succ m =>
        rw [hvis, getLast?_back_list] at hlast
        rw [hnext, ← Option.some.inj hlast, prev_slot_back _ _ _ m hc1 (by omega)]
  · intro to_cleans
    obtain ⟨dmc1, visited, hrun, hle, hfull⟩ := clean_run_round_robin T F g to_cleans dmc
      cache_sets cs hint hw hsets hcs hc1 hc2
    obtain ⟨dmc2, visited2, hrun2, htrace⟩ := clean_run_trace T F g dmc.assoc hint hw
      to_cleans dmc cache_sets cs rfl hsets hcs hc1 hc2
    have heq : (dmc1, visited) = (dmc2, visited2) := Outcome.ok.inj (hrun.symm.trans hrun2)
    have hv : visited = visited2 := congrArg Prod.snd heq
    rw [← hv] at htrace
    refine ⟨dmc1, visited, hrun, fun h => ⟨htrace h, (hle h).1, (hle h).2⟩, fun h j hj1 hj2 => ?_⟩
    have hj := hfull h j hj1 hj2
    exact ⟨hj, List.count_eq_one_of_mem (hle (le_of_eq h)).1 hj⟩

theorem clean_set_round_robin_witness :
    ∃ dmc1, clean_run s64 eio_flags 0 [1, 1, 2] (cache4 2 all_dirty (two_sets 0))
      = .ok (dmc1, [0, 3, 2, 1]) := by
  obtain ⟨dmc1, visited, hrun, _, _⟩ := (clean_set_round_robin s64 eio_flags
    (cache4 2 all_dirty (two_sets 0)) 0 (two_sets 0)
    { set_lifo_top := 0, set_clean_next := 0 }
    (by decide) rfl (by decide) (by decide) (by decide) (by decide)).2 [1, 1, 2]
  have hev : (clean_run s64 eio_flags 0 [1, 1, 2] (cache4 2 all_dirty (two_sets 0))).map
      (fun p => p.2) = .ok [0, 3, 2, 1] := by
    decide!
  rw [hrun] at hev
  have hvis : visited = [0, 3, 2, 1] := Outcome.ok.inj hev
  exact ⟨dmc1, by rw [hrun, hvis]⟩

/-! ## The cursor-range invariant, call by call -/

theorem find_reclaim_preserves_range (T : IndexT) (F : StateFlags) (dmc : cache_c)
    (g : Int) (cache_sets : List eio_lifo_cache_set) (cs : eio_lifo_cache_set)
    (hint : dmc.assoc < 2 ^ 31)
    (hsets : dmc.sp_cache_set = some cache_sets)
    (hcs : cache_set_at cache_sets g = some cs)
    (hw : T.walks (g * dmc.assoc) dmc.assoc)
    (hinv : cursors_in_range dmc) :
    ∃ r, eio_lifo_find_reclaim_dbn T F dmc (g * dmc.assoc) = .ok r ∧
      cursors_in_range r.dmc := by
  have hcur := hinv cache_sets hsets g cs hcs
  obtain ⟨r, c1, hr, hd, hc1, hc2⟩ := find_reclaim_cursor_in_range T F dmc g cache_sets cs
    hint hsets hcs hw hcur.1.1 hcur.1.2
  refine ⟨r, hr, ?_⟩
  rw [hd]
  intro cs2 hcs2 g2 x hx
  cases hcs2
  rcases cache_set_at_set cache_sets g2 g cs _ x hcs hx with ⟨rfl, rfl⟩ | ⟨_, hx1⟩
  · exact ⟨⟨hc1, hc2⟩, hcur.2⟩
  · exact hinv cache_sets hsets g2 x hx1

theorem clean_set_preserves_range (T : IndexT) (F : StateFlags) (dmc : cache_c)
    (set to_clean : Int) (cache_sets : List eio_lifo_cache_set) (cs : eio_lifo_cache_set)
    (hint : dmc.assoc < 2 ^ 31)
    (hsets : dmc.sp_cache_set = some cache_sets)
    (hcs : cache_set_at cache_sets set = some cs)
    (hw : T.walks (set * dmc.assoc) dmc.assoc)
    (hinv : cursors_in_range dmc) :
    ∃ r, eio_lifo_clean_set T F dmc set to_clean = .ok r ∧ cursors_in_range r.dmc := by
  have hcur := hinv cache_sets hsets set cs hcs
  obtain ⟨r, m, hr, hm, _, hcsets, _, _⟩ := clean_set_walk T F dmc set to_clean
    cache_sets cs hint hsets hcs hw hcur.2.1 hcur.2.2
  have ha : r.dmc.assoc = dmc.assoc := by
    obtain ⟨n, hn⟩ : ∃ n, (to_int dmc.assoc).toNat = n := ⟨_, rfl⟩
    obtain ⟨r2, hr2, _, _, _, _, _, ha, _⟩ :=
      clean_set_eq T F dmc set to_clean cache_sets cs n hsets hcs hn
    rw [Outcome.ok.inj (hr.symm.trans hr2)]
    exact ha
  have hb := back_slot_mem (set * dmc.assoc) dmc.assoc cs.set_clean_next m
    hcur.2.1 hcur.2.2 hm
  refine ⟨r, hr, ?_⟩
  intro cs2 hcs2 g2 x hx
  rw [hcsets] at hcs2
  cases hcs2
  rw [ha]
  rcases cache_set_at_set cache_sets g2 set cs _ x hcs hx with ⟨rfl, rfl⟩ | ⟨_, hx1⟩
  · exact ⟨hcur.1, hb⟩
  · exact hinv cache_sets hsets g2 x hx1

/-- C3. The cursor-range invariant: for every set `g` of the set array, the eviction
cursor and the clean cursor lie in `[g * assoc, g * assoc + assoc)`. With `assoc > 0`
it holds after a successful `eio_lifo_cache_sets_init`; from every state in which it
holds, a call of `eio_lifo_find_reclaim_dbn` on the first slot of a set of the array,
and a call of `eio_lifo_clean_set` on a set of the array with any `to_clean`
(`to_clean ≤ 0` included), return and leave a state in which it holds; hence it holds
in every state reachable from the initialisation by these calls and by changes of
block states. (`assoc` and the number of sets fit an `int`; for every set, `s - 1` and
`s + assoc` are representable in `index_t`, and `0` and `numSets * assoc` in the type
of the product `i * dmc->assoc`.) -/
theorem cursor_range_invariant (T A : IndexT) (F : StateFlags) (dmc0 : cache_c)
    (mem : Nat → eio_lifo_cache_set)
    (hint : dmc0.assoc < 2 ^ 31)
    (hnum : dmc0.size >>> dmc0.consecutive_shift < 2 ^ 31)
    (hpos : 0 < dmc0.assoc)
    (h0 : T.holds 0 ∧ A.holds 0)
    (hmax : T.holds (((dmc0.size >>> dmc0.consecutive_shift) * dmc0.assoc : Nat) : Int) ∧
      A.holds (((dmc0.size >>> dmc0.consecutive_shift) * dmc0.assoc : Nat) : Int))
    (hwalk : ∀ g : Int, 0 ≤ g → g < ((dmc0.size >>> dmc0.consecutive_shift : Nat) : Int) →
      T.walks (g * dmc0.assoc) dmc0.assoc) :
    ((eio_lifo_cache_sets_init T A dmc0 (some mem)).2 = 0 ∧
      cursors_in_range (eio_lifo_cache_sets_init T A dmc0 (some mem)).1) ∧
    (∀ (dmc : cache_c) (g : Int) (cache_sets : List eio_lifo_cache_set)
        (cs : eio_lifo_cache_set),
      dmc.assoc < 2 ^ 31 → dmc.sp_cache_set = some cache_sets →
      cache_set_at cache_sets g = some cs → T.walks (g * dmc.assoc) dmc.assoc →
      cursors_in_range dmc →
      ∃ r, eio_lifo_find_reclaim_dbn T F dmc (g * dmc.assoc) = .ok r ∧
        cursors_in_range r.dmc) ∧
    (∀ (dmc : cache_c) (set to_clean : Int) (cache_sets : List eio_lifo_cache_set)
        (cs : eio_lifo_cache_set),
      dmc.assoc < 2 ^ 31 → dmc.sp_cache_set = some cache_sets →
      cache_set_at cache_sets set = some cs → T.walks (set * dmc.assoc) dmc.assoc →
      cursors_in_range dmc →
      ∃ r, eio_lifo_clean_set T F dmc set to_clean = .ok r ∧ cursors_in_range r.dmc) ∧
    ∀ dmc, reachable T A F dmc0 mem dmc →
      cursors_in_range dmc ∧ dmc.assoc = dmc0.assoc ∧
      ∃ cache_sets, dmc.sp_cache_set = some cache_sets ∧
        cache_sets.length = dmc0.size >>> dmc0.consecutive_shift := by
  have hall := reachable_cursors_in_range T A F dmc0 mem hint hnum hpos h0 hmax hwalk
  obtain ⟨cache_sets0, hcall, _, _⟩ := sets_init_array T A dmc0 mem hnum h0 hmax
  refine ⟨⟨?_, (hall _ reachable.init).1⟩, ?_, ?_, hall⟩
  · rw [hcall]
  · intro dmc g cache_sets cs hi hs hc hw hinv
    exact find_reclaim_preserves_range T F dmc g cache_sets cs hi hs hc hw hinv
  · intro dmc set to_clean cache_sets cs hi hs hc hw hinv
    exact clean_set_preserves_range T F dmc set to_clean cache_sets cs hi hs hc hw hinv

theorem cursor_range_invariant_witness :
    cursors_in_range (cache4_init s64 2 all_invalid) ∧
    (∃ r, eio_lifo_find_reclaim_dbn s64 eio_flags (cache4_init s64 2 all_invalid)
        (0 * (cache4_init s64 2 all_invalid).assoc) = .ok r ∧
      r.dmc.lifo_top 0 = some 3 ∧ cursors_in_range r.dmc) ∧
    ∀ dmc, reachable s64 u32 eio_flags (cache4_fresh 2 all_invalid) stale_memory dmc →
      cursors_in_range dmc := by
  obtain ⟨⟨_, hinit⟩, hfind, _, hreach⟩ := cursor_range_invariant s64 u32 eio_flags
    (cache4_fresh 2 all_invalid) stale_memory (by decide) (by decide) (by decide)
    (by decide) (by decide)
    (fun g hg0 hg1 => by
      have h2 : g < 2 := hg1
      interval_cases g <;> decide)
  refine ⟨hinit, ?_, fun dmc h => (hreach dmc h).1⟩
  obtain ⟨r, hr, hinv⟩ := hfind (cache4_init s64 2 all_invalid) 0 (two_sets 0)
    { set_lifo_top := 0, set_clean_next := 0 } (by decide) (by with_unfolding_all rfl)
    (by decide) (by decide) hinit
  have hev : (eio_lifo_find_reclaim_dbn s64 eio_flags (cache4_init s64 2 all_invalid)
      (0 * (cache4_init s64 2 all_invalid).assoc)).map (fun r => r.dmc.lifo_top 0)
      = .ok (some 3) := by
    decide!
  rw [hr] at hev
  exact ⟨r, hr, Outcome.ok.inj hev, hinv⟩

/-! ## Remark: an unsigned index type

The theorems on walking a set carry the hypothesis `T.walks s assoc`, which asks that
`s - 1` be representable. In the signed index type `s64` that models `index_t` it
holds for every set. The theorems of this section are not about the policy as
modelled: they record why the hypothesis is there, by evaluating the same functions in
an unsigned index type (`u64`) on the set whose first slot is index 0, where the step
`i--; if (i < start_index) i = end_index - 1;` does not wrap. -/

/-- Unsigned index type, set 0. After `eio_lifo_cache_sets_init` (two sets of four blocks,
all VALID) the eviction cursor of set 0 is 0; one `eio_lifo_find_reclaim_dbn` with
`start_index = 0` returns block 0 and leaves `set_lifo_top = 2^64 - 1`, outside
`[0, 4)`; the next call on the set stops in `EIO_ASSERT(i < end_index)`. -/
theorem set0_eviction_cursor_escapes :
    (cache4_init u64 2 fun _ => eio_flags.VALID).lifo_top 0 = some 0 ∧
    (eio_lifo_find_reclaim_dbn u64 eio_flags
      (cache4_init u64 2 fun _ => eio_flags.VALID) 0).map (fun r => r.view 0)
      = .ok (some 0, some 18446744073709551615, [0]) ∧
    ((eio_lifo_find_reclaim_dbn u64 eio_flags
        (cache4_init u64 2 fun _ => eio_flags.VALID) 0).bind
      fun r => eio_lifo_find_reclaim_dbn u64 eio_flags r.dmc 0).map (fun r => r.view 0)
      = .bug [] := by
  decide!

/-- Unsigned index type, set 0. Block 2 is the only VALID block of set 0 (blocks 0..3) and
the eviction cursor is at 0: the call reads block 0, steps to `2^64 - 1` and stops in
`EIO_ASSERT(i < end_index)` without returning block 2. With block 0 the only VALID
block, a first call returns 0 and the second stops in the assertion. -/
theorem set0_single_valid_not_returned :
    (eio_lifo_find_reclaim_dbn u64 eio_flags
      (cache4 2 (fun i => if i = 2 then eio_flags.VALID else eio_flags.INVALID)
        [⟨0, 0⟩, ⟨4, 4⟩]) 0).map (fun r => r.view 0) = .bug [0] ∧
    (eio_lifo_find_reclaim_dbn u64 eio_flags
      (cache4 2 (fun i => if i = 0 then eio_flags.VALID else eio_flags.INVALID)
        [⟨0, 0⟩, ⟨4, 4⟩]) 0).map (fun r => r.view 0)
      = .ok (some 0, some 18446744073709551615, [0]) ∧
    ((eio_lifo_find_reclaim_dbn u64 eio_flags
        (cache4 2 (fun i => if i = 0 then eio_flags.VALID else eio_flags.INVALID)
          [⟨0, 0⟩, ⟨4, 4⟩]) 0).bind
      fun r => eio_lifo_find_reclaim_dbn u64 eio_flags r.dmc 0).map (fun r => r.view 0)
      = .bug [] := by
  decide!

/-- Unsigned index type, set 0. With the clean cursor of set 0 at 0 and no cleanable block,
one `eio_lifo_clean_set` scans `assoc = 4` slots: it visits 0, `2^64 - 1`, `2^64 - 2`,
`2^64 - 3`, so slots 1, 2, 3 of the set are not visited, and the cursor it leaves,
`2^64 - 4`, is not the wrapped predecessor of a slot of the set. -/
theorem set0_clean_scan_leaves_set :
    (eio_lifo_clean_set u64 eio_flags
      (cache4 2 (fun _ => eio_flags.INVALID) [⟨0, 0⟩, ⟨4, 4⟩]) 0 1).map (fun r => r.view 0)
      = .ok (0, some 18446744073709551612,
          [0, 18446744073709551615, 18446744073709551614, 18446744073709551613], []) := by
  decide!

/-- Unsigned index type. Scenario A (set 25, first slot 100) goes as in every index
type: the call visits 103, 102, 101, 100, marks block 100 only, returns 1 and leaves
the clean cursor at 103. On set 0, with all blocks VALID (none cleanable) and the clean
cursor at its first slot 0, the call scans `assoc = 4` slots, returns 0 and persists
the clean cursor `2^64 - 4`. -/
theorem scenario_a_and_set0_full_scan :
    (eio_lifo_clean_set u64 eio_flags
      (cache4 26 (scenario_a_state eio_flags) scenario_a_sets) 25 2).map
        (fun r => r.view 25)
      = .ok (1, some 103, [103, 102, 101, 100], [100]) ∧
    (cache4 2 (fun _ => eio_flags.VALID) [⟨0, 0⟩, ⟨4, 4⟩]).clean_next 0 = some 0 ∧
    (eio_lifo_clean_set u64 eio_flags
      (cache4 2 (fun _ => eio_flags.VALID) [⟨0, 0⟩, ⟨4, 4⟩]) 0 2).map
        (fun r => (r.nr_writes, r.visited.length, r.dmc.clean_next 0))
      = .ok (0, 4, some 18446744073709551612) := by
  decide!

/-- Unsigned index type, set 0. Every state word DIRTY, clean cursor of set 0 at 0,
`to_clean = 2`: the call marks index 0 and index `2^64 - 1`; the state word at
`2^64 - 1`, which is not a block of set 0 (blocks 0..3), changes from `DIRTY` to
`DIRTY | DISKWRITEINPROG`. -/
theorem set0_clean_marks_outside_set :
    (eio_lifo_clean_set u64 eio_flags
      (cache4 2 (fun _ => eio_flags.DIRTY) [⟨0, 0⟩, ⟨4, 4⟩]) 0 2).map
        (fun r => (r.view 0, r.dmc.cache_state 18446744073709551615))
      = .ok ((2, some 18446744073709551614, [0, 18446744073709551615],
              [0, 18446744073709551615]),
             eio_flags.DIRTY ||| eio_flags.DISKWRITEINPROG) ∧
    eio_flags.DIRTY ||| eio_flags.DISKWRITEINPROG ≠ eio_flags.DIRTY := by
  decide!

/-- Unsigned index type, set 0. Eviction cursor of set 0 at 1, block 3 the only VALID
block of the set (blocks 0..3): the first VALID block in the order 1, 0, 3, 2 is 3,
but the call reads 1 and 0, steps to `2^64 - 1` and stops in
`EIO_ASSERT(i < end_index)`: no victim is returned although a block of the set is
VALID. With blocks 0 and 2 VALID and the cursor at 0 the call returns 0 and persists
the cursor `2^64 - 1`, not the wrapped predecessor 3 of the victim. -/
theorem set0_hit_not_found :
    (eio_lifo_find_reclaim_dbn u64 eio_flags
      (cache4 2 (fun i => if i = 3 then eio_flags.VALID else eio_flags.INVALID)
        [⟨1, 0⟩, ⟨4, 4⟩]) 0).map (fun r => r.view 0) = .bug [1, 0] ∧
    (eio_lifo_find_reclaim_dbn u64 eio_flags
      (cache4 2 (fun i => if i = 0 ∨ i = 2 then eio_flags.VALID else eio_flags.INVALID)
        [⟨0, 0⟩, ⟨4, 4⟩]) 0).map (fun r => r.view 0)
      = .ok (some 0, some 18446744073709551615, [0]) := by
  decide!

/-- Unsigned index type, set 0. No block VALID, eviction cursor of set 0 at 2: the call
reads blocks 2, 1, 0, steps to `2^64 - 1` and stops in `EIO_ASSERT(i < end_index)`; it
does not examine slot 3, does not return, and persists no cursor. -/
theorem set0_miss_stops_in_assert :
    (eio_lifo_find_reclaim_dbn u64 eio_flags
      (cache4 2 (fun _ => eio_flags.INVALID) [⟨2, 0⟩, ⟨4, 4⟩]) 0).map (fun r => r.view 0)
      = .bug [2, 1, 0] := by
  decide!

/-- Unsigned index type, set 0. In a freshly initialised cache (two sets of four blocks,
all DIRTY) `assoc = 4 > 0`, `start_index = 0` is the first slot of set 0 and the
eviction cursor of set 0 is 0, in `[0, 4)`; the call reads block 0 and then fails
`EIO_ASSERT(i < end_index)` on its second iteration. -/
theorem set0_assert_fails :
    (cache4_init u64 2 fun _ => eio_flags.DIRTY).assoc = 4 ∧
    (cache4_init u64 2 fun _ => eio_flags.DIRTY).lifo_top 0 = some 0 ∧
    (eio_lifo_find_reclaim_dbn u64 eio_flags
      (cache4_init u64 2 fun _ => eio_flags.DIRTY) 0).map (fun r => r.view 0)
      = .bug [0] := by
  decide!

/-- Unsigned index type, set 0. Clean cursor of set 0 at 0, block 3 the only DIRTY block
(every other state word INVALID), `to_clean = 1`: one block of the set is eligible;
the call examines 0, `2^64 - 1`, `2^64 - 2`, `2^64 - 3`, marks nothing and returns 0. -/
theorem set0_clean_count_short :
    (eio_lifo_clean_set u64 eio_flags
      (cache4 2 (fun i => if i = 3 then eio_flags.DIRTY else eio_flags.INVALID)
        [⟨0, 0⟩, ⟨4, 4⟩]) 0 1).map (fun r => (r.view 0, r.dmc.cache_state 3))
      = .ok ((0, some 18446744073709551612,
              [0, 18446744073709551615, 18446744073709551614, 18446744073709551613], []),
             eio_flags.DIRTY) := by
  decide!

/-- Unsigned index type, set 0. All blocks VALID, freshly initialised cache (eviction
cursor of set 0 at 0): the first call returns block 0 and the second stops in
`EIO_ASSERT(i < end_index)`, so two consecutive calls do not return two indices, and
four consecutive calls do not return the four slots. -/
theorem set0_rotation_stops :
    (find_run u64 eio_flags 0 1 (cache4_init u64 2 fun _ => eio_flags.VALID)).map
        (fun p => p.2) = .ok [some 0] ∧
    (find_run u64 eio_flags 0 2 (cache4_init u64 2 fun _ => eio_flags.VALID)).map
        (fun p => p.2) = .bug [] ∧
    (find_run u64 eio_flags 0 4 (cache4_init u64 2 fun _ => eio_flags.VALID)).map
        (fun p => p.2) = .bug [] := by
  decide!

end EnhanceIO
